import Mathlib

/-!
Verification of the Numino core engines (solver, constructor, deconstructor)
against their specification.  The Python sources are shallowly embedded:
pure functions become Lean functions, the stateful backtracking solver is
modelled by explicit state passing, Python `set` domains become `Finset`s,
Python dicts become association lists (insertion order preserved), and the
`random.Random` generator is modelled generically by its `_randbelow`
primitive (CPython implements `shuffle` and `choice` on top of it), with an
exact MT19937 instance for concrete seeds.
-/

namespace Numino

abbrev Coord := Nat × Nat

abbrev Val := Nat × Nat

/-- `Given` from solver.py: a cell with optionally fixed number and/or color.
Colors are represented by their index in a global palette encoding. -/
structure Given where
  r : Nat
  c : Nat
  num : Option Nat := none
  col : Option Nat := none
deriving DecidableEq

/-- `Puzzle` from solver.py. -/
structure Puzzle where
  rows : Nat
  cols : Nat
  palette : List Nat
  numbers : List Nat
  row_sums : List Int
  col_sums : List Int
  givens : List Given
deriving DecidableEq

/-! ### Python list/dict/random primitives -/

/-- Swap of two positions of a list (`x[i], x[j] = x[j], x[i]`).
Out-of-range indices leave the list unchanged (CPython's shuffle never
produces them). -/
def pySwap {α : Type _} (l : List α) (i j : Nat) : List α :=
  match l.get? i, l.get? j with
  | some a, some b => (l.set i b).set j a
  | _, _ => l

/-- The Fisher–Yates loop of CPython `random.shuffle`:
`for i in reversed(range(1, len(x))): j = randbelow(i+1); swap i j`.
The argument is the current value of `i`. -/
def shuffleGo {σ α : Type _} (rb : Nat → σ → Nat × σ) : Nat → List α → σ → List α × σ
  | 0, l, s => (l, s)
  | i+1, l, s =>
    let js := rb (i+2) s
    shuffleGo rb i (pySwap l (i+1) js.1) js.2

/-- CPython `random.shuffle`, parametric over the generator's `_randbelow`. -/
def pyShuffle {σ α : Type _} (rb : Nat → σ → Nat × σ) (l : List α) (s : σ) : List α × σ :=
  shuffleGo rb (l.length - 1) l s

/-- CPython `random.choice(seq) = seq[self._randbelow(len(seq))]`.
The default is returned for an empty sequence (CPython raises; all call
sites in the sources guard against emptiness). -/
def pyChoice {σ α : Type _} (rb : Nat → σ → Nat × σ) (dflt : α) (l : List α) (s : σ) : α × σ :=
  let js := rb l.length s
  (l.getD js.1 dflt, js.2)

/-- Stable insertion of `x` before the first element `y` with `¬ le x y`;
together with `isortBy` this models Python's stable `list.sort`. -/
def insertLe {α : Type _} (le : α → α → Bool) (x : α) : List α → List α
  | [] => [x]
  | y :: ys => if le x y then x :: y :: ys else y :: insertLe le x ys

/-- Stable sort (same result as Python's stable `list.sort(key=...)` for a
total preorder comparator). -/
def isortBy {α : Type _} (le : α → α → Bool) : List α → List α
  | [] => []
  | x :: xs => insertLe le x (isortBy le xs)

/-- Python dict lookup on an association list (first matching key). -/
def alookup {κ β : Type _} [DecidableEq κ] : List (κ × β) → κ → Option β
  | [], _ => none
  | kv :: rest, k => if kv.1 = k then some kv.2 else alookup rest k

/-- Python `del d[k]` on an association list (removes the first match). -/
def aerase {κ β : Type _} [DecidableEq κ] : List (κ × β) → κ → List (κ × β)
  | [], _ => []
  | kv :: rest, k => if kv.1 = k then rest else kv :: aerase rest k

/-- `list(s)` for a Python set of values: the canonical ascending
(lexicographic) linearization, obtained by scanning the bounding product
of ranges and keeping the members — a structurally evaluating definition.
Any fixed order is a faithful model of CPython set iteration here because
every such list is immediately shuffled with the generator, which this
embedding treats parametrically. -/
def domList (d : Finset Val) : List Val :=
  ((List.range ((d.image Prod.fst).max.unbot' 0 + 1)).flatMap (fun n =>
    (List.range ((d.image Prod.snd).max.unbot' 0 + 1)).map (fun c => ((n, c) : Val)))).filter
    (fun v => decide (v ∈ d))

/-- `min(n for (n, _) in d)` as an integer (0 for empty; all uses are
guarded by an emptiness check, as in the source). -/
def domMinNum (d : Finset Val) : Int := (((d.image Prod.fst).min.untop' 0 : Nat) : Int)

/-- `max(n for (n, _) in d)` as an integer. -/
def domMaxNum (d : Finset Val) : Int := (((d.image Prod.fst).max.unbot' 0 : Nat) : Int)

/-- Python `str.upper()` for ASCII strings, defined over the character
list so that it evaluates structurally (`String.toUpper` itself is
defined via byte-position recursion that the kernel cannot unfold). -/
def pyUpper (s : String) : String := ⟨s.data.map Char.toUpper⟩

/-- Python `str.strip()` (whitespace at both ends), structural. -/
def pyStrip (s : String) : String :=
  ⟨((s.data.dropWhile Char.isWhitespace).reverse.dropWhile Char.isWhitespace).reverse⟩

/-! ### Solver (solver.py, class NuminoSolver)

The solver's mutable object state (`dom`, `assign`, `row_sum_now`,
`col_sum_now`, the RNG and the accumulated `solutions` list) is threaded
explicitly.  `findTwo`/`maxSolutions` are the arguments of `solve`. -/

/-- Constant data of one solver run. -/
structure SolverCtx (σ : Type _) where
  p : Puzzle
  rb : Nat → σ → Nat × σ
  findTwo : Bool
  maxSolutions : Nat

/-- Mutable state of a solver run. -/
structure SState (σ : Type _) where
  dom : Coord → Finset Val
  assign : List (Coord × Val)
  rowSumNow : List Int
  colSumNow : List Int
  rng : σ
  solutions : List (List (Coord × Val))

/-- The initial per-cell domain `numbers × palette`. -/
def baseDomVals (p : Puzzle) : Finset Val := p.numbers.toFinset ×ˢ p.palette.toFinset

/-- Applying one given as a domain restriction (`__init__`, lines 61-68). -/
def applyGiven (dom : Coord → Finset Val) (g : Given) : Coord → Finset Val :=
  let rc : Coord := (g.r, g.c)
  let allowed1 := match g.num with
    | some n => (dom rc).filter (fun v => v.1 = n)
    | none => dom rc
  let allowed2 := match g.col with
    | some col => allowed1.filter (fun v => v.2 = col)
    | none => allowed1
  Function.update dom rc allowed2

/-- The given-restricted initial domain map. -/
def initDom (p : Puzzle) : Coord → Finset Val :=
  p.givens.foldl applyGiven (fun _ => baseDomVals p)

/-- The solver state right after `__init__`. -/
def initState {σ : Type _} (p : Puzzle) (rng : σ) : SState σ :=
  { dom := initDom p, assign := [], rowSumNow := List.replicate p.rows 0,
    colSumNow := List.replicate p.cols 0, rng := rng, solutions := [] }

/-- `self.cells`: grid coordinates in row-major order. -/
def cellsList (p : Puzzle) : List Coord :=
  (List.range p.rows).flatMap (fun r => (List.range p.cols).map (fun c => (r, c)))

/-- `neighbors4` (same emission order: up, down, left, right). -/
def neighbors4 (R C : Nat) (rc : Coord) : List Coord :=
  (if 0 < rc.1 then [(rc.1 - 1, rc.2)] else []) ++
  (if rc.1 + 1 < R then [(rc.1 + 1, rc.2)] else []) ++
  (if 0 < rc.2 then [(rc.1, rc.2 - 1)] else []) ++
  (if rc.2 + 1 < C then [(rc.1, rc.2 + 1)] else [])

/-- `l[i]` for the running-sum lists. -/
def listGetI (l : List Int) (i : Nat) : Int := l.getD i 0

/-- `l[i] += d` for the running-sum lists. -/
def listSetAdd (l : List Int) (i : Nat) (d : Int) : List Int := l.set i (l.getD i 0 + d)

/-- Loop body shared by `minmax_remaining_row/col`: accumulate per-cell
domain minima/maxima over unassigned cells, with the source's early return
`(10**18, -10**18)` on an empty domain. -/
def minmaxGo {σ : Type _} (st : SState σ) : List Coord → Int × Int → Int × Int
  | [], acc => acc
  | rc :: rest, acc =>
    if (alookup st.assign rc).isSome then minmaxGo st rest acc
    else
      let d := st.dom rc
      if d = ∅ then ((10 : Int)^18, -((10 : Int)^18))
      else minmaxGo st rest (acc.1 + domMinNum d, acc.2 + domMaxNum d)

/-- `minmax_remaining_row`. -/
def minmax_remaining_row {σ : Type _} (st : SState σ) (C r : Nat) : Int × Int :=
  minmaxGo st ((List.range C).map (fun c => (r, c))) (0, 0)

/-- `minmax_remaining_col`. -/
def minmax_remaining_col {σ : Type _} (st : SState σ) (R c : Nat) : Int × Int :=
  minmaxGo st ((List.range R).map (fun r => (r, c))) (0, 0)

/-- The two feasibility-bound loops of `sums_ok_local`: sum the min/max
numbers over the OTHER unassigned cells of a line, `none` on an empty
domain (the source's `return False`). -/
def sumsBoundGo {σ : Type _} (st : SState σ) (rc : Coord) :
    List Coord → Int × Int → Option (Int × Int)
  | [], acc => some acc
  | rc2 :: rest, acc =>
    if rc2 = rc ∨ (alookup st.assign rc2).isSome then sumsBoundGo st rc rest acc
    else
      let d := st.dom rc2
      if d = ∅ then none
      else sumsBoundGo st rc rest (acc.1 + domMinNum d, acc.2 + domMaxNum d)

/-- `sums_ok_local`. -/
def sums_ok_local {σ : Type _} (ctx : SolverCtx σ) (st : SState σ) (rc : Coord) (v : Val) : Bool :=
  let n : Int := v.1
  let rs := listGetI st.rowSumNow rc.1 + n
  let cs := listGetI st.colSumNow rc.2 + n
  if rs > listGetI ctx.p.row_sums rc.1 ∨ cs > listGetI ctx.p.col_sums rc.2 then false
  else match sumsBoundGo st rc ((List.range ctx.p.cols).map (fun cc => (rc.1, cc))) (0, 0) with
    | none => false
    | some mm =>
      if rs + mm.1 > listGetI ctx.p.row_sums rc.1 ∨ rs + mm.2 < listGetI ctx.p.row_sums rc.1 then
        false
      else match sumsBoundGo st rc ((List.range ctx.p.rows).map (fun rr => (rr, rc.2))) (0, 0) with
        | none => false
        | some mm2 =>
          if cs + mm2.1 > listGetI ctx.p.col_sums rc.2 ∨ cs + mm2.2 < listGetI ctx.p.col_sums rc.2
          then false
          else true

/-- `color_adjacency_ok`: an assigned neighbor with a different number may
not share the color. -/
def color_adjacency_ok {σ : Type _} (ctx : SolverCtx σ) (st : SState σ) (rc : Coord) (v : Val) :
    Bool :=
  (neighbors4 ctx.p.rows ctx.p.cols rc).all (fun nb =>
    match alookup st.assign nb with
    | some w => decide (¬(w.1 ≠ v.1 ∧ w.2 = v.2))
    | none => true)

/-- One dequeue step of the breadth-first searches used throughout the
sources: scan the neighbors of `cur`, skipping those already seen,
enqueueing and marking those accepted by `ok`. -/
def bfsPush (ok : Coord → Bool) (qs : List Coord × List Coord) (nb : Coord) :
    List Coord × List Coord :=
  if nb ∈ qs.2 then qs
  else if ok nb then (qs.1 ++ [nb], qs.2 ++ [nb])
  else qs

def bfsStep (R C : Nat) (ok : Coord → Bool) (cur : Coord) (qs : List Coord × List Coord) :
    List Coord × List Coord :=
  (neighbors4 R C cur).foldl (bfsPush ok) qs

/-- Fuel-indexed BFS main loop; returns the final `seen` list.  All call
sites pass fuel exceeding the number of possible dequeues. -/
def bfsAux (R C : Nat) (ok : Coord → Bool) : Nat → List Coord → List Coord → List Coord
  | 0, _, seen => seen
  | _+1, [], seen => seen
  | fuel+1, cur :: q, seen =>
    let qs := bfsStep R C ok cur (q, seen)
    bfsAux R C ok fuel qs.1 qs.2

/-- `block_feasible`: the assigned same-value component adjacent to `rc`
must stay within `n`, and the capacity reachable from `rc` must reach `n`. -/
def block_feasible {σ : Type _} (ctx : SolverCtx σ) (st : SState σ) (rc : Coord) (v : Val) :
    Bool :=
  let R := ctx.p.rows
  let C := ctx.p.cols
  let seeds := (neighbors4 R C rc).filter (fun nb => decide (alookup st.assign nb = some v))
  let assignedSame :=
    bfsAux R C (fun nb => decide (alookup st.assign nb = some v)) (R * C + 8) seeds seeds
  if 1 + assignedSame.length > v.1 then false
  else
    let allows : Coord → Bool := fun xy =>
      match alookup st.assign xy with
      | some w => decide (w = v)
      | none => decide (v ∈ st.dom xy)
    let visited := bfsAux R C allows (R * C + 8) [rc] [rc]
    decide (visited.length ≥ v.1)

/-- `select_mrv` inner loop: first unassigned cell with the smallest
domain, with the source's early exit at domain size 1. -/
def selectMrvGo {σ : Type _} (st : SState σ) : List Coord → Option Coord → Nat → Coord
  | [], best, _ => best.getD (0, 0)
  | rc :: rest, best, bestLen =>
    if (alookup st.assign rc).isSome then selectMrvGo st rest best bestLen
    else
      let dlen := (st.dom rc).card
      if dlen < bestLen then
        if dlen = 1 then rc else selectMrvGo st rest (some rc) dlen
      else selectMrvGo st rest best bestLen

/-- `select_mrv` (the source's `assert` is modelled by the default `(0,0)`,
which is never reached in an incomplete state). -/
def select_mrv {σ : Type _} (ctx : SolverCtx σ) (st : SState σ) : Coord :=
  selectMrvGo st (cellsList ctx.p) none (10^18)

/-- The LCV impact score of `order_values`. -/
def impact {σ : Type _} (ctx : SolverCtx σ) (st : SState σ) (rc : Coord) (v : Val) : Nat :=
  ((neighbors4 ctx.p.rows ctx.p.cols rc).map (fun nb =>
    if (alookup st.assign nb).isSome then 0
    else ((st.dom nb).filter (fun w => w.1 ≠ v.1 ∧ w.2 = v.2)).card)).sum

/-- `order_values`: shuffle the domain, then stable-sort ascending by
impact. -/
def order_values {σ : Type _} (ctx : SolverCtx σ) (st : SState σ) (rc : Coord) :
    List Val × SState σ :=
  let vals := domList (st.dom rc)
  let sh := pyShuffle ctx.rb vals st.rng
  (isortBy (fun a b => decide (impact ctx st rc a ≤ impact ctx st rc b)) sh.1,
    { st with rng := sh.2 })

/-- `assign_val`. -/
def assign_val {σ : Type _} (st : SState σ) (rc : Coord) (v : Val) : SState σ :=
  { st with assign := st.assign ++ [(rc, v)],
            rowSumNow := listSetAdd st.rowSumNow rc.1 (v.1 : Int),
            colSumNow := listSetAdd st.colSumNow rc.2 (v.1 : Int) }

/-- `unassign_val`. -/
def unassign_val {σ : Type _} (st : SState σ) (rc : Coord) (v : Val) : SState σ :=
  { st with assign := aerase st.assign rc,
            rowSumNow := listSetAdd st.rowSumNow rc.1 (-(v.1 : Int)),
            colSumNow := listSetAdd st.colSumNow rc.2 (-(v.1 : Int)) }

/-- The neighbor-pruning step of `forward_check_prune`: drop the
same-color different-number values from an unassigned neighbor's domain,
appending the removals. -/
def pruneNb {σ : Type _} (st : SState σ) (v : Val)
    (acc : List (Coord × Val) × (Coord → Finset Val)) (nb : Coord) :
    List (Coord × Val) × (Coord → Finset Val) :=
  if (alookup st.assign nb).isSome then acc
  else
    let toRemove := (domList (acc.2 nb)).filter (fun w => decide (w.1 ≠ v.1 ∧ w.2 = v.2))
    (acc.1 ++ toRemove.map (fun w => (nb, w)),
     Function.update acc.2 nb ((acc.2 nb).filter (fun w => ¬(w.1 ≠ v.1 ∧ w.2 = v.2))))

/-- `forward_check_prune`: lock `dom[rc]` to `v` and drop same-color
different-number values from unassigned neighbors.  Returns the removal
list (in removal order) and the new domain map. -/
def forward_check_prune {σ : Type _} (ctx : SolverCtx σ) (st : SState σ) (rc : Coord) (v : Val) :
    List (Coord × Val) × (Coord → Finset Val) :=
  let lockRemoved := ((domList (st.dom rc)).filter (fun w => decide (w ≠ v))).map
    (fun w => (rc, w))
  let dom1 := Function.update st.dom rc ((st.dom rc).filter (fun w => w = v))
  (neighbors4 ctx.p.rows ctx.p.cols rc).foldl (pruneNb st v) (lockRemoved, dom1)

/-- `undo_prune`: reinsert the removals in reverse order. -/
def undo_prune (removed : List (Coord × Val)) (dom : Coord → Finset Val) :
    Coord → Finset Val :=
  removed.reverse.foldl (fun dom rcv => Function.update dom rcv.1 (insert rcv.2 (dom rcv.1))) dom

/-- `is_complete`. -/
def is_complete {σ : Type _} (ctx : SolverCtx σ) (st : SState σ) : Bool :=
  decide (st.assign.length = ctx.p.rows * ctx.p.cols)

/-- `sums_exact_ok`. -/
def sums_exact_ok {σ : Type _} (ctx : SolverCtx σ) (st : SState σ) : Bool :=
  decide (st.rowSumNow = ctx.p.row_sums ∧ st.colSumNow = ctx.p.col_sums)

/-- `complete_blocks_ok` outer loop over row-major cells with the shared
`seen` set: each unseen cell must be assigned, and its BFS component of
equal values must have size equal to its number.  Stated on an assignment
map (the method reads `self.assign`, and solutions are copies of it). -/
def completeBlocksGo (R C : Nat) (assign : List (Coord × Val)) :
    List Coord → List Coord → Bool
  | [], _ => true
  | rc :: rest, seen =>
    if rc ∈ seen then completeBlocksGo R C assign rest seen
    else match alookup assign rc with
      | none => false
      | some v =>
        let seen' := bfsAux R C (fun nb => decide (alookup assign nb = some v))
          (R * C + 8) [rc] (seen ++ [rc])
        if seen'.length - seen.length = v.1 then completeBlocksGo R C assign rest seen'
        else false

/-- `complete_blocks_ok` as a function of the assignment map. -/
def completeBlocksOkA (p : Puzzle) (assign : List (Coord × Val)) : Bool :=
  completeBlocksGo p.rows p.cols assign (cellsList p) []

/-- `complete_blocks_ok`. -/
def complete_blocks_ok {σ : Type _} (ctx : SolverCtx σ) (st : SState σ) : Bool :=
  completeBlocksOkA ctx.p st.assign

/-- `global_bounds_ok`. -/
def global_bounds_ok {σ : Type _} (ctx : SolverCtx σ) (st : SState σ) : Bool :=
  ((List.range ctx.p.rows).all (fun r =>
    let mm := minmax_remaining_row st ctx.p.cols r
    decide (¬(listGetI st.rowSumNow r + mm.1 > listGetI ctx.p.row_sums r ∨
      listGetI st.rowSumNow r + mm.2 < listGetI ctx.p.row_sums r)))) &&
  ((List.range ctx.p.cols).all (fun c =>
    let mm := minmax_remaining_col st ctx.p.rows c
    decide (¬(listGetI st.colSumNow c + mm.1 > listGetI ctx.p.col_sums c ∨
      listGetI st.colSumNow c + mm.2 < listGetI ctx.p.col_sums c))))

/-- `solutions.append(dict(self.assign))`. -/
def pushSolution {σ : Type _} (st : SState σ) : SState σ :=
  { st with solutions := st.solutions ++ [st.assign] }

/-- One accepted value iteration of the `dfs` value loop: assign, prune,
recurse (`next`), undo the prune and unassign.  Returns the recursive
call's boolean together with the unwound state. -/
def loopStep {σ : Type _} (ctx : SolverCtx σ) (next : SState σ → Bool × SState σ)
    (rc : Coord) (v : Val) (st : SState σ) : Bool × SState σ :=
  let st1 := assign_val st rc v
  let pr := forward_check_prune ctx st1 rc v
  let st2 := { st1 with dom := pr.2 }
  let r := next st2
  let st4 := { r.2 with dom := undo_prune pr.1 r.2.dom }
  (r.1, unassign_val st4 rc v)

/-- The `for v in order_values(rc)` loop of `dfs`, with `next` standing
for the recursive `dfs` call one assignment deeper. -/
def loopVals {σ : Type _} (ctx : SolverCtx σ) (next : SState σ → Bool × SState σ) (rc : Coord) :
    List Val → SState σ → Bool × SState σ
  | [], st => (false, st)
  | v :: vs, st =>
    if sums_ok_local ctx st rc v && color_adjacency_ok ctx st rc v &&
        block_feasible ctx st rc v then
      let s := loopStep ctx next rc v st
      if s.1 ∧ ¬ ctx.findTwo then (true, s.2)
      else if ctx.findTwo ∧ s.2.solutions.length ≥ ctx.maxSolutions then (true, s.2)
      else loopVals ctx next rc vs s.2
    else loopVals ctx next rc vs st

/-- One level of `dfs`: global bound pruning, terminal checks at a full
assignment, otherwise MRV selection and the value loop. -/
def dfsBody {σ : Type _} (ctx : SolverCtx σ) (next : SState σ → Bool × SState σ)
    (st : SState σ) : Bool × SState σ :=
  if ¬ global_bounds_ok ctx st then (false, st)
  else if is_complete ctx st then
    if sums_exact_ok ctx st && complete_blocks_ok ctx st then (true, pushSolution st)
    else (false, st)
  else
    let rc := select_mrv ctx st
    let ov := order_values ctx st rc
    loopVals ctx (next) rc ov.1 ov.2

/-- `dfs`, fuel-indexed (recursion depth is bounded by one assignment per
level, so `rows*cols + 1` fuel at the top level never runs out). -/
def dfsGo {σ : Type _} (ctx : SolverCtx σ) : Nat → SState σ → Bool × SState σ
  | 0, st => (false, st)
  | fuel+1, st => dfsBody ctx (dfsGo ctx fuel) st

/-- The `solve` method: run `dfs` from the given state and return the
collected solutions together with the final object state. -/
def solveMethod {σ : Type _} (ctx : SolverCtx σ) (st : SState σ) :
    List (List (Coord × Val)) × SState σ :=
  let r := dfsGo ctx (ctx.p.rows * ctx.p.cols + 1) st
  (r.2.solutions, r.2)

/-- `NuminoSolver(puzzle, seed).solve(find_two, max_solutions)`. -/
def solveAll {σ : Type _} (p : Puzzle) (rb : Nat → σ → Nat × σ) (rng : σ)
    (findTwo : Bool) (maxSolutions : Nat) : List (List (Coord × Val)) × SState σ :=
  solveMethod { p := p, rb := rb, findTwo := findTwo, maxSolutions := maxSolutions }
    (initState p rng)

/-- Module-level `solve`: the first solution, if any. -/
def solveTop {σ : Type _} (p : Puzzle) (rb : Nat → σ → Nat × σ) (rng : σ) :
    Option (List (Coord × Val)) :=
  (solveAll p rb rng false 2).1.head?

/-- Module-level `count_solutions`. -/
def count_solutions {σ : Type _} (p : Puzzle) (limit : Nat) (rb : Nat → σ → Nat × σ) (rng : σ) :
    Nat :=
  (solveAll p rb rng true limit).1.length

/-! ### MT19937 (CPython `random.Random`)

Exact model of CPython's Mersenne Twister: 624 32-bit words plus an index.
Arithmetic is on `Nat` with explicit `% 2^32` masking where the C code
wraps.  `getrandbits(k)` for `k ≤ 32` is `genrand_uint32() >> (32-k)`;
`_randbelow(n)` draws `n.bit_length()` bits with rejection. -/

/-- One 32-bit word, `x & 0xffffffff`. -/
def m32 (x : Nat) : Nat := x % 2^32

/-- `init_genrand`: build `mt[0..623]` from a 32-bit seed (list is built
front-to-back; `go` carries the previous word). -/
def initGenrandGo (prev : Nat) (i : Nat) : Nat → List Nat
  | 0 => []
  | fuel+1 =>
    let w := m32 (1812433253 * (prev ^^^ (prev >>> 30)) + i)
    w :: initGenrandGo w (i+1) fuel

/-- `init_genrand(s)`. -/
def initGenrand (s : Nat) : List Nat :=
  m32 s :: initGenrandGo (m32 s) 1 623

/-- One step of the first `init_by_array` mixing loop at position `i`,
key index `j`. -/
def mixStep1 (key : List Nat) (mt : List Nat) (i j : Nat) : List Nat :=
  let prev := mt.getD (i-1) 0
  let v := m32 ((mt.getD i 0 ^^^ m32 ((prev ^^^ (prev >>> 30)) * 1664525)) + key.getD j 0 + j)
  mt.set i v

/-- First `init_by_array` loop: `k = max(624, len(key))` iterations, with
the index wrap `mt[0] = mt[623]; i = 1`. -/
def mixLoop1 (key : List Nat) : Nat → List Nat → Nat → Nat → List Nat × Nat
  | 0, mt, i, _ => (mt, i)
  | fuel+1, mt, i, j =>
    let mt' := mixStep1 key mt i j
    let i' := i + 1
    let j' := j + 1
    let mt2 := if i' ≥ 624 then (mt'.set 0 (mt'.getD 623 0)) else mt'
    let i2 := if i' ≥ 624 then 1 else i'
    let j2 := if j' ≥ key.length then 0 else j'
    mixLoop1 key fuel mt2 i2 j2

/-- Second `init_by_array` loop: 623 iterations of
`mt[i] = (mt[i] ^ ((mt[i-1] ^ (mt[i-1] >> 30)) * 1566083941)) - i`. -/
def mixLoop2 : Nat → List Nat → Nat → List Nat
  | 0, mt, _ => mt
  | fuel+1, mt, i =>
    let prev := mt.getD (i-1) 0
    let v := m32 ((mt.getD i 0 ^^^ m32 ((prev ^^^ (prev >>> 30)) * 1566083941)) + (2^32 - i % 2^32))
    let mt' := mt.set i v
    let i' := i + 1
    let mt2 := if i' ≥ 624 then (mt'.set 0 (mt'.getD 623 0)) else mt'
    let i2 := if i' ≥ 624 then 1 else i'
    mixLoop2 fuel mt2 i2

/-- `init_by_array(key)`. -/
def initByArray (key : List Nat) : List Nat :=
  let mt0 := initGenrand 19650218
  let k := max 624 key.length
  let r1 := mixLoop1 key k mt0 1 0
  let mt2 := mixLoop2 623 r1.1 r1.2
  mt2.set 0 (2^31)

/-- CPython `random_seed` for a non-negative integer seed: split its
absolute value into 32-bit words, little-endian (at least one word). -/
def seedKey (seed : Nat) : List Nat :=
  if seed = 0 then [0] else keyGo seed 64
where
  keyGo : Nat → Nat → List Nat
    | 0, _ => []
    | _, 0 => []
    | a, fuel+1 => m32 a :: keyGo (a >>> 32) fuel

/-- The MT19937 generator state: the 624 words and the next-output index. -/
structure MTState where
  mt : List Nat
  mti : Nat

/-- `random.Random(seed)` for a natural-number seed. -/
def mtInit (seed : Nat) : MTState := { mt := initByArray (seedKey seed), mti := 624 }

/-- One entry of the twist, given the partially updated array (`mt` holds
new words below index `kk`, old words from `kk` on, as in the in-place C
loop). -/
def twistEntry (mt : List Nat) (kk : Nat) : Nat :=
  let y := (mt.getD kk 0 &&& 0x80000000) ||| (mt.getD ((kk+1) % 624) 0 &&& 0x7fffffff)
  let mag := if y % 2 = 1 then 0x9908b0df else 0
  (mt.getD ((kk + 397) % 624) 0) ^^^ (y >>> 1) ^^^ mag

/-- The in-place twist loop over `kk = 0..623`. -/
def twistGo : Nat → List Nat → Nat → List Nat
  | 0, mt, _ => mt
  | fuel+1, mt, kk => twistGo fuel (mt.set kk (twistEntry mt kk)) (kk+1)

/-- `genrand_uint32`: twist if the index is exhausted, then read and
temper one word. -/
def genrandUInt32 (s : MTState) : Nat × MTState :=
  let s' := if s.mti ≥ 624 then ({ mt := twistGo 624 s.mt 0, mti := 0 } : MTState) else s
  let y0 := s'.mt.getD s'.mti 0
  let y1 := y0 ^^^ (y0 >>> 11)
  let y2 := y1 ^^^ m32 ((y1 <<< 7) &&& 0x9d2c5680)
  let y3 := y2 ^^^ m32 ((y2 <<< 15) &&& 0xefc60000)
  let y4 := (y3 ^^^ (y3 >>> 18)) % 2^32
  (y4, { mt := s'.mt, mti := s'.mti + 1 })

/-- `getrandbits(k)` for `k ≤ 32`. -/
def getrandbits (k : Nat) (s : MTState) : Nat × MTState :=
  let r := genrandUInt32 s
  (r.1 >>> (32 - k), r.2)

/-- The rejection loop of `_randbelow_with_getrandbits`; CPython loops
until acceptance, we supply ample fuel (falling back to 0, never reached
in the concrete runs below). -/
def randbelowGo (n k : Nat) : Nat → MTState → Nat × MTState
  | 0, s => (0, s)
  | fuel+1, s =>
    let r := getrandbits k s
    if r.1 < n then (r.1, r.2) else randbelowGo n k fuel r.2

/-- `_randbelow(n)` (for `n > 0`; `k = n.bit_length()`). -/
def randbelowMT (n : Nat) (s : MTState) : Nat × MTState :=
  randbelowGo n n.size 64 s

/-! ### Deconstructor (deconstructor.py) -/

/-- `MaskCell`. -/
structure MaskCell where
  show_num : Bool := true
  show_col : Bool := true
deriving DecidableEq

/-- `DeconstructConfig`. -/
structure DeconstructConfig where
  seed : Nat
  difficulty : String := "MEDIUM"
  max_steps : Nat := 50000
  strategy : String := "any"
deriving DecidableEq

/-- `difficulty_to_target_reveals`.  The Python per-cell factors are the
floats 1.30/1.05/0.85/0.65; we model them exactly as hundredths, and
Python's `int(...)` truncation of the (non-negative) product as natural
division by 100 (for grids of realistic size the float product rounds to
the exact rational value, so the truncations agree).  The `ValueError` on
an unknown difficulty is `none`. -/
def difficulty_to_target_reveals (difficulty : String) (rows cols : Nat) : Option Nat :=
  let cells := rows * cols
  let diff := pyUpper difficulty
  (if diff = "EASY" then some 130
   else if diff = "MEDIUM" then some 105
   else if diff = "HARD" then some 85
   else if diff = "EXPERT" then some 65
   else none).map (fun perCell100 => max 8 (cells * perCell100 / 100))

/-- Grid coordinates of an `R × C` grid in row-major order. -/
def gridCells (R C : Nat) : List Coord :=
  (List.range R).flatMap (fun r => (List.range C).map (fun c => (r, c)))

/-- Constant data of one `DeconstructorStepper`: the base puzzle, the full
solution, the config, the stepper's own generator primitive `drb`, and the
solver generator (`srb`, `srng`) that every `count_solutions(...,
seed=cfg.seed)` call starts from. -/
structure DCtx (σ σs : Type _) where
  base : Puzzle
  solution : Coord → Val
  cfg : DeconstructConfig
  drb : Nat → σ → Nat × σ
  srb : Nat → σs → Nat × σs
  srng : σs

/-- Mutable state of a `DeconstructorStepper`. -/
structure DState (σ : Type _) where
  mask : Coord → MaskCell
  candidates : List (Nat × Nat × String)
  stepsDone : Nat
  rng : σ

/-- `self.target_reveals` (total for the claims' valid difficulties; the
source raises in `__init__` otherwise). -/
def targetReveals {σ σs : Type _} (ctx : DCtx σ σs) : Nat :=
  (difficulty_to_target_reveals ctx.cfg.difficulty ctx.base.rows ctx.base.cols).getD 0

/-- The initial candidate list: `(r, c, "num")` and `(r, c, "col")` per
cell, row-major. -/
def dInitCandidates (rows cols : Nat) : List (Nat × Nat × String) :=
  (List.range rows).flatMap (fun r =>
    (List.range cols).flatMap (fun c => [(r, c, "num"), (r, c, "col")]))

/-- The sort key `0 if x[2] == "col" else 1`. -/
def colFirstKey (cand : Nat × Nat × String) : Nat := if cand.2.2 = "col" then 0 else 1

/-- `DeconstructorStepper.__init__`: build the candidate list, for
EXPERT/HARD stable-sort colors first, then shuffle; mask fully revealed. -/
def dInit {σ σs : Type _} (ctx : DCtx σ σs) (rng : σ) : DState σ :=
  let cands0 := dInitCandidates ctx.base.rows ctx.base.cols
  let diff := pyUpper ctx.cfg.difficulty
  let cands1 :=
    if diff = "EXPERT" then isortBy (fun a b => decide (colFirstKey a ≤ colFirstKey b)) cands0
    else if diff = "HARD" then isortBy (fun a b => decide (colFirstKey a ≤ colFirstKey b)) cands0
    else cands0
  let sh := pyShuffle ctx.drb cands1 rng
  { mask := fun _ => { show_num := true, show_col := true },
    candidates := sh.1, stepsDone := 0, rng := sh.2 }

/-- `reveals_count`. -/
def reveals_count {σ σs : Type _} (ctx : DCtx σ σs) (st : DState σ) : Nat :=
  ((gridCells ctx.base.rows ctx.base.cols).map (fun rc =>
    (if (st.mask rc).show_num then 1 else 0) + (if (st.mask rc).show_col then 1 else 0))).sum

/-- `build_givens_from_mask`. -/
def build_givens_from_mask {σ σs : Type _} (ctx : DCtx σ σs) (st : DState σ) : List Given :=
  (gridCells ctx.base.rows ctx.base.cols).flatMap (fun rc =>
    let v := ctx.solution rc
    let mc := st.mask rc
    if mc.show_num ∨ mc.show_col then
      [{ r := rc.1, c := rc.2,
         num := if mc.show_num then some v.1 else none,
         col := if mc.show_col then some v.2 else none }]
    else [])

/-- `current_puzzle`. -/
def current_puzzle {σ σs : Type _} (ctx : DCtx σ σs) (st : DState σ) : Puzzle :=
  { rows := ctx.base.rows, cols := ctx.base.cols, palette := ctx.base.palette,
    numbers := ctx.base.numbers, row_sums := ctx.base.row_sums,
    col_sums := ctx.base.col_sums, givens := build_givens_from_mask ctx st }

/-- The `count_solutions(current_puzzle, limit=2, seed=cfg.seed)` call of
the stepper. -/
def countCurrent {σ σs : Type _} (ctx : DCtx σ σs) (st : DState σ) : Nat :=
  count_solutions (current_puzzle ctx st) 2 ctx.srb ctx.srng

/-- `_blocks_from_solution` outer loop (row-major, shared `seen`). -/
def blocksGo {σ σs : Type _} (ctx : DCtx σ σs) : List Coord → List Coord → List (List Coord)
  | [], _ => []
  | rc :: rest, seen =>
    if rc ∈ seen then blocksGo ctx rest seen
    else
      let v := ctx.solution rc
      let seen' := bfsAux ctx.base.rows ctx.base.cols (fun nb => decide (ctx.solution nb = v))
        (ctx.base.rows * ctx.base.cols + 8) [rc] (seen ++ [rc])
      (seen'.drop seen.length) :: blocksGo ctx rest seen'

/-- `_blocks_from_solution`. -/
def blocks_from_solution {σ σs : Type _} (ctx : DCtx σ σs) : List (List Coord) :=
  blocksGo ctx (gridCells ctx.base.rows ctx.base.cols) []

/-- `_block_fully_revealed`. -/
def block_fully_revealed {σ : Type _} (st : DState σ) (block : List Coord) : Bool :=
  block.all (fun rc => (st.mask rc).show_num && (st.mask rc).show_col)

/-- Hiding one part of one cell of the mask. -/
def hidePart {σ : Type _} (st : DState σ) (r c : Nat) (part : String) : DState σ :=
  let mc := st.mask (r, c)
  let mc' := if part = "num" then { mc with show_num := false } else { mc with show_col := false }
  { st with mask := Function.update st.mask (r, c) mc' }

/-- The candidate loop of `_try_remove_from_block`: skip hidden parts,
tentatively hide, keep on uniqueness, otherwise revert (the reverted state
is exactly the loop entry state). -/
def tryRemoveGo {σ σs : Type _} (ctx : DCtx σ σs) :
    List (Nat × Nat × String) → DState σ → Bool × DState σ
  | [], st => (false, st)
  | cand :: rest, st =>
    let part := cand.2.2
    let prev := st.mask (cand.1, cand.2.1)
    if part = "num" ∧ ¬ prev.show_num then tryRemoveGo ctx rest st
    else if part = "col" ∧ ¬ prev.show_col then tryRemoveGo ctx rest st
    else
      let st2 := hidePart st cand.1 cand.2.1 part
      if countCurrent ctx st2 = 1 then (true, st2)
      else tryRemoveGo ctx rest st

/-- `_try_remove_from_block`. -/
def try_remove_from_block {σ σs : Type _} (ctx : DCtx σ σs) (block : List Coord)
    (st : DState σ) : Bool × DState σ :=
  let cands := block.flatMap (fun rc => [(rc.1, rc.2, "num"), (rc.1, rc.2, "col")])
  let sh := pyShuffle ctx.drb cands st.rng
  tryRemoveGo ctx sh.1 { st with rng := sh.2 }

/-- `_ensure_no_fully_revealed_blocks`. -/
def ensure_no_fully_revealed_blocks {σ σs : Type _} (ctx : DCtx σ σs) (st : DState σ) :
    DState σ :=
  (blocks_from_solution ctx).foldl (fun st block =>
    if block_fully_revealed st block then (try_remove_from_block ctx block st).2 else st) st

/-- Whether a candidate's part is still visible. -/
def candVisible {σ : Type _} (st : DState σ) (cand : Nat × Nat × String) : Bool :=
  let mc := st.mask (cand.1, cand.2.1)
  if cand.2.2 = "num" then mc.show_num else mc.show_col

/-- The strategy filter of `_pick_next_candidate`'s first pass. -/
def strategyOk {σ σs : Type _} (ctx : DCtx σ σs) (part : String) : Bool :=
  !(decide (ctx.cfg.strategy = "number_first" ∧ part ≠ "num")) &&
  !(decide (ctx.cfg.strategy = "color_first" ∧ part ≠ "col"))

/-- Find the first element satisfying `pred` and remove it
(`candidates.pop(idx)`). -/
def findPop {α : Type _} (pred : α → Bool) : List α → Option (α × List α)
  | [] => none
  | x :: rest =>
    if pred x then some (x, rest)
    else match findPop pred rest with
      | none => none
      | some pr => some (pr.1, x :: pr.2)

/-- `_pick_next_candidate`: strategy-filtered pass, then fallback pass
over any removable candidate. -/
def pick_next_candidate {σ σs : Type _} (ctx : DCtx σ σs) (st : DState σ) :
    Option ((Nat × Nat × String) × DState σ) :=
  if st.candidates = [] then none
  else
    match findPop (fun cand => candVisible st cand && strategyOk ctx cand.2.2) st.candidates with
    | some pr => some (pr.1, { st with candidates := pr.2 })
    | none =>
      match findPop (candVisible st) st.candidates with
      | some pr => some (pr.1, { st with candidates := pr.2 })
      | none => none

/-- The `while tries < tries_limit and self.candidates` loop of `step`
(fuel is the remaining tries).  A failed try reverts the mask, i.e.
continues from the post-pick state. -/
def stepLoop {σ σs : Type _} (ctx : DCtx σ σs) :
    Nat → DState σ → Option (Nat × Nat × String) × DState σ
  | 0, st => (none, st)
  | fuel+1, st =>
    if st.candidates = [] then (none, st)
    else match pick_next_candidate ctx st with
      | none => (none, st)
      | some (cand, st1) =>
        let st2 := hidePart st1 cand.1 cand.2.1 cand.2.2
        if countCurrent ctx st2 = 1 then (some cand, st2)
        else stepLoop ctx fuel st1

/-- `tries_limit` by difficulty. -/
def triesLimit {σ σs : Type _} (ctx : DCtx σ σs) : Nat :=
  let diff := pyUpper ctx.cfg.difficulty
  if diff = "EXPERT" then 2000 else if diff = "HARD" then 800 else 500

/-- The dictionary returned by `step`. -/
structure DStepResult where
  ok : Bool
  removed : Option (Nat × Nat × String)
  reveals : Nat
  reason : String
deriving DecidableEq

/-- `DeconstructorStepper.step`. -/
def dstep {σ σs : Type _} (ctx : DCtx σ σs) (st : DState σ) : DStepResult × DState σ :=
  if st.stepsDone ≥ ctx.cfg.max_steps then
    let st' := ensure_no_fully_revealed_blocks ctx st
    ({ ok := false, removed := none, reveals := reveals_count ctx st',
       reason := "max_steps_reached" }, st')
  else if reveals_count ctx st ≤ targetReveals ctx then
    let st' := ensure_no_fully_revealed_blocks ctx st
    ({ ok := false, removed := none, reveals := reveals_count ctx st',
       reason := "target_reached" }, st')
  else
    let st1 := { st with stepsDone := st.stepsDone + 1 }
    let lr := stepLoop ctx (triesLimit ctx) st1
    match lr.1 with
    | some cand =>
      let st' := ensure_no_fully_revealed_blocks ctx lr.2
      ({ ok := true, removed := some cand, reveals := reveals_count ctx st',
         reason := "unique_kept" }, st')
    | none =>
      let st' := ensure_no_fully_revealed_blocks ctx lr.2
      ({ ok := false, removed := none, reveals := reveals_count ctx st',
         reason := "no_more_unique_removals" }, st')

/-- `DeconstructorStepper(base, solution, cfg)` with CPython's seeded
generators: the stepper's own `random.Random(cfg.seed)` and, for every
solver call, a fresh `random.Random(cfg.seed)`. -/
def mkStepper (base : Puzzle) (solution : Coord → Val) (cfg : DeconstructConfig) :
    DCtx MTState MTState × DState MTState :=
  let ctx : DCtx MTState MTState :=
    { base := base, solution := solution, cfg := cfg, drb := randbelowMT,
      srb := randbelowMT, srng := mtInit cfg.seed }
  (ctx, dInit ctx (mtInit cfg.seed))

/-! ### Constructor (constructor.py)

The constructor draws uniform floats (`rng.random()`); we model those
draws by exact real numbers, so the definitions below are noncomputable.
Decimal weight exponents are modelled by the exact decimal rationals they
denote. -/

/-- `ConstructConfig`. -/
structure ConstructConfig where
  rows : Nat
  cols : Nat
  palette : List Nat
  numbers : List Nat
  seed : Nat
  style : String := "BALANCED"
  require_all_numbers : Bool := true
  require_all_colors : Bool := true
  max_attempts : Nat := 200
deriving DecidableEq

/-- `_area_feasible`. -/
def _area_feasible (rows cols : Nat) (required_numbers : List Nat) : Bool :=
  decide (rows * cols ≥ required_numbers.sum)

/-- The accumulation loop of `_weighted_choice` on the pre-scaled draw
`r = rng.random() * total`; returns `items[-1]` when the loop falls
through. -/
noncomputable def wchoiceLoop (r : ℝ) (last : Nat) : List (Nat × ℝ) → ℝ → Nat
  | [], _ => last
  | iw :: rest, acc =>
    let acc' := acc + iw.2
    if r ≤ acc' then iw.1 else wchoiceLoop r last rest acc'

/-- `_weighted_choice(rng, items, weights)` (identical in constructor.py
and bias.py). -/
noncomputable def _weighted_choice {σ : Type _} (rnd : σ → ℝ × σ) (s : σ)
    (items : List Nat) (weights : List ℝ) : Nat × σ :=
  let u := rnd s
  (wchoiceLoop (u.1 * weights.sum) (items.getD (items.length - 1) 0) (items.zip weights) 0, u.2)

/-- The per-style local weights of `_choose_block_sizes`
(constructor.py lines 85-93; any style other than SMALL_BLOCKY /
LARGE_BLOCKY / UNIFORM falls through to the BALANCED weights). -/
noncomputable def styleWeights (style : String) (fits : List Nat) : List ℝ :=
  if style = "SMALL_BLOCKY" then fits.map (fun n : Nat => 1 / (n : ℝ) ^ (1.25 : ℝ))
  else if style = "LARGE_BLOCKY" then fits.map (fun n : Nat => (n : ℝ) ^ (1.75 : ℝ))
  else fits.map (fun n : Nat => (n : ℝ) ^ (1.05 : ℝ))

/-- The exit path of `_choose_block_sizes`' while loop: fail unless the
remaining area is exactly zero, else shuffle the multiset. -/
noncomputable def chooseSizesFinish {σ : Type _} (rb : Nat → σ → Nat × σ) (remaining : Nat)
    (blocks : List Nat) (s : σ) : Option (List Nat) × σ :=
  if remaining ≠ 0 then (none, s)
  else
    let sh := pyShuffle rb blocks s
    (some sh.1, sh.2)

/-- The guarded while loop of `_choose_block_sizes` (fuel is the
`guard = 8000` counter). -/
noncomputable def chooseSizesLoop {σ : Type _} (rnd : σ → ℝ × σ) (rb : Nat → σ → Nat × σ)
    (nums : List Nat) (style : String) : Nat → Nat → List Nat → σ → Option (List Nat) × σ
  | 0, remaining, blocks, s => chooseSizesFinish rb remaining blocks s
  | fuel+1, remaining, blocks, s =>
    if remaining = 0 then chooseSizesFinish rb remaining blocks s
    else
      let fits := nums.filter (fun n => decide (n ≤ remaining))
      if fits = [] then (none, s)
      else
        let pick :=
          if style = "UNIFORM" then pyChoice rb 0 fits s
          else _weighted_choice rnd s fits (styleWeights style fits)
        chooseSizesLoop rnd rb nums style fuel (remaining - pick.1) (blocks ++ [pick.1]) pick.2

/-- `_choose_block_sizes`. -/
noncomputable def _choose_block_sizes {σ : Type _} (rnd : σ → ℝ × σ) (rb : Nat → σ → Nat × σ)
    (area : Nat) (numbers : List Nat) (require_all : Bool) (style : String) (s : σ) :
    Option (List Nat) × σ :=
  let nums := isortBy (fun a b => decide (a ≤ b)) numbers
  let style' := pyStrip (pyUpper style)
  if require_all then
    if nums.sum > area then (none, s)
    else chooseSizesLoop rnd rb nums style' 8000 (area - nums.sum) nums s
  else chooseSizesLoop rnd rb nums style' 8000 area [] s

/-- The frontier computation of `_find_all_shapes` (the `cand`/`seen`
loop over the current shape). -/
def candFrontier (R C : Nat) (shape gridFree : List Coord) : List Coord :=
  (shape.foldl (fun acc rc =>
    (neighbors4 R C rc).foldl (fun (acc : List Coord × List Coord) nb =>
      if nb ∈ acc.1 then acc
      else if nb ∈ gridFree ∧ nb ∉ shape then (acc.1 ++ [nb], acc.2 ++ [nb])
      else (acc.1 ++ [nb], acc.2)) acc) (([], []) : List Coord × List Coord)).2

/-- The compactness score of a frontier cell. -/
def shapeScore (R C : Nat) (shape : List Coord) (cell : Coord) : Nat :=
  ((neighbors4 R C cell).filter (fun nb => decide (nb ∈ shape))).length

/-- The growth loop of one shape attempt: pick the top compactness scorer
with probability 0.70, else a uniform frontier cell. -/
noncomputable def growShape {σ : Type _} (rnd : σ → ℝ × σ) (rb : Nat → σ → Nat × σ)
    (gridFree : List Coord) (R C size : Nat) : Nat → List Coord → σ → List Coord × σ
  | 0, shape, s => (shape, s)
  | fuel+1, shape, s =>
    if shape.length ≥ size then (shape, s)
    else
      let cand := candFrontier R C shape gridFree
      if cand = [] then (shape, s)
      else
        let sorted := isortBy (fun a b => decide (shapeScore R C shape b ≤ shapeScore R C shape a)) cand
        let u := rnd s
        let pick :=
          if u.1 < 0.70 then (sorted.getD 0 (0, 0), u.2)
          else pyChoice rb (0, 0) sorted u.2
        growShape rnd rb gridFree R C size fuel (shape ++ [pick.1]) pick.2

/-- `_find_all_shapes` (`limit` independent attempts, keeping the shapes
that reached full size). -/
noncomputable def findAllShapesGo {σ : Type _} (rnd : σ → ℝ × σ) (rb : Nat → σ → Nat × σ)
    (start : Coord) (size : Nat) (gridFree : List Coord) (R C : Nat) :
    Nat → List (List Coord) → σ → List (List Coord) × σ
  | 0, shapes, s => (shapes, s)
  | fuel+1, shapes, s =>
    let g := growShape rnd rb gridFree R C size size [start] s
    findAllShapesGo rnd rb start size gridFree R C fuel
      (if g.1.length = size then shapes ++ [g.1] else shapes) g.2

/-- `_find_all_shapes`. -/
noncomputable def _find_all_shapes {σ : Type _} (rnd : σ → ℝ × σ) (rb : Nat → σ → Nat × σ)
    (start : Coord) (size : Nat) (gridFree : List Coord) (R C limit : Nat) (s : σ) :
    List (List Coord) × σ :=
  findAllShapesGo rnd rb start size gridFree R C limit [] s

/-- The `for shape in shapes` loop of `_partition_into_blocks.dfs`:
place the shape as block `i` and recurse via `next`; on failure the
assignment maps revert (the recursion continues from the unmodified
maps). -/
noncomputable def shapeTryLoop {σ : Type _} (i size : Nat)
    (c2b : List (Coord × Nat)) (bsize : List (Nat × Nat))
    (next : List (Coord × Nat) → List (Nat × Nat) → σ →
      Option (List (Coord × Nat) × List (Nat × Nat)) × σ) :
    List (List Coord) → σ → Option (List (Coord × Nat) × List (Nat × Nat)) × σ
  | [], s => (none, s)
  | shape :: more, s =>
    let r := next (c2b ++ shape.map (fun rc => (rc, i))) (bsize ++ [(i, size)]) s
    match r.1 with
    | some res => (some res, r.2)
    | none => shapeTryLoop i size c2b bsize next more r.2

/-- `_partition_into_blocks.dfs`, structurally recursive over the sorted
size list (`i` is the current block id). -/
noncomputable def partDfs {σ : Type _} (rnd : σ → ℝ × σ) (rb : Nat → σ → Nat × σ) (R C : Nat) :
    List Nat → Nat → List (Coord × Nat) → List (Nat × Nat) → σ →
      Option (List (Coord × Nat) × List (Nat × Nat)) × σ
  | [], _, c2b, bsize, s => (some (c2b, bsize), s)
  | size :: restSizes, i, c2b, bsize, s =>
    let freeCells := (gridCells R C).filter (fun rc => (alookup c2b rc).isNone)
    match freeCells.head? with
    | none => (none, s)
    | some start =>
      if size > freeCells.length then (none, s)
      else
        let fs := _find_all_shapes rnd rb start size freeCells R C 60 s
        if fs.1 = [] then (none, fs.2)
        else
          let sh := pyShuffle rb fs.1 fs.2
          shapeTryLoop i size c2b bsize (partDfs rnd rb R C restSizes (i+1)) sh.1 sh.2

/-- `_partition_into_blocks`. -/
noncomputable def _partition_into_blocks {σ : Type _} (rnd : σ → ℝ × σ)
    (rb : Nat → σ → Nat × σ) (R C : Nat) (block_sizes : List Nat) (s : σ) :
    Option (List (Coord × Nat) × List (Nat × Nat)) × σ :=
  let sizes := isortBy (fun a b => decide (b ≤ a)) block_sizes
  partDfs rnd rb R C sizes 0 [] [] s

/-- `adj.setdefault(b, set())` on the (key list, map) model of the
adjacency dict. -/
def adjSetdefault (adj : List Nat × (Nat → Finset Nat)) (b : Nat) :
    List Nat × (Nat → Finset Nat) :=
  if b ∈ adj.1 then adj else (adj.1 ++ [b], adj.2)

/-- `adj[b].add(b2)`. -/
def adjAdd (adj : List Nat × (Nat → Finset Nat)) (b b2 : Nat) :
    List Nat × (Nat → Finset Nat) :=
  (adj.1, Function.update adj.2 b (insert b2 (adj.2 b)))

/-- `_build_block_adjacency`. -/
def _build_block_adjacency (c2b : List (Coord × Nat)) (R C : Nat) :
    List Nat × (Nat → Finset Nat) :=
  c2b.foldl (fun adj rcb =>
    let adj1 := adjSetdefault adj rcb.2
    (neighbors4 R C rcb.1).foldl (fun adj nb =>
      match alookup c2b nb with
      | none => adj
      | some b2 =>
        if b2 = rcb.2 then adj
        else adjAdd (adjSetdefault (adjAdd adj rcb.2 b2) b2) b2 rcb.2) adj1)
    ([], fun _ => (∅ : Finset Nat))

/-- The `for col in cols` loop of `_color_blocks_backtracking.dfs`. -/
noncomputable def colorLoop {σ : Type _} (adjf : Nat → Finset Nat) (b : Nat)
    (colorOf : List (Nat × Nat))
    (next : List (Nat × Nat) → σ → Option (List (Nat × Nat)) × σ) :
    List Nat → σ → Option (List (Nat × Nat)) × σ
  | [], s => (none, s)
  | col :: cols, s =>
    if decide (∀ nb ∈ adjf b, alookup colorOf nb ≠ some col) then
      let r := next (colorOf ++ [(b, col)]) s
      match r.1 with
      | some res => (some res, r.2)
      | none => colorLoop adjf b colorOf next cols r.2
    else colorLoop adjf b colorOf next cols s

/-- `_color_blocks_backtracking.dfs`, structurally recursive over the
degree-sorted block list. -/
noncomputable def colorDfs {σ : Type _} (rb : Nat → σ → Nat × σ) (adjf : Nat → Finset Nat)
    (palette : List Nat) (require_all : Bool) :
    List Nat → List (Nat × Nat) → σ → Option (List (Nat × Nat)) × σ
  | [], colorOf, s =>
    if require_all then
      if palette.toFinset ⊆ (colorOf.map (fun kv => kv.2)).toFinset then (some colorOf, s)
      else (none, s)
    else (some colorOf, s)
  | b :: restBlocks, colorOf, s =>
    let sh := pyShuffle rb palette s
    let cols :=
      if require_all then
        let used := colorOf.map (fun kv => kv.2)
        sh.1.filter (fun c => decide (c ∉ used)) ++ sh.1.filter (fun c => decide (c ∈ used))
      else sh.1
    colorLoop adjf b colorOf (colorDfs rb adjf palette require_all restBlocks) cols sh.2

/-- `_color_blocks_backtracking`. -/
noncomputable def _color_blocks_backtracking {σ : Type _} (rb : Nat → σ → Nat × σ)
    (adj : List Nat × (Nat → Finset Nat)) (palette : List Nat) (require_all_colors : Bool)
    (s : σ) : Option (List (Nat × Nat)) × σ :=
  let blocks := isortBy (fun a b => decide ((adj.2 b).card ≤ (adj.2 a).card)) adj.1
  colorDfs rb adj.2 palette require_all_colors blocks [] s

/-- `_compute_sums_from_solution`. -/
def _compute_sums_from_solution (sol : List (Coord × Val)) (rows cols : Nat) :
    List Int × List Int :=
  sol.foldl (fun acc rcv =>
    (listSetAdd acc.1 rcv.1.1 (rcv.2.1 : Int), listSetAdd acc.2 rcv.1.2 (rcv.2.1 : Int)))
    (List.replicate rows 0, List.replicate cols 0)

/-- The two errors `construct_solution` can raise. -/
inductive ConstructError where
  | configInfeasible
  | exhausted
deriving DecidableEq

/-- One iteration of the `for _attempt in range(cfg.max_attempts)` loop;
`none` models every `continue`.  (An empty Python list/dict is falsy, so
`if not block_sizes` / `if not colors` also reject empty results.) -/
noncomputable def attemptBody {σ : Type _} (rnd : σ → ℝ × σ) (rb : Nat → σ → Nat × σ)
    (cfg : ConstructConfig) (s : σ) : Option (List (Coord × Val) × Puzzle) × σ :=
  let R := cfg.rows
  let C := cfg.cols
  let bs := _choose_block_sizes rnd rb (R * C) cfg.numbers cfg.require_all_numbers cfg.style s
  match bs.1 with
  | none => (none, bs.2)
  | some block_sizes =>
    if block_sizes = [] then (none, bs.2)
    else
      let part := _partition_into_blocks rnd rb R C block_sizes bs.2
      match part.1 with
      | none => (none, part.2)
      | some cb =>
        let adj := _build_block_adjacency cb.1 R C
        let colors := _color_blocks_backtracking rb adj cfg.palette cfg.require_all_colors part.2
        match colors.1 with
        | none => (none, colors.2)
        | some colorOf =>
          if colorOf = [] then (none, colors.2)
          else
            let sol := cb.1.map (fun rcb =>
              (rcb.1, (((alookup cb.2 rcb.2).getD 0, (alookup colorOf rcb.2).getD 0) : Val)))
            if cfg.require_all_numbers ∧
                ¬ (cfg.numbers.toFinset ⊆ (cb.2.map (fun kv => kv.2)).toFinset) then
              (none, colors.2)
            else if cfg.require_all_colors ∧
                ¬ (cfg.palette.toFinset ⊆ (colorOf.map (fun kv => kv.2)).toFinset) then
              (none, colors.2)
            else
              let sums := _compute_sums_from_solution sol R C
              let basePuzzle : Puzzle :=
                { rows := R, cols := C, palette := cfg.palette, numbers := cfg.numbers,
                  row_sums := sums.1, col_sums := sums.2, givens := [] }
              (some (sol, basePuzzle), colors.2)

/-- The attempt loop; exhaustion raises `RuntimeError`. -/
noncomputable def attemptLoop {σ : Type _} (rnd : σ → ℝ × σ) (rb : Nat → σ → Nat × σ)
    (cfg : ConstructConfig) : Nat → σ → Except ConstructError (List (Coord × Val) × Puzzle)
  | 0, _ => .error .exhausted
  | fuel+1, s =>
    let r := attemptBody rnd rb cfg s
    match r.1 with
    | some res => .ok res
    | none => attemptLoop rnd rb cfg fuel r.2

/-- `construct_solution`: the deterministic feasibility check precedes the
creation and any use of the generator (whose initial state is the last
argument). -/
noncomputable def construct_solution {σ : Type _} (rnd : σ → ℝ × σ) (rb : Nat → σ → Nat × σ)
    (cfg : ConstructConfig) (rng : σ) : Except ConstructError (List (Coord × Val) × Puzzle) :=
  if cfg.require_all_numbers ∧ ¬ (_area_feasible cfg.rows cfg.cols cfg.numbers = true) then
    .error .configInfeasible
  else attemptLoop rnd rb cfg cfg.max_attempts rng

/-! ### Seeded top-level wrappers (CPython `random.Random(seed)`) -/

/-- CPython `random_random()`: two 32-bit draws, `(a>>5)*2^26 + (b>>6)`
over `2^53`, an exactly representable real. -/
noncomputable def pyRandomMT (s : MTState) : ℝ × MTState :=
  let a := genrandUInt32 s
  let b := genrandUInt32 a.2
  (((((a.1 >>> 5) * 67108864 + (b.1 >>> 6) : Nat) : ℝ) / 9007199254740992), b.2)

/-- `construct_solution(cfg)` with `rng = random.Random(cfg.seed)`. -/
noncomputable def construct_solution_seeded (cfg : ConstructConfig) :
    Except ConstructError (List (Coord × Val) × Puzzle) :=
  construct_solution pyRandomMT randbelowMT cfg (mtInit cfg.seed)

/-- `solve(puzzle, seed)`. -/
def solve_seeded (p : Puzzle) (seed : Nat) : Option (List (Coord × Val)) :=
  solveTop p randbelowMT (mtInit seed)

/-- `count_solutions(puzzle, limit, seed)`. -/
def count_solutions_seeded (p : Puzzle) (limit seed : Nat) : Nat :=
  count_solutions p limit randbelowMT (mtInit seed)

/-! ### Specification-side definitions for the claims -/

/-- The spec's difficulty factor table (1.30 / 1.05 / 0.85 / 0.65) as
exact rationals. -/
def specDifficultyFactor (diff : String) : Option ℚ :=
  if diff = "EASY" then some (13/10)
  else if diff = "MEDIUM" then some (21/20)
  else if diff = "HARD" then some (17/20)
  else if diff = "EXPERT" then some (13/20)
  else none

/-- Claim C6's formula `max(8, round(rows·cols·factor))` (Mathlib `round`
agrees with Python rounding away from ties, and the counterexample value
is not a tie). -/
def claimTargetRound (diff : String) (rows cols : Nat) : Option Nat :=
  (specDifficultyFactor diff).map (fun f => max 8 (round ((rows * cols : ℚ) * f)).toNat)

/-- The amendment of C6: `int(...)` truncates, so the target is
`max(8, floor(rows·cols·factor))`. -/
def amendedTargetFloor (diff : String) (rows cols : Nat) : Option Nat :=
  (specDifficultyFactor diff).map (fun f => max 8 ⌊(rows * cols : ℚ) * f⌋₊)

/-- Claim C5's local weight table (SMALL `1/n^1.1`, BIG `n^1.6`,
BALANCED `n^0.5`, UNIFORM `1`); this is bias.py's `_base_weights`, which
`construct_solution` does not use. -/
noncomputable def claimedLocalWeight (style : String) (n : Nat) : ℝ :=
  if style = "SMALL" then 1 / (n : ℝ) ^ (1.1 : ℝ)
  else if style = "BIG" then (n : ℝ) ^ (1.6 : ℝ)
  else if style = "UNIFORM" then 1
  else (n : ℝ) ^ (0.5 : ℝ)

/-- Claim C5's global steering factor: `(max(numbers)/n)^0.6` below the
target block count, `(n/min(numbers))^0.6` otherwise (`maxNum`/`minNum`
are `max(numbers)`/`min(numbers)`). -/
noncomputable def claimedSteerFactor (maxNum minNum currentBlocks : Nat) (target : ℝ)
    (n : Nat) : ℝ :=
  if (currentBlocks : ℝ) < target then ((maxNum : ℝ) / (n : ℝ)) ^ (0.6 : ℝ)
  else ((n : ℝ) / (minNum : ℝ)) ^ (0.6 : ℝ)

/-- The weight list claim C5 attributes to `construct_solution`'s
selection. -/
noncomputable def claimedWeights (style : String) (fits : List Nat)
    (maxNum minNum currentBlocks : Nat) (target : ℝ) : List ℝ :=
  fits.map (fun n =>
    claimedLocalWeight style n * claimedSteerFactor maxNum minNum currentBlocks target n)

/-- The amendment of C5: the local weights `construct_solution` actually
uses — `1/n^1.25` for SMALL_BLOCKY, `n^1.75` for LARGE_BLOCKY and
`n^1.05` for every other style string — with no steering factor of any
kind. -/
noncomputable def amendedStyleWeight (style : String) (n : Nat) : ℝ :=
  if style = "SMALL_BLOCKY" then 1 / (n : ℝ) ^ (1.25 : ℝ)
  else if style = "LARGE_BLOCKY" then (n : ℝ) ^ (1.75 : ℝ)
  else (n : ℝ) ^ (1.05 : ℝ)

/-- Whether every color-part candidate precedes every number-part
candidate (claim C7's "stably partitioned with color parts first"). -/
def colsFirstPartitioned : List (Nat × Nat × String) → Bool
  | [] => true
  | cand :: rest =>
    if cand.2.2 = "col" then colsFirstPartitioned rest
    else rest.all (fun c => decide (c.2.2 ≠ "col"))

/-- The candidate order the spec describes for HARD/EXPERT: shuffle the
full list FIRST, then stable-partition colors before numbers. -/
def specCandidateOrder {σ : Type _} (rb : Nat → σ → Nat × σ) (rows cols : Nat) (rng : σ) :
    List (Nat × Nat × String) :=
  isortBy (fun a b => decide (colFirstKey a ≤ colFirstKey b))
    (pyShuffle rb (dInitCandidates rows cols) rng).1

/-- The same-value orthogonal adjacency of an assignment (claim C2's
blocks are the maximal components of this relation). -/
def adjSame (R C : Nat) (sol : List (Coord × Val)) (a b : Coord) : Prop :=
  b ∈ neighbors4 R C a ∧ alookup sol a = alookup sol b ∧ (alookup sol a).isSome

/-- The four backtracking-restored components of two solver states agree
(`rng` and `solutions` are the only fields `dfs` changes for good). -/
def SameCore {σ : Type _} (a b : SState σ) : Prop :=
  a.dom = b.dom ∧ a.assign = b.assign ∧ a.rowSumNow = b.rowSumNow ∧ a.colSumNow = b.colSumNow

/-- The assignment's keys are distinct grid cells (the Python `dict`
keyed by coordinates of the board). -/
def KeysOK {σ : Type _} (p : Puzzle) (st : SState σ) : Prop :=
  (st.assign.map Prod.fst).Nodup ∧ ∀ k ∈ st.assign.map Prod.fst, k ∈ cellsList p

/-- Every cell's domain stays inside the full `numbers × palette` product. -/
def DomOK {σ : Type _} (p : Puzzle) (st : SState σ) : Prop :=
  ∀ x, st.dom x ⊆ baseDomVals p

/-- A well-formed recorded solution: values drawn from the
given-restricted initial domains, keyed by distinct grid cells, total. -/
def GoodSol (p : Puzzle) (sol : List (Coord × Val)) : Prop :=
  (∀ rcv ∈ sol, rcv.2 ∈ initDom p rcv.1) ∧
  (sol.map Prod.fst).Nodup ∧ (∀ k ∈ sol.map Prod.fst, k ∈ cellsList p) ∧
  sol.length = p.rows * p.cols

/-- The master invariant of a solver run: well-formed keys, domains below
the initial ones, assigned values from the initial domains, and all
recorded solutions well-formed. -/
def Inv3 {σ : Type _} (p : Puzzle) (st : SState σ) : Prop :=
  KeysOK p st ∧ (∀ x, st.dom x ⊆ initDom p x) ∧
  (∀ rcv ∈ st.assign, rcv.2 ∈ initDom p rcv.1) ∧
  (∀ sol ∈ st.solutions, GoodSol p sol)

/-- One BFS expansion step: `b` is a neighbor of `a` and both pass the
membership test (the dequeued cell always passes it). -/
def okStep (R C : Nat) (ok : Coord → Bool) (a b : Coord) : Prop :=
  b ∈ neighbors4 R C a ∧ ok a = true ∧ ok b = true

/-- All recorded solutions pass the block-size check. -/
def SolsOK {σ : Type _} (p : Puzzle) (st : SState σ) : Prop :=
  ∀ sol ∈ st.solutions, completeBlocksOkA p sol = true

/-- Function-level same-value adjacency; on `alookup sol` it is literally
`adjSame`. -/
def adjSameF (R C : Nat) (f : Coord → Option Val) (a b : Coord) : Prop :=
  b ∈ neighbors4 R C a ∧ f a = f b ∧ (f a).isSome

/-- The number at a cell of a partial assignment, as an integer
(`0` when absent). -/
def numAt (f : Coord → Option Val) (x : Coord) : Int :=
  ((f x).map (fun v => (v.1 : Int))).getD 0

/-- A solution of the puzzle, by the rules the solver enforces: clue
lists of the right lengths, totality exactly on the grid, values from the
given-restricted domains, exact line sums, the color rule for adjacent
different numbers, and components sized by their number. -/
def IsSolution (p : Puzzle) (f : Coord → Option Val) : Prop :=
  p.row_sums.length = p.rows ∧ p.col_sums.length = p.cols ∧
  (∀ x : Coord, (f x).isSome = true ↔ (x.1 < p.rows ∧ x.2 < p.cols)) ∧
  (∀ x v, f x = some v → v ∈ initDom p x) ∧
  (∀ r, r < p.rows →
    ((List.range p.cols).map (fun c => numAt f (r, c))).sum = listGetI p.row_sums r) ∧
  (∀ c, c < p.cols →
    ((List.range p.rows).map (fun r => numAt f (r, c))).sum = listGetI p.col_sums c) ∧
  (∀ a b, b ∈ neighbors4 p.rows p.cols a → ∀ va vb, f a = some va → f b = some vb →
    va.1 ≠ vb.1 → va.2 ≠ vb.2) ∧
  (∀ x v, f x = some v →
    {y | Relation.ReflTransGen (adjSameF p.rows p.cols f) x y}.ncard = v.1)

/-- The running-sum bookkeeping invariant. -/
def SumsInv {σ : Type _} (p : Puzzle) (st : SState σ) : Prop :=
  st.rowSumNow.length = p.rows ∧ st.colSumNow.length = p.cols ∧
  (∀ r, listGetI st.rowSumNow r =
    ((st.assign.filter (fun rcv => rcv.1.1 = r)).map (fun rcv => (rcv.2.1 : Int))).sum) ∧
  (∀ c, listGetI st.colSumNow c =
    ((st.assign.filter (fun rcv => rcv.1.2 = c)).map (fun rcv => (rcv.2.1 : Int))).sum)

/-- The assigned pairs pairwise satisfy the color rule. -/
def ColorAdjA (R C : Nat) (l : List (Coord × Val)) : Prop :=
  ∀ a ∈ l, ∀ b ∈ l, b.1 ∈ neighbors4 R C a.1 → a.2.1 ≠ b.2.1 → a.2.2 ≠ b.2.2

/-- The extended master invariant for the counting claim. -/
def Inv4 {σ : Type _} (p : Puzzle) (st : SState σ) : Prop :=
  KeysOK p st ∧ (∀ x, st.dom x ⊆ initDom p x) ∧
  (∀ rcv ∈ st.assign, rcv.2 ∈ initDom p rcv.1) ∧
  SumsInv p st ∧ ColorAdjA p.rows p.cols st.assign

/-- Compatibility of a full solution with a search state: assigned cells
agree with it, unassigned in-grid cells keep its value available. -/
def Compat {σ : Type _} (p : Puzzle) (f : Coord → Option Val) (st : SState σ) : Prop :=
  (∀ x v, alookup st.assign x = some v → f x = some v) ∧
  (∀ x v, x.1 < p.rows → x.2 < p.cols → alookup st.assign x = none →
    f x = some v → v ∈ st.dom x)

/-- Everything the push site guarantees about a recorded solution. -/
def RecordedGood (p : Puzzle) (sol : List (Coord × Val)) : Prop :=
  GoodSol p sol ∧ ColorAdjA p.rows p.cols sol ∧ completeBlocksOkA p sol = true ∧
  (∀ r, ((sol.filter (fun rcv => rcv.1.1 = r)).map (fun rcv => (rcv.2.1 : Int))).sum =
    listGetI p.row_sums r) ∧
  (∀ c, ((sol.filter (fun rcv => rcv.1.2 = c)).map (fun rcv => (rcv.2.1 : Int))).sum =
    listGetI p.col_sums c) ∧
  p.row_sums.length = p.rows ∧ p.col_sums.length = p.cols

/-! ### Concrete fixtures for witnesses and counterexamples -/

/-- A `_randbelow` that always returns 0 (a legitimate instantiation of
the generator parameter, used to evaluate the embeddings concretely). -/
def rbZero : Nat → Unit → Nat × Unit := fun _ s => (0, s)

/-- A constant `rng.random()` returning 1/2. -/
noncomputable def rndHalf : Unit → ℝ × Unit := fun s => ((1 : ℝ) / 2, s)

/-- The 1×1 puzzle with `numbers=[1]`, one palette color and unit sums. -/
def puzzle11 : Puzzle :=
  { rows := 1, cols := 1, palette := [0], numbers := [1], row_sums := [1],
    col_sums := [1], givens := [] }

/-- `puzzle11` with the number given at the single cell. -/
def puzzle11g : Puzzle :=
  { rows := 1, cols := 1, palette := [0], numbers := [1], row_sums := [1],
    col_sums := [1], givens := [{ r := 0, c := 0, num := some 1, col := none }] }

/-- The stepper context for `puzzle11` at difficulty HARD with the
trivial generator instantiation. -/
def dctx11 : DCtx Unit Unit :=
  { base := puzzle11, solution := fun _ => (1, 0),
    cfg := { seed := 1, difficulty := "HARD", max_steps := 50000, strategy := "any" },
    drb := rbZero, srb := rbZero, srng := () }

/-- A configuration whose required numbers cannot fit the grid
(`sum(numbers) = 2 > 1 = rows*cols`). -/
def cfgInfeasible : ConstructConfig :=
  { rows := 1, cols := 1, palette := [0], numbers := [2], seed := 0, style := "BALANCED",
    require_all_numbers := true, require_all_colors := true, max_attempts := 5 }

/-- The multiset of values recorded as removed at cell `x`. -/
def valsAt (removed : List (Coord × Val)) (x : Coord) : Finset Val :=
  ((removed.filter (fun rcv => decide (rcv.1 = x))).map (fun rcv => rcv.2)).toFinset

/-! ## Theorems -/

theorem valsAt_nil (x : Coord) : valsAt [] x = ∅ := rfl

theorem valsAt_cons (a : Coord × Val) (rest : List (Coord × Val)) (x : Coord) :
    valsAt (a :: rest) x = if a.1 = x then insert a.2 (valsAt rest x) else valsAt rest x := by
  by_cases h : a.1 = x
  · simp [valsAt, h]
  · simp [valsAt, h]

theorem valsAt_append (l1 l2 : List (Coord × Val)) (x : Coord) :
    valsAt (l1 ++ l2) x = valsAt l1 x ∪ valsAt l2 x := by
  induction l1 with
  | nil => simp [valsAt_nil, valsAt]
  | cons a rest ih =>
    rw [List.cons_append, valsAt_cons, valsAt_cons, ih]
    by_cases h : a.1 = x
    · simp [h, Finset.insert_union]
    · simp [h]

theorem undo_prune_foldr (removed : List (Coord × Val)) (dom : Coord → Finset Val) :
    undo_prune removed dom =
      removed.foldr (fun rcv d => Function.update d rcv.1 (insert rcv.2 (d rcv.1))) dom := by
  rw [undo_prune, List.foldl_reverse]

/-- `undo_prune` re-adds exactly the recorded values, cell by cell. -/
theorem undo_prune_apply (removed : List (Coord × Val)) (dom : Coord → Finset Val) (x : Coord) :
    undo_prune removed dom x = dom x ∪ valsAt removed x := by
  rw [undo_prune_foldr]
  induction removed with
  | nil => simp [valsAt_nil]
  | cons a rest ih =>
    rw [List.foldr_cons, valsAt_cons]
    by_cases h : a.1 = x
    · rw [if_pos h, h, Function.update_same, ih, Finset.union_insert]
    · rw [if_neg h, Function.update_noteq (fun hx => h hx.symm), ih]

theorem domList_mem (d : Finset Val) (v : Val) : v ∈ domList d ↔ v ∈ d := by
  constructor
  · intro h
    rw [domList, List.mem_filter] at h
    simpa using h.2
  · intro h
    rw [domList, List.mem_filter]
    refine ⟨?_, by simpa using h⟩
    rw [List.mem_flatMap]
    refine ⟨v.1, ?_, ?_⟩
    · rw [List.mem_range, Nat.lt_succ_iff]
      have hmem : v.1 ∈ d.image Prod.fst := Finset.mem_image_of_mem Prod.fst h
      have hle := Finset.le_max hmem
      cases hmax : (d.image Prod.fst).max with
      | bot =>
        rw [hmax] at hle
        exact absurd hle (by simp)
      | coe b =>
        rw [hmax] at hle
        simpa using hle
    · rw [List.mem_map]
      refine ⟨v.2, ?_, rfl⟩
      rw [List.mem_range, Nat.lt_succ_iff]
      have hmem : v.2 ∈ d.image Prod.snd := Finset.mem_image_of_mem Prod.snd h
      have hle := Finset.le_max hmem
      cases hmax : (d.image Prod.snd).max with
      | bot =>
        rw [hmax] at hle
        exact absurd hle (by simp)
      | coe b =>
        rw [hmax] at hle
        simpa using hle

theorem domList_filter_toFinset (d : Finset Val) (p : Val → Prop) [DecidablePred p] :
    ((domList d).filter (fun w => decide (p w))).toFinset = d.filter p := by
  ext w
  simp only [List.mem_toFinset, List.mem_filter, Finset.mem_filter, domList_mem,
    decide_eq_true_eq]

theorem valsAt_map_self (nb : Coord) (ws : List Val) (x : Coord) :
    valsAt (ws.map (fun w => (nb, w))) x = if nb = x then ws.toFinset else ∅ := by
  induction ws with
  | nil => by_cases h : nb = x <;> simp [valsAt_nil, h]
  | cons w rest ih =>
    rw [List.map_cons, valsAt_cons]
    by_cases h : nb = x
    · subst h
      simp [ih]
    · simp [h, ih]

theorem pruneNb_accounting {σ : Type _} (st : SState σ) (v : Val) (D : Coord → Finset Val)
    (acc : List (Coord × Val) × (Coord → Finset Val)) (nb : Coord)
    (h : ∀ x, acc.2 x ∪ valsAt acc.1 x = D x) :
    ∀ x, (pruneNb st v acc nb).2 x ∪ valsAt (pruneNb st v acc nb).1 x = D x := by
  intro x
  rw [pruneNb]
  by_cases hass : (alookup st.assign nb).isSome
  · rw [if_pos hass]
    exact h x
  · rw [if_neg hass]
    simp only [valsAt_append, valsAt_map_self]
    by_cases hx : nb = x
    · subst hx
      rw [Function.update_same, if_pos rfl, domList_filter_toFinset]
      rw [Finset.union_comm (valsAt acc.1 nb), ← Finset.union_assoc, Finset.union_comm
        ((acc.2 nb).filter (fun w => ¬(w.1 ≠ v.1 ∧ w.2 = v.2))),
        Finset.filter_union_filter_neg_eq]
      exact h nb
    · rw [Function.update_noteq (fun hcc => hx hcc.symm), if_neg hx, Finset.union_empty]
      exact h x

theorem pruneFold_accounting {σ : Type _} (st : SState σ) (v : Val) (D : Coord → Finset Val) :
    ∀ (nbs : List Coord) (acc : List (Coord × Val) × (Coord → Finset Val)),
    (∀ x, acc.2 x ∪ valsAt acc.1 x = D x) →
    ∀ x, (nbs.foldl (pruneNb st v) acc).2 x ∪ valsAt ((nbs.foldl (pruneNb st v) acc)).1 x = D x := by
  intro nbs
  induction nbs with
  | nil =>
    intro acc h
    exact h
  | cons nb rest ih =>
    intro acc h
    rw [List.foldl_cons]
    exact ih (pruneNb st v acc nb) (pruneNb_accounting st v D acc nb h)

/-- The per-cell accounting invariant of `forward_check_prune`: at every
cell, the pruned domain together with the recorded removals is exactly
the original domain. -/
theorem forward_check_prune_accounting {σ : Type _} (ctx : SolverCtx σ) (st : SState σ)
    (rc : Coord) (v : Val) (x : Coord) :
    (forward_check_prune ctx st rc v).2 x ∪ valsAt (forward_check_prune ctx st rc v).1 x =
      st.dom x := by
  rw [forward_check_prune]
  apply pruneFold_accounting st v st.dom
  intro y
  dsimp only
  by_cases h : rc = y
  · subst h
    rw [Function.update_same, valsAt_map_self, if_pos rfl, domList_filter_toFinset]
    ext w
    by_cases hw : w = v <;> simp [hw]
  · rw [Function.update_noteq (fun hx => h hx.symm), valsAt_map_self, if_neg h,
      Finset.union_empty]

/-- The prune/undo round trip of claim C10's first half. -/
theorem prune_undo_restores {σ : Type _} (ctx : SolverCtx σ) (st : SState σ)
    (rc : Coord) (v : Val) (x : Coord) :
    undo_prune (forward_check_prune ctx st rc v).1 (forward_check_prune ctx st rc v).2 x =
      st.dom x := by
  rw [undo_prune_apply]
  exact forward_check_prune_accounting ctx st rc v x

theorem nat_mul_div_eq_floor (m a b : Nat) :
    m * a / b = ⌊(m : ℚ) * ((a : ℚ) / (b : ℚ))⌋₊ := by
  have h1 : (m : ℚ) * ((a : ℚ) / (b : ℚ)) = ((m * a : Nat) : ℚ) / ((b : Nat) : ℚ) := by
    push_cast
    ring
  rw [h1, Nat.floor_div_nat, Nat.floor_natCast]

/-- C6 counterexample: the code truncates (`int`), so EASY on a 3×3 board
yields `max(8, int(11.7)) = 11`, while the claim's
`max(8, round(11.7)) = 12`. -/
theorem C6_counterexample :
    difficulty_to_target_reveals "EASY" 3 3 = some 11 ∧
    claimTargetRound "EASY" 3 3 = some 12 ∧ (11 : Nat) ≠ 12 := by
  refine ⟨by decide, ?_, by decide⟩
  simp only [claimTargetRound, specDifficultyFactor, if_pos rfl, Option.map_some']
  norm_num [round_eq]
  decide

/-- C6 amended: for each of the four difficulties the target reveal count
is `max(8, ⌊rows·cols·factor⌋)` — truncation, not rounding. -/
theorem C6_target_case (rows cols a b : Nat) (f : ℚ) (hf : ((a : ℚ) / (b : ℚ)) = f) :
    rows * cols * a / b = ⌊(rows : ℚ) * (cols : ℚ) * f⌋₊ := by
  rw [nat_mul_div_eq_floor (rows * cols) a b, hf, Nat.cast_mul]

theorem C6_amended_floor (diff : String) (rows cols : Nat)
    (hdiff : diff = "EASY" ∨ diff = "MEDIUM" ∨ diff = "HARD" ∨ diff = "EXPERT") :
    difficulty_to_target_reveals diff rows cols = amendedTargetFloor diff rows cols := by
  rcases hdiff with h | h | h | h <;> subst h <;>
    simp only [difficulty_to_target_reveals, amendedTargetFloor, specDifficultyFactor,
      show pyUpper "EASY" = "EASY" from by decide,
      show pyUpper "MEDIUM" = "MEDIUM" from by decide,
      show pyUpper "HARD" = "HARD" from by decide,
      show pyUpper "EXPERT" = "EXPERT" from by decide,
      eq_false (show ("MEDIUM" : String) ≠ "EASY" from by decide),
      eq_false (show ("HARD" : String) ≠ "EASY" from by decide),
      eq_false (show ("HARD" : String) ≠ "MEDIUM" from by decide),
      eq_false (show ("EXPERT" : String) ≠ "EASY" from by decide),
      eq_false (show ("EXPERT" : String) ≠ "MEDIUM" from by decide),
      eq_false (show ("EXPERT" : String) ≠ "HARD" from by decide),
      if_true, if_false, Option.map_some']
  · rw [C6_target_case rows cols 130 100 (13/10) (by norm_num)]
  · rw [C6_target_case rows cols 105 100 (21/20) (by norm_num)]
  · rw [C6_target_case rows cols 85 100 (17/20) (by norm_num)]
  · rw [C6_target_case rows cols 65 100 (13/20) (by norm_num)]

/-- Witness for `C6_amended_floor` at EASY 3×3. -/
theorem C6_amended_floor_witness :
    difficulty_to_target_reveals "EASY" 3 3 = amendedTargetFloor "EASY" 3 3 :=
  C6_amended_floor "EASY" 3 3 (Or.inl rfl)

/-- C9: the engines are deterministic two-run functions of their inputs
including the seed (each seeded wrapper builds its generator state from
the seed alone, exactly as `random.Random(seed)` does). -/
theorem C9_determinism :
    (∀ cfg1 cfg2 : ConstructConfig, cfg1 = cfg2 →
      construct_solution_seeded cfg1 = construct_solution_seeded cfg2) ∧
    (∀ (p1 p2 : Puzzle) (seed1 seed2 : Nat), p1 = p2 → seed1 = seed2 →
      solve_seeded p1 seed1 = solve_seeded p2 seed2 ∧
      ∀ limit, count_solutions_seeded p1 limit seed1 = count_solutions_seeded p2 limit seed2) := by
  refine ⟨?_, ?_⟩
  · intro cfg1 cfg2 h
    rw [h]
  · intro p1 p2 s1 s2 hp hs
    subst hp
    subst hs
    exact ⟨rfl, fun _ => rfl⟩

/-- Witness for `C9_determinism` at concrete inputs. -/
theorem C9_determinism_witness :
    construct_solution_seeded cfgInfeasible = construct_solution_seeded cfgInfeasible ∧
    solve_seeded puzzle11 1 = solve_seeded puzzle11 1 :=
  ⟨C9_determinism.1 cfgInfeasible cfgInfeasible rfl,
   (C9_determinism.2 puzzle11 puzzle11 1 1 rfl rfl).1⟩

theorem attemptLoop_ne_configInfeasible {σ : Type _} (rnd : σ → ℝ × σ)
    (rb : Nat → σ → Nat × σ) (cfg : ConstructConfig) :
    ∀ (fuel : Nat) (s : σ), attemptLoop rnd rb cfg fuel s ≠ .error .configInfeasible := by
  intro fuel
  induction fuel with
  | zero =>
    intro s h
    simp only [attemptLoop] at h
    cases h
  | succ n ih =>
    intro s
    simp only [attemptLoop]
    cases hb : (attemptBody rnd rb cfg s).1 with
    | none => exact ih _
    | some res =>
      intro h
      cases h

/-- C8: `construct_solution` raises the configuration-infeasible error
iff `require_all_numbers` holds and `sum(numbers) > rows*cols`; the
outcome of the check is independent of the generator (seed), and in all
other cases the function proceeds into the attempt loop. -/
theorem C8_config_infeasible {σ : Type} (rnd : σ → ℝ × σ) (rb : Nat → σ → Nat × σ)
    (cfg : ConstructConfig) (rng : σ) :
    (construct_solution rnd rb cfg rng = .error .configInfeasible ↔
      (cfg.require_all_numbers = true ∧ cfg.numbers.sum > cfg.rows * cfg.cols)) ∧
    (∀ {σ2 : Type} (rnd2 : σ2 → ℝ × σ2) (rb2 : Nat → σ2 → Nat × σ2) (rng2 : σ2),
      (construct_solution rnd rb cfg rng = .error .configInfeasible ↔
        construct_solution rnd2 rb2 cfg rng2 = .error .configInfeasible)) ∧
    (¬ (cfg.require_all_numbers = true ∧ cfg.numbers.sum > cfg.rows * cfg.cols) →
      construct_solution rnd rb cfg rng = attemptLoop rnd rb cfg cfg.max_attempts rng) := by
  have hcond : ∀ {σ' : Type} (rnd' : σ' → ℝ × σ') (rb' : Nat → σ' → Nat × σ') (rng' : σ'),
      construct_solution rnd' rb' cfg rng' = .error .configInfeasible ↔
        (cfg.require_all_numbers = true ∧ cfg.numbers.sum > cfg.rows * cfg.cols) := by
    intro σ' rnd' rb' rng'
    simp only [construct_solution, _area_feasible]
    by_cases h : cfg.require_all_numbers = true ∧ cfg.numbers.sum > cfg.rows * cfg.cols
    · rw [if_pos]
      · simp [h]
      · refine ⟨h.1, ?_⟩
        simp only [decide_eq_true_eq]
        omega
    · rw [if_neg]
      · simp only [iff_false_intro h, iff_false]
        exact attemptLoop_ne_configInfeasible rnd' rb' cfg cfg.max_attempts rng'
      · intro hc
        apply h
        refine ⟨hc.1, ?_⟩
        have := hc.2
        simp only [decide_eq_true_eq] at this
        omega
  refine ⟨hcond rnd rb rng, fun rnd2 rb2 rng2 => ?_, ?_⟩
  · rw [hcond rnd rb rng, hcond rnd2 rb2 rng2]
  · intro h
    simp only [construct_solution, _area_feasible]
    rw [if_neg]
    intro hc
    apply h
    refine ⟨hc.1, ?_⟩
    have := hc.2
    simp only [decide_eq_true_eq] at this
    omega

/-- Witness for `C8_config_infeasible`: a 1×1 grid cannot contain a
required 2-block, so the error is raised. -/
theorem C8_config_infeasible_witness :
    construct_solution rndHalf rbZero cfgInfeasible () = .error .configInfeasible :=
  (C8_config_infeasible rndHalf rbZero cfgInfeasible ()).1.mpr (by decide)

/-- C7: `__init__` sorts colors first and THEN shuffles, so the shuffle
destroys the partition the comment ("put color removals early") and the
spec describe.  Evaluated at the 1×1 HARD stepper with the all-zeros
`_randbelow` instantiation: the embedded `__init__` yields `[num, col]`
(not partitioned), while the order the spec describes — shuffle first,
then stable-partition — is partitioned for the same generator.  (With
CPython's real generator the same failure occurs at seed 1.) -/
theorem C7_code_bug_eval :
    (dInit dctx11 ()).candidates = [(0, 0, "num"), (0, 0, "col")] ∧
    colsFirstPartitioned ((dInit dctx11 ()).candidates) = false ∧
    colsFirstPartitioned (specCandidateOrder rbZero 1 1 ()) = true := by
  refine ⟨by decide, by decide, by decide⟩

/-- C5 counterexample: with the runtime style string "SMALL",
`_choose_block_sizes` computes the BALANCED weights `n^1.05` (the claimed
`1/n^1.1` with steering is bias.py's unused `choose_block_sizes_biased`).
For `fits = [1,2]` the weight lists differ, and for the same uniform draw
1/2 the code picks 2 where the claimed weights would pick 1. -/
theorem C5_counterexample :
    styleWeights "SMALL" [1, 2] ≠ claimedWeights "SMALL" [1, 2] 2 1 0 3 ∧
    (_weighted_choice rndHalf () [1, 2] (styleWeights "SMALL" [1, 2])).1 = 2 ∧
    (_weighted_choice rndHalf () [1, 2] (claimedWeights "SMALL" [1, 2] 2 1 0 3)).1 = 1 := by
  have h2pos : (0 : ℝ) < 2 := by norm_num
  have hone_lt : (1 : ℝ) < (2 : ℝ) ^ (1.05 : ℝ) := by
    rw [show (1.05 : ℝ) = (105/100 : ℝ) by norm_num]
    exact (Real.one_lt_rpow_iff_of_pos h2pos).mpr (Or.inl ⟨by norm_num, by norm_num⟩)
  have hone_lt6 : (1 : ℝ) < (2 : ℝ) ^ (0.6 : ℝ) := by
    rw [show (0.6 : ℝ) = (6/10 : ℝ) by norm_num]
    exact (Real.one_lt_rpow_iff_of_pos h2pos).mpr (Or.inl ⟨by norm_num, by norm_num⟩)
  have hpos105 : (0 : ℝ) < (2 : ℝ) ^ (1.05 : ℝ) := lt_trans one_pos hone_lt
  have hpos6 : (0 : ℝ) < (2 : ℝ) ^ (0.6 : ℝ) := lt_trans one_pos hone_lt6
  have hpos11 : (0 : ℝ) < (2 : ℝ) ^ (1.1 : ℝ) := Real.rpow_pos_of_pos h2pos _
  have hone_le11 : (1 : ℝ) ≤ (2 : ℝ) ^ (1.1 : ℝ) := by
    rw [show (1.1 : ℝ) = (11/10 : ℝ) by norm_num]
    exact le_of_lt ((Real.one_lt_rpow_iff_of_pos h2pos).mpr (Or.inl ⟨by norm_num, by norm_num⟩))
  have hsw : styleWeights "SMALL" [1, 2] = [((1 : Nat) : ℝ) ^ (1.05 : ℝ), ((2 : Nat) : ℝ) ^ (1.05 : ℝ)] := by
    simp only [styleWeights,
      eq_false (show ("SMALL" : String) ≠ "SMALL_BLOCKY" from by decide),
      eq_false (show ("SMALL" : String) ≠ "LARGE_BLOCKY" from by decide),
      if_false, List.map]
  have hcast1 : ((1 : Nat) : ℝ) = 1 := by norm_num
  have hcast2 : ((2 : Nat) : ℝ) = 2 := by norm_num
  have hsw' : styleWeights "SMALL" [1, 2] = [1, (2 : ℝ) ^ (1.05 : ℝ)] := by
    rw [hsw, hcast1, hcast2, Real.one_rpow]
  have hcw : claimedWeights "SMALL" [1, 2] 2 1 0 3 =
      [(2 : ℝ) ^ (0.6 : ℝ), 1 / (2 : ℝ) ^ (1.1 : ℝ)] := by
    simp only [claimedWeights, claimedLocalWeight, claimedSteerFactor, List.map,
      eq_self_iff_true, if_true,
      show ((((0 : Nat) : Nat) : ℝ) < 3) = True from eq_true (by norm_num)]
    rw [show ((1 : Nat) : ℝ) = 1 from by norm_num, show ((2 : Nat) : ℝ) = 2 from by norm_num,
      Real.one_rpow, div_one, div_self (by norm_num : (2 : ℝ) ≠ 0), Real.one_rpow]
    norm_num
  refine ⟨?_, ?_, ?_⟩
  · rw [hsw', hcw]
    intro h
    have hh := List.head_eq_of_cons_eq h
    rw [hh] at hone_lt6
    exact lt_irrefl _ hone_lt6
  · rw [hsw']
    simp only [_weighted_choice, rndHalf, wchoiceLoop, List.zip, List.zipWith, List.sum_cons,
      List.sum_nil, List.getD, List.length]
    rw [if_neg, if_pos]
    · nlinarith [hpos105]
    · intro hle
      nlinarith [hone_lt]
  · rw [hcw]
    simp only [_weighted_choice, rndHalf, wchoiceLoop, List.zip, List.zipWith, List.sum_cons,
      List.sum_nil, List.getD, List.length]
    have h1 : (2 : ℝ) ^ (-(1.1 : ℝ)) ≤ (2 : ℝ) ^ (0.6 : ℝ) :=
      (Real.rpow_le_rpow_left_iff (by norm_num)).mpr (by norm_num)
    have h2 : 1 / (2 : ℝ) ^ (1.1 : ℝ) = (2 : ℝ) ^ (-(1.1 : ℝ)) := by
      rw [Real.rpow_neg (le_of_lt h2pos), one_div]
    rw [if_pos]
    nlinarith [h1, h2, hpos6, hpos11]

/-- C5 amended: the weights `construct_solution`'s selection actually
applies. -/
theorem C5_amended_weights (style : String) (fits : List Nat) :
    styleWeights style fits = fits.map (amendedStyleWeight style) := by
  by_cases h1 : style = "SMALL_BLOCKY"
  · subst h1
    simp only [styleWeights, eq_self_iff_true, if_true]
    refine List.map_congr_left fun a _ => ?_
    simp only [amendedStyleWeight, eq_self_iff_true, if_true]
  · by_cases h2 : style = "LARGE_BLOCKY"
    · subst h2
      simp only [styleWeights, eq_self_iff_true, if_true,
        eq_false (show ("LARGE_BLOCKY" : String) ≠ "SMALL_BLOCKY" from by decide), if_false]
      refine List.map_congr_left fun a _ => ?_
      simp only [amendedStyleWeight, eq_self_iff_true, if_true,
        eq_false (show ("LARGE_BLOCKY" : String) ≠ "SMALL_BLOCKY" from by decide), if_false]
    · simp only [styleWeights, eq_false h1, eq_false h2, if_false]
      refine List.map_congr_left fun a _ => ?_
      simp only [amendedStyleWeight, eq_false h1, eq_false h2, if_false]

/-- `alookup` misses exactly the keys absent from the list. -/
theorem alookup_eq_none {κ β : Type _} [DecidableEq κ] (l : List (κ × β)) (k : κ) :
    alookup l k = none ↔ k ∉ l.map Prod.fst := by
  induction l with
  | nil => simp [alookup]
  | cons kv rest ih =>
    rw [alookup]
    by_cases h : kv.1 = k
    · simp [h]
    · simp [h, ih, Ne.symm h]

/-- Deleting a freshly appended key recovers the original list. -/
theorem aerase_append_singleton {κ β : Type _} [DecidableEq κ] (l : List (κ × β)) (k : κ)
    (v : β) (h : k ∉ l.map Prod.fst) : aerase (l ++ [(k, v)]) k = l := by
  induction l with
  | nil => simp [aerase]
  | cons kv rest ih =>
    simp only [List.map_cons, List.mem_cons, not_or] at h
    rw [List.cons_append, aerase, if_neg (fun hh => h.1 hh.symm), ih h.2]

theorem listSetAdd_nil (i : Nat) (d : Int) : listSetAdd [] i d = [] := rfl

theorem listSetAdd_cons_zero (x : Int) (xs : List Int) (d : Int) :
    listSetAdd (x :: xs) 0 d = (x + d) :: xs := rfl

theorem listSetAdd_cons_succ (x : Int) (xs : List Int) (i : Nat) (d : Int) :
    listSetAdd (x :: xs) (i + 1) d = x :: listSetAdd xs i d := rfl

/-- Adding and then subtracting the same delta at the same index is the
identity (`row_sum_now` / `col_sum_now` bookkeeping in `unassign_val`). -/
theorem listSetAdd_cancel : ∀ (l : List Int) (i : Nat) (d : Int),
    listSetAdd (listSetAdd l i d) i (-d) = l := by
  intro l
  induction l with
  | nil => intro i d; rfl
  | cons x xs ih =>
    intro i d
    cases i with
    | zero =>
      rw [listSetAdd_cons_zero, listSetAdd_cons_zero]
      have hx : x + d + -d = x := by ring
      rw [hx]
    | succ i => rw [listSetAdd_cons_succ, listSetAdd_cons_succ, ih]

/-- Pruning only shrinks domains. -/
theorem forward_check_prune_dom_subset {σ : Type _} (ctx : SolverCtx σ) (st : SState σ)
    (rc : Coord) (v : Val) (x : Coord) :
    (forward_check_prune ctx st rc v).2 x ⊆ st.dom x := by
  conv_rhs => rw [← forward_check_prune_accounting ctx st rc v x]
  exact Finset.subset_union_left

theorem keysOK_congr {σ : Type _} (p : Puzzle) (a b : SState σ)
    (h : a.assign = b.assign) (hb : KeysOK p b) : KeysOK p a := by
  unfold KeysOK at hb ⊢
  rw [h]
  exact hb

theorem domOK_congr {σ : Type _} (p : Puzzle) (a b : SState σ)
    (h : a.dom = b.dom) (hb : DomOK p b) : DomOK p a := by
  unfold DomOK at hb ⊢
  rw [h]
  exact hb

theorem sameCore_trans {σ : Type _} (a b c : SState σ) :
    SameCore a b → SameCore b c → SameCore a c := by
  intro h1 h2
  exact ⟨h1.1.trans h2.1, h1.2.1.trans h2.2.1, h1.2.2.1.trans h2.2.2.1,
    h1.2.2.2.trans h2.2.2.2⟩

/-- Appending a fresh assignment key keeps the keys distinct grid cells. -/
theorem keysOK_append {σ : Type _} (p : Puzzle) (st : SState σ) (rc : Coord) (v : Val)
    (hK : KeysOK p st) (hrcC : rc ∈ cellsList p) (hrc : rc ∉ st.assign.map Prod.fst) :
    ((st.assign ++ [(rc, v)]).map Prod.fst).Nodup ∧
      ∀ k ∈ (st.assign ++ [(rc, v)]).map Prod.fst, k ∈ cellsList p := by
  rw [List.map_append]
  constructor
  · rw [List.nodup_append]
    refine ⟨hK.1, List.nodup_singleton rc, ?_⟩
    intro a ha hb
    simp only [List.map_cons, List.map_nil, List.mem_singleton] at hb
    exact hrc (hb ▸ ha)
  · intro k hk
    rcases List.mem_append.1 hk with h | h
    · exact hK.2 k h
    · simp only [List.map_cons, List.map_nil, List.mem_singleton] at h
      exact h ▸ hrcC

/-- Folding the givens over any base preserves an upper bound. -/
theorem foldl_applyGiven_subset (B : Finset Val) :
    ∀ (gs : List Given) (dom : Coord → Finset Val),
      (∀ x, dom x ⊆ B) → ∀ x, (gs.foldl applyGiven dom) x ⊆ B := by
  intro gs
  induction gs with
  | nil => intro dom h; exact h
  | cons g rest ih =>
    intro dom h
    rw [List.foldl_cons]
    apply ih
    intro x
    rw [applyGiven]
    by_cases hx : ((g.r, g.c) : Coord) = x
    · rw [← hx, Function.update_same]
      have hbase := h ((g.r, g.c) : Coord)
      cases g.num with
      | none =>
        cases g.col with
        | none => exact hbase
        | some col => exact (Finset.filter_subset _ _).trans hbase
      | some n =>
        cases g.col with
        | none => exact (Finset.filter_subset _ _).trans hbase
        | some col =>
          exact (Finset.filter_subset _ _).trans ((Finset.filter_subset _ _).trans hbase)
    · rw [Function.update_noteq (fun hh => hx hh.symm)]
      exact h x

/-- The given-restricted initial domain stays inside the full product. -/
theorem initDom_subset (p : Puzzle) (x : Coord) : initDom p x ⊆ baseDomVals p := by
  rw [initDom]
  exact foldl_applyGiven_subset (baseDomVals p) p.givens _ (fun _ => Finset.Subset.refl _) x

theorem cellsList_length (p : Puzzle) : (cellsList p).length = p.rows * p.cols := by
  rw [cellsList, List.length_flatMap]
  have hmap : (List.range p.rows).map
      (Function.comp List.length (fun r => (List.range p.cols).map (fun c => ((r, c) : Coord))))
        = List.replicate p.rows p.cols := by
    rw [List.eq_replicate_iff]
    constructor
    · rw [List.length_map, List.length_range]
    · intro b hb
      rw [List.mem_map] at hb
      obtain ⟨r, _, hr⟩ := hb
      rw [← hr, Function.comp_apply, List.length_map, List.length_range]
  rw [hmap, List.sum_const_nat]

theorem cellsList_nodup (p : Puzzle) : (cellsList p).Nodup := by
  rw [cellsList, List.nodup_flatMap]
  constructor
  · intro r _
    exact (List.nodup_range p.cols).map (fun a b h => by simpa using h)
  · apply List.Pairwise.imp ?_ (List.pairwise_lt_range p.rows)
    intro a b hab
    intro x hxa hxb
    simp only [List.mem_map, List.mem_range] at hxa hxb
    obtain ⟨c1, _, h1⟩ := hxa
    obtain ⟨c2, _, h2⟩ := hxb
    rw [← h2] at h1
    injection h1 with hr hc
    exact absurd hab (by rw [hr]; exact Nat.lt_irrefl b)

/-- `select_mrv`'s scan returns an unassigned cell of the scanned list
whenever the list holds an unassigned cell with domain below the running
bound or the running best is already set. -/
theorem selectMrvGo_spec {σ : Type _} (st : SState σ) (P : Coord → Prop) :
    ∀ (l : List Coord) (best : Option Coord) (bestLen : Nat),
      (∀ rc ∈ l, P rc) →
      (∀ b, best = some b → P b ∧ alookup st.assign b = none) →
      ((∃ rc ∈ l, alookup st.assign rc = none ∧ (st.dom rc).card < bestLen) ∨
        best.isSome = true) →
      P (selectMrvGo st l best bestLen) ∧
        alookup st.assign (selectMrvGo st l best bestLen) = none := by
  intro l
  induction l with
  | nil =>
    intro best bestLen _ hbest hex
    rw [selectMrvGo]
    rcases hex with ⟨rc, hrc, _⟩ | hsome
    · exact absurd hrc (List.not_mem_nil rc)
    · cases best with
      | none => simp at hsome
      | some b => simpa using hbest b rfl
  | cons rc rest ih =>
    intro best bestLen hl hbest hex
    rw [selectMrvGo]
    by_cases ha : (alookup st.assign rc).isSome = true
    · rw [if_pos ha]
      apply ih best bestLen (fun x hx => hl x (List.mem_cons_of_mem rc hx)) hbest
      rcases hex with ⟨x, hx, hxn, hxc⟩ | hsome
      · rcases List.mem_cons.1 hx with h | h
        · subst h
          rw [hxn] at ha
          simp at ha
        · exact Or.inl ⟨x, h, hxn, hxc⟩
      · exact Or.inr hsome
    · rw [if_neg ha]
      have hanone : alookup st.assign rc = none := Option.not_isSome_iff_eq_none.1 ha
      dsimp only
      by_cases hlt : (st.dom rc).card < bestLen
      · rw [if_pos hlt]
        by_cases h1 : (st.dom rc).card = 1
        · rw [if_pos h1]
          exact ⟨hl rc (List.mem_cons_self rc rest), hanone⟩
        · rw [if_neg h1]
          apply ih (some rc) ((st.dom rc).card)
            (fun x hx => hl x (List.mem_cons_of_mem rc hx))
          · intro b hb
            injection hb with hb
            subst hb
            exact ⟨hl rc (List.mem_cons_self rc rest), hanone⟩
          · exact Or.inr rfl
      · rw [if_neg hlt]
        apply ih best bestLen (fun x hx => hl x (List.mem_cons_of_mem rc hx)) hbest
        rcases hex with ⟨x, hx, hxn, hxc⟩ | hsome
        · rcases List.mem_cons.1 hx with h | h
          · subst h
            exact absurd hxc hlt
          · exact Or.inl ⟨x, h, hxn, hxc⟩
        · exact Or.inr hsome

/-- `select_mrv` on an incomplete well-formed state picks an unassigned
grid cell (the source's `assert best is not None` in formal clothing). -/
theorem select_mrv_spec {σ : Type _} (ctx : SolverCtx σ) (st : SState σ)
    (hcard : (baseDomVals ctx.p).card < 10 ^ 18)
    (hK : KeysOK ctx.p st) (hD : DomOK ctx.p st)
    (hinc : ¬ is_complete ctx st = true) :
    select_mrv ctx st ∈ cellsList ctx.p ∧ alookup st.assign (select_mrv ctx st) = none := by
  have hlen : st.assign.length ≠ ctx.p.rows * ctx.p.cols := by
    intro h
    apply hinc
    exact decide_eq_true h
  have hex : ∃ rc ∈ cellsList ctx.p, alookup st.assign rc = none := by
    by_contra hno
    push_neg at hno
    have hsub : cellsList ctx.p ⊆ st.assign.map Prod.fst := by
      intro rc hrc
      by_contra hmem
      exact hno rc hrc ((alookup_eq_none st.assign rc).2 hmem)
    have hfin : (cellsList ctx.p).toFinset = (st.assign.map Prod.fst).toFinset := by
      apply Finset.Subset.antisymm
      · intro x hx
        rw [List.mem_toFinset] at hx ⊢
        exact hsub hx
      · intro x hx
        rw [List.mem_toFinset] at hx ⊢
        exact hK.2 x hx
    have h1 : (cellsList ctx.p).toFinset.card = (cellsList ctx.p).length :=
      List.toFinset_card_of_nodup (cellsList_nodup ctx.p)
    have h2 : (st.assign.map Prod.fst).toFinset.card = st.assign.length := by
      rw [List.toFinset_card_of_nodup hK.1, List.length_map]
    apply hlen
    rw [← h2, ← hfin, h1, cellsList_length]
  obtain ⟨rc0, hmem0, hnone0⟩ := hex
  exact selectMrvGo_spec st (fun x => x ∈ cellsList ctx.p) (cellsList ctx.p) none (10 ^ 18)
    (fun rc h => h) (fun b hb => by cases hb)
    (Or.inl ⟨rc0, hmem0, hnone0, lt_of_le_of_lt (Finset.card_le_card (hD rc0)) hcard⟩)

/-- One accepted value iteration fully restores the four tracked state
components, given that the recursive call does. -/
theorem loopStep_core {σ : Type _} (ctx : SolverCtx σ) (next : SState σ → Bool × SState σ)
    (hnext : ∀ st, KeysOK ctx.p st → DomOK ctx.p st → SameCore (next st).2 st)
    (rc : Coord) (v : Val) (st : SState σ)
    (hK : KeysOK ctx.p st) (hD : DomOK ctx.p st)
    (hrcC : rc ∈ cellsList ctx.p) (hrc : alookup st.assign rc = none) :
    SameCore (loopStep ctx next rc v st).2 st := by
  have hrckeys : rc ∉ st.assign.map Prod.fst := (alookup_eq_none st.assign rc).1 hrc
  have hKD := keysOK_append ctx.p st rc v hK hrcC hrckeys
  have hK2 : KeysOK ctx.p ({ assign_val st rc v with
      dom := (forward_check_prune ctx (assign_val st rc v) rc v).2 }) := ⟨hKD.1, hKD.2⟩
  have hD2 : DomOK ctx.p ({ assign_val st rc v with
      dom := (forward_check_prune ctx (assign_val st rc v) rc v).2 }) :=
    fun x => Finset.Subset.trans
      (forward_check_prune_dom_subset ctx (assign_val st rc v) rc v x) (hD x)
  have key : ∀ (r : Bool × SState σ) (pr : List (Coord × Val) × (Coord → Finset Val)),
      SameCore r.2 ({ assign_val st rc v with dom := pr.2 }) →
      (∀ x, undo_prune pr.1 pr.2 x = (assign_val st rc v).dom x) →
      SameCore (unassign_val { r.2 with dom := undo_prune pr.1 r.2.dom } rc v) st := by
    intro r pr hr hundo
    obtain ⟨h1, h2, h3, h4⟩ := hr
    refine ⟨?_, ?_, ?_, ?_⟩
    · show undo_prune pr.1 r.2.dom = st.dom
      rw [h1]
      show undo_prune pr.1 pr.2 = st.dom
      funext x
      exact hundo x
    · show aerase r.2.assign rc = st.assign
      rw [h2]
      show aerase (st.assign ++ [(rc, v)]) rc = st.assign
      exact aerase_append_singleton st.assign rc v hrckeys
    · show listSetAdd r.2.rowSumNow rc.1 (-(v.1 : Int)) = st.rowSumNow
      rw [h3]
      show listSetAdd (listSetAdd st.rowSumNow rc.1 (v.1 : Int)) rc.1 (-(v.1 : Int)) = st.rowSumNow
      exact listSetAdd_cancel st.rowSumNow rc.1 (v.1 : Int)
    · show listSetAdd r.2.colSumNow rc.2 (-(v.1 : Int)) = st.colSumNow
      rw [h4]
      show listSetAdd (listSetAdd st.colSumNow rc.2 (v.1 : Int)) rc.2 (-(v.1 : Int)) = st.colSumNow
      exact listSetAdd_cancel st.colSumNow rc.2 (v.1 : Int)
  exact key (next ({ assign_val st rc v with
      dom := (forward_check_prune ctx (assign_val st rc v) rc v).2 }))
    (forward_check_prune ctx (assign_val st rc v) rc v)
    (hnext _ hK2 hD2)
    (fun x => prune_undo_restores ctx (assign_val st rc v) rc v x)

/-- The value loop restores the four tracked state components. -/
theorem loopVals_restores {σ : Type _} (ctx : SolverCtx σ) (next : SState σ → Bool × SState σ)
    (hnext : ∀ st, KeysOK ctx.p st → DomOK ctx.p st → SameCore (next st).2 st)
    (rc : Coord) (hrcC : rc ∈ cellsList ctx.p) :
    ∀ (vs : List Val) (st : SState σ), KeysOK ctx.p st → DomOK ctx.p st →
      alookup st.assign rc = none →
      SameCore (loopVals ctx next rc vs st).2 st := by
  intro vs
  induction vs with
  | nil =>
    intro st _ _ _
    exact ⟨rfl, rfl, rfl, rfl⟩
  | cons v vs ih =>
    intro st hK hD hrc
    rw [loopVals]
    split
    · have hstep := loopStep_core ctx next hnext rc v st hK hD hrcC hrc
      dsimp only
      split
      · exact hstep
      · split
        · exact hstep
        · exact sameCore_trans _ _ _
            (ih (loopStep ctx next rc v st).2
              (keysOK_congr ctx.p _ st hstep.2.1 hK)
              (domOK_congr ctx.p _ st hstep.1 hD)
              (by rw [hstep.2.1]; exact hrc))
            hstep
    · exact ih st hK hD hrc

/-- One `dfs` level restores the four tracked state components. -/
theorem dfsBody_restores {σ : Type _} (ctx : SolverCtx σ)
    (hcard : (baseDomVals ctx.p).card < 10 ^ 18)
    (next : SState σ → Bool × SState σ)
    (hnext : ∀ st, KeysOK ctx.p st → DomOK ctx.p st → SameCore (next st).2 st)
    (st : SState σ) (hK : KeysOK ctx.p st) (hD : DomOK ctx.p st) :
    SameCore (dfsBody ctx next st).2 st := by
  rw [dfsBody]
  split
  · exact ⟨rfl, rfl, rfl, rfl⟩
  · split
    · split
      · exact ⟨rfl, rfl, rfl, rfl⟩
      · exact ⟨rfl, rfl, rfl, rfl⟩
    · rename_i hinc
      have hsel := select_mrv_spec ctx st hcard hK hD hinc
      dsimp only
      exact sameCore_trans _ _ _
        (loopVals_restores ctx next hnext (select_mrv ctx st) hsel.1
          (order_values ctx st (select_mrv ctx st)).1
          (order_values ctx st (select_mrv ctx st)).2
          (keysOK_congr ctx.p _ st rfl hK)
          (domOK_congr ctx.p _ st rfl hD)
          hsel.2)
        ⟨rfl, rfl, rfl, rfl⟩

/-- `dfs` restores the four tracked state components, at any fuel. -/
theorem dfsGo_restores {σ : Type _} (ctx : SolverCtx σ)
    (hcard : (baseDomVals ctx.p).card < 10 ^ 18) :
    ∀ (fuel : Nat) (st : SState σ), KeysOK ctx.p st → DomOK ctx.p st →
      SameCore (dfsGo ctx fuel st).2 st := by
  intro fuel
  induction fuel with
  | zero =>
    intro st _ _
    exact ⟨rfl, rfl, rfl, rfl⟩
  | succ n ih =>
    intro st hK hD
    rw [dfsGo]
    exact dfsBody_restores ctx hcard (dfsGo ctx n) ih st hK hD

/-- C10: backtracking state restoration.  `undo_prune` applied to the
removal list of `forward_check_prune` restores every cell's domain, and
after `solve` returns the assignment map is empty, the running row and
column sums are all zero, and every cell's domain equals its initial
given-restricted value.  (The hypothesis bounds the per-cell domain size
by the `10^18` sentinel used in `select_mrv`, mirroring the source's
`assert best is not None`.) -/
theorem C10_backtracking_restoration {σ : Type _} (p : Puzzle) (rb : Nat → σ → Nat × σ)
    (rng : σ) (findTwo : Bool) (maxSolutions : Nat)
    (hcard : (baseDomVals p).card < 10 ^ 18) :
    (∀ (ctx : SolverCtx σ) (st : SState σ) (rc : Coord) (v : Val) (x : Coord),
      undo_prune (forward_check_prune ctx st rc v).1 (forward_check_prune ctx st rc v).2 x =
        st.dom x) ∧
    (solveAll p rb rng findTwo maxSolutions).2.assign = [] ∧
    (solveAll p rb rng findTwo maxSolutions).2.rowSumNow = List.replicate p.rows 0 ∧
    (solveAll p rb rng findTwo maxSolutions).2.colSumNow = List.replicate p.cols 0 ∧
    ∀ x, (solveAll p rb rng findTwo maxSolutions).2.dom x = initDom p x := by
  have h := dfsGo_restores
    { p := p, rb := rb, findTwo := findTwo, maxSolutions := maxSolutions }
    hcard (p.rows * p.cols + 1) (initState p rng)
    ⟨List.nodup_nil, fun k hk => absurd hk (List.not_mem_nil k)⟩
    (fun x => initDom_subset p x)
  obtain ⟨h1, h2, h3, h4⟩ := h
  exact ⟨fun ctx st rc v x => prune_undo_restores ctx st rc v x, h2, h3, h4,
    fun x => congrFun h1 x⟩

/-- Witness for C10 at the 1×1 fixture. -/
theorem C10_backtracking_restoration_witness :
    (baseDomVals puzzle11).card < 10 ^ 18 ∧
    ((∀ (ctx : SolverCtx Unit) (st : SState Unit) (rc : Coord) (v : Val) (x : Coord),
      undo_prune (forward_check_prune ctx st rc v).1 (forward_check_prune ctx st rc v).2 x =
        st.dom x) ∧
    (solveAll puzzle11 rbZero () true 2).2.assign = [] ∧
    (solveAll puzzle11 rbZero () true 2).2.rowSumNow = List.replicate puzzle11.rows 0 ∧
    (solveAll puzzle11 rbZero () true 2).2.colSumNow = List.replicate puzzle11.cols 0 ∧
    ∀ x, (solveAll puzzle11 rbZero () true 2).2.dom x = initDom puzzle11 x) :=
  ⟨by decide, C10_backtracking_restoration puzzle11 rbZero () true 2 (by decide)⟩

theorem mem_insertLe {α : Type _} (le : α → α → Bool) (x a : α) :
    ∀ l, a ∈ insertLe le x l ↔ a = x ∨ a ∈ l := by
  intro l
  induction l with
  | nil => simp [insertLe]
  | cons y ys ih =>
    rw [insertLe]
    by_cases h : le x y = true
    · rw [if_pos h]
      simp
    · rw [if_neg h]
      simp only [List.mem_cons, ih]
      tauto

/-- Insertion sort permutes membership. -/
theorem mem_isortBy {α : Type _} (le : α → α → Bool) : ∀ (l : List α) (a : α),
    a ∈ isortBy le l ↔ a ∈ l := by
  intro l
  induction l with
  | nil => intro a; rw [isortBy]
  | cons x xs ih =>
    intro a
    rw [isortBy, mem_insertLe]
    simp [ih]

theorem mem_of_mem_pySwap {α : Type _} (l : List α) (i j : Nat) (a : α)
    (h : a ∈ pySwap l i j) : a ∈ l := by
  rw [pySwap] at h
  cases hi : l.get? i with
  | none =>
    rw [hi] at h
    cases hj : l.get? j with
    | none => rw [hj] at h; exact h
    | some b => rw [hj] at h; exact h
  | some av =>
    rw [hi] at h
    cases hj : l.get? j with
    | none => rw [hj] at h; exact h
    | some b =>
      rw [hj] at h
      rcases List.mem_or_eq_of_mem_set h with h1 | h1
      · rcases List.mem_or_eq_of_mem_set h1 with h2 | h2
        · exact h2
        · subst h2
          exact List.get?_mem hj
      · subst h1
        exact List.get?_mem hi

theorem shuffleGo_subset {σ α : Type _} (rb : Nat → σ → Nat × σ) :
    ∀ (n : Nat) (l : List α) (s : σ) (a : α), a ∈ (shuffleGo rb n l s).1 → a ∈ l := by
  intro n
  induction n with
  | zero => intro l s a h; exact h
  | succ i ih =>
    intro l s a h
    rw [shuffleGo] at h
    exact mem_of_mem_pySwap l (i + 1) (rb (i + 2) s).1 a (ih _ _ a h)

/-- Fisher–Yates shuffling permutes membership (one direction suffices). -/
theorem pyShuffle_subset {σ α : Type _} (rb : Nat → σ → Nat × σ) (l : List α) (s : σ)
    (a : α) (h : a ∈ (pyShuffle rb l s).1) : a ∈ l :=
  shuffleGo_subset rb (l.length - 1) l s a h

/-- Every candidate value tried at a cell comes from its current domain. -/
theorem order_values_mem {σ : Type _} (ctx : SolverCtx σ) (st : SState σ) (rc : Coord)
    (v : Val) (hv : v ∈ (order_values ctx st rc).1) : v ∈ st.dom rc := by
  rw [order_values] at hv
  dsimp only at hv
  rw [mem_isortBy] at hv
  exact (domList_mem _ v).1 (pyShuffle_subset ctx.rb (domList (st.dom rc)) st.rng v hv)

theorem alookup_mem {κ β : Type _} [DecidableEq κ] : ∀ (l : List (κ × β)) (k : κ) (v : β),
    alookup l k = some v → (k, v) ∈ l := by
  intro l
  induction l with
  | nil => intro k v h; cases h
  | cons kv rest ih =>
    intro k v h
    rw [alookup] at h
    by_cases hk : kv.1 = k
    · rw [if_pos hk] at h
      injection h with h
      have hkv : (k, v) = kv := by rw [← hk, ← h]
      exact List.mem_cons.2 (Or.inl hkv)
    · rw [if_neg hk] at h
      exact List.mem_cons_of_mem kv (ih k v h)

theorem cellsList_mem (p : Puzzle) (rc : Coord) :
    rc ∈ cellsList p ↔ rc.1 < p.rows ∧ rc.2 < p.cols := by
  rw [cellsList]
  simp only [List.mem_flatMap, List.mem_map, List.mem_range]
  constructor
  · rintro ⟨r, hr, c, hc, h⟩
    rw [← h]
    exact ⟨hr, hc⟩
  · rintro ⟨h1, h2⟩
    exact ⟨rc.1, h1, rc.2, h2, rfl⟩

/-- A well-formed solution is total on the grid. -/
theorem goodSol_total (p : Puzzle) (sol : List (Coord × Val)) (hs : GoodSol p sol)
    (rc : Coord) (hrc : rc ∈ cellsList p) : ∃ v, alookup sol rc = some v := by
  have hsub : (sol.map Prod.fst).toFinset ⊆ (cellsList p).toFinset := by
    intro x hx
    rw [List.mem_toFinset] at hx ⊢
    exact hs.2.2.1 x hx
  have hcards : (cellsList p).toFinset.card ≤ (sol.map Prod.fst).toFinset.card := by
    rw [List.toFinset_card_of_nodup hs.2.1, List.length_map, hs.2.2.2,
      List.toFinset_card_of_nodup (cellsList_nodup p), cellsList_length]
  have heq : (sol.map Prod.fst).toFinset = (cellsList p).toFinset :=
    Finset.eq_of_subset_of_card_le hsub hcards
  have hkey : rc ∈ sol.map Prod.fst := by
    rw [← List.mem_toFinset, heq, List.mem_toFinset]
    exact hrc
  cases halk : alookup sol rc with
  | none => exact absurd hkey ((alookup_eq_none sol rc).1 halk)
  | some v => exact ⟨v, rfl⟩

/-- One given only filters domains. -/
theorem applyGiven_shrinks (dom : Coord → Finset Val) (g : Given) (x : Coord) :
    applyGiven dom g x ⊆ dom x := by
  rw [applyGiven]
  by_cases hx : ((g.r, g.c) : Coord) = x
  · rw [← hx, Function.update_same]
    have hbase : dom ((g.r, g.c) : Coord) ⊆ dom ((g.r, g.c) : Coord) := Finset.Subset.refl _
    cases g.num with
    | none =>
      cases g.col with
      | none => exact hbase
      | some col => exact (Finset.filter_subset _ _).trans hbase
    | some n =>
      cases g.col with
      | none => exact (Finset.filter_subset _ _).trans hbase
      | some col =>
        exact (Finset.filter_subset _ _).trans ((Finset.filter_subset _ _).trans hbase)
  · rw [Function.update_noteq (fun hh => hx hh.symm)]

theorem foldl_applyGiven_shrinks :
    ∀ (gs : List Given) (dom : Coord → Finset Val) (x : Coord),
      (gs.foldl applyGiven dom) x ⊆ dom x := by
  intro gs
  induction gs with
  | nil => intro dom x; exact Finset.Subset.refl _
  | cons g rest ih =>
    intro dom x
    rw [List.foldl_cons]
    exact (ih (applyGiven dom g) x).trans (applyGiven_shrinks dom g x)

/-- The domain produced at a given's own cell only holds matching values. -/
theorem applyGiven_self_match (dom : Coord → Finset Val) (g : Given) (v : Val)
    (hv : v ∈ applyGiven dom g ((g.r, g.c) : Coord)) :
    (∀ n, g.num = some n → v.1 = n) ∧ (∀ col, g.col = some col → v.2 = col) := by
  rw [applyGiven, Function.update_same] at hv
  constructor
  · intro n hn
    rw [hn] at hv
    cases hcol : g.col with
    | none =>
      rw [hcol] at hv
      exact (Finset.mem_filter.1 hv).2
    | some c =>
      rw [hcol] at hv
      exact (Finset.mem_filter.1 (Finset.mem_filter.1 hv).1).2
  · intro c hc
    rw [hc] at hv
    exact (Finset.mem_filter.1 hv).2

/-- A value admitted by the initial domain at a given's cell matches the
given's present parts. -/
theorem initDom_given (p : Puzzle) (g : Given) (hg : g ∈ p.givens) (v : Val)
    (hv : v ∈ initDom p ((g.r, g.c) : Coord)) :
    (∀ n, g.num = some n → v.1 = n) ∧ (∀ col, g.col = some col → v.2 = col) := by
  obtain ⟨l1, l2, hsplit⟩ := List.append_of_mem hg
  rw [initDom, hsplit, List.foldl_append, List.foldl_cons] at hv
  exact applyGiven_self_match (l1.foldl applyGiven (fun _ => baseDomVals p)) g v
    (foldl_applyGiven_shrinks l2 _ _ hv)

/-- One accepted value iteration preserves the master invariant and
restores the tracked components. -/
theorem loopStep_inv3 {σ : Type _} (ctx : SolverCtx σ) (next : SState σ → Bool × SState σ)
    (hnext : ∀ st, Inv3 ctx.p st → Inv3 ctx.p (next st).2 ∧ SameCore (next st).2 st)
    (rc : Coord) (v : Val) (st : SState σ)
    (hI : Inv3 ctx.p st) (hrcC : rc ∈ cellsList ctx.p) (hrc : alookup st.assign rc = none)
    (hv : v ∈ st.dom rc) :
    Inv3 ctx.p (loopStep ctx next rc v st).2 ∧ SameCore (loopStep ctx next rc v st).2 st := by
  have hrckeys : rc ∉ st.assign.map Prod.fst := (alookup_eq_none st.assign rc).1 hrc
  have hKD := keysOK_append ctx.p st rc v hI.1 hrcC hrckeys
  have hI2 : Inv3 ctx.p ({ assign_val st rc v with
      dom := (forward_check_prune ctx (assign_val st rc v) rc v).2 }) := by
    refine ⟨⟨hKD.1, hKD.2⟩, ?_, ?_, ?_⟩
    · intro x
      exact Finset.Subset.trans
        (forward_check_prune_dom_subset ctx (assign_val st rc v) rc v x) (hI.2.1 x)
    · intro rcv hmem
      rcases List.mem_append.1 hmem with h | h
      · exact hI.2.2.1 rcv h
      · rw [List.mem_singleton] at h
        subst h
        exact hI.2.1 rc hv
    · exact hI.2.2.2
  have key : ∀ (r : Bool × SState σ) (pr : List (Coord × Val) × (Coord → Finset Val)),
      Inv3 ctx.p r.2 →
      SameCore r.2 ({ assign_val st rc v with dom := pr.2 }) →
      (∀ x, undo_prune pr.1 pr.2 x = (assign_val st rc v).dom x) →
      Inv3 ctx.p (unassign_val { r.2 with dom := undo_prune pr.1 r.2.dom } rc v) ∧
        SameCore (unassign_val { r.2 with dom := undo_prune pr.1 r.2.dom } rc v) st := by
    intro r pr hIr hr hundo
    obtain ⟨h1, h2, h3, h4⟩ := hr
    have hcore : SameCore (unassign_val { r.2 with dom := undo_prune pr.1 r.2.dom } rc v) st := by
      refine ⟨?_, ?_, ?_, ?_⟩
      · show undo_prune pr.1 r.2.dom = st.dom
        rw [h1]
        show undo_prune pr.1 pr.2 = st.dom
        funext x
        exact hundo x
      · show aerase r.2.assign rc = st.assign
        rw [h2]
        show aerase (st.assign ++ [(rc, v)]) rc = st.assign
        exact aerase_append_singleton st.assign rc v hrckeys
      · show listSetAdd r.2.rowSumNow rc.1 (-(v.1 : Int)) = st.rowSumNow
        rw [h3]
        show listSetAdd (listSetAdd st.rowSumNow rc.1 (v.1 : Int)) rc.1 (-(v.1 : Int)) =
          st.rowSumNow
        exact listSetAdd_cancel st.rowSumNow rc.1 (v.1 : Int)
      · show listSetAdd r.2.colSumNow rc.2 (-(v.1 : Int)) = st.colSumNow
        rw [h4]
        show listSetAdd (listSetAdd st.colSumNow rc.2 (v.1 : Int)) rc.2 (-(v.1 : Int)) =
          st.colSumNow
        exact listSetAdd_cancel st.colSumNow rc.2 (v.1 : Int)
    refine ⟨⟨?_, ?_, ?_, ?_⟩, hcore⟩
    · exact keysOK_congr ctx.p _ st hcore.2.1 hI.1
    · intro x
      rw [congrFun hcore.1 x]
      exact hI.2.1 x
    · intro rcv hmem
      rw [hcore.2.1] at hmem
      exact hI.2.2.1 rcv hmem
    · exact hIr.2.2.2
  exact key (next ({ assign_val st rc v with
      dom := (forward_check_prune ctx (assign_val st rc v) rc v).2 }))
    (forward_check_prune ctx (assign_val st rc v) rc v)
    (hnext _ hI2).1 (hnext _ hI2).2
    (fun x => prune_undo_restores ctx (assign_val st rc v) rc v x)

/-- The value loop preserves the master invariant. -/
theorem loopVals_inv3 {σ : Type _} (ctx : SolverCtx σ) (next : SState σ → Bool × SState σ)
    (hnext : ∀ st, Inv3 ctx.p st → Inv3 ctx.p (next st).2 ∧ SameCore (next st).2 st)
    (rc : Coord) (hrcC : rc ∈ cellsList ctx.p) :
    ∀ (vs : List Val) (st : SState σ), Inv3 ctx.p st →
      alookup st.assign rc = none → (∀ v ∈ vs, v ∈ st.dom rc) →
      Inv3 ctx.p (loopVals ctx next rc vs st).2 ∧
        SameCore (loopVals ctx next rc vs st).2 st := by
  intro vs
  induction vs with
  | nil =>
    intro st hI _ _
    exact ⟨hI, rfl, rfl, rfl, rfl⟩
  | cons v vs ih =>
    intro st hI hrc hvs
    rw [loopVals]
    split
    · have hstep := loopStep_inv3 ctx next hnext rc v st hI hrcC hrc
        (hvs v (List.mem_cons_self v vs))
      dsimp only
      split
      · exact hstep
      · split
        · exact hstep
        · have hrec := ih (loopStep ctx next rc v st).2 hstep.1
            (by rw [hstep.2.2.1]; exact hrc)
            (fun w hw => by
              rw [congrFun hstep.2.1 rc]
              exact hvs w (List.mem_cons_of_mem v hw))
          exact ⟨hrec.1, sameCore_trans _ _ _ hrec.2 hstep.2⟩
    · exact ih st hI hrc (fun w hw => hvs w (List.mem_cons_of_mem v hw))

/-- One `dfs` level preserves the master invariant. -/
theorem dfsBody_inv3 {σ : Type _} (ctx : SolverCtx σ)
    (hcard : (baseDomVals ctx.p).card < 10 ^ 18)
    (next : SState σ → Bool × SState σ)
    (hnext : ∀ st, Inv3 ctx.p st → Inv3 ctx.p (next st).2 ∧ SameCore (next st).2 st)
    (st : SState σ) (hI : Inv3 ctx.p st) :
    Inv3 ctx.p (dfsBody ctx next st).2 ∧ SameCore (dfsBody ctx next st).2 st := by
  rw [dfsBody]
  split
  · exact ⟨hI, rfl, rfl, rfl, rfl⟩
  · split
    · rename_i hcomp
      split
      · refine ⟨⟨?_, ?_, ?_, ?_⟩, rfl, rfl, rfl, rfl⟩
        · exact keysOK_congr ctx.p _ st rfl hI.1
        · exact hI.2.1
        · exact hI.2.2.1
        · intro sol hs
          rcases List.mem_append.1 hs with h | h
          · exact hI.2.2.2 sol h
          · rw [List.mem_singleton] at h
            subst h
            exact ⟨hI.2.2.1, hI.1.1, hI.1.2, of_decide_eq_true hcomp⟩
      · exact ⟨hI, rfl, rfl, rfl, rfl⟩
    · rename_i hinc
      have hsel := select_mrv_spec ctx st hcard hI.1
        (fun x => Finset.Subset.trans (hI.2.1 x) (initDom_subset ctx.p x)) hinc
      dsimp only
      have hloop := loopVals_inv3 ctx next hnext (select_mrv ctx st) hsel.1
        (order_values ctx st (select_mrv ctx st)).1
        (order_values ctx st (select_mrv ctx st)).2
        hI hsel.2
        (fun w hw => order_values_mem ctx st (select_mrv ctx st) w hw)
      exact ⟨hloop.1, sameCore_trans _ _ _ hloop.2 ⟨rfl, rfl, rfl, rfl⟩⟩

/-- `dfs` preserves the master invariant, at any fuel. -/
theorem dfsGo_inv3 {σ : Type _} (ctx : SolverCtx σ)
    (hcard : (baseDomVals ctx.p).card < 10 ^ 18) :
    ∀ (fuel : Nat) (st : SState σ), Inv3 ctx.p st →
      Inv3 ctx.p (dfsGo ctx fuel st).2 ∧ SameCore (dfsGo ctx fuel st).2 st := by
  intro fuel
  induction fuel with
  | zero =>
    intro st hI
    exact ⟨hI, rfl, rfl, rfl, rfl⟩
  | succ n ih =>
    intro st hI
    rw [dfsGo]
    exact dfsBody_inv3 ctx hcard (dfsGo ctx n) ih st hI

/-- Every solution `solve` records is well-formed. -/
theorem solveAll_goodSol {σ : Type _} (p : Puzzle) (rb : Nat → σ → Nat × σ) (rng : σ)
    (findTwo : Bool) (maxSolutions : Nat) (hcard : (baseDomVals p).card < 10 ^ 18) :
    ∀ sol ∈ (solveAll p rb rng findTwo maxSolutions).1, GoodSol p sol := by
  have h := (dfsGo_inv3
    { p := p, rb := rb, findTwo := findTwo, maxSolutions := maxSolutions } hcard
    (p.rows * p.cols + 1) (initState p rng)
    ⟨⟨List.nodup_nil, fun k hk => absurd hk (List.not_mem_nil k)⟩,
      fun x => Finset.Subset.refl _,
      fun rcv h => absurd h (List.not_mem_nil rcv),
      fun sol h => absurd h (List.not_mem_nil sol)⟩).1
  exact fun sol hs => h.2.2.2 sol hs

/-- C3: givens are respected part-wise.  Every solution recorded by
`NuminoSolver.solve` (the list `solve`/`count_solutions` read) assigns,
at each in-grid given's cell, a value whose number matches `g.num` when
present and whose color matches `g.col` when present.  (The hypothesis
bounds the domain size by `select_mrv`'s `10^18` sentinel; out-of-grid
givens would make the Python constructor raise `KeyError`, hence the
bounds hypotheses.) -/
theorem C3_givens_respected {σ : Type _} (p : Puzzle) (rb : Nat → σ → Nat × σ) (rng : σ)
    (findTwo : Bool) (maxSolutions : Nat)
    (hcard : (baseDomVals p).card < 10 ^ 18)
    (sol : List (Coord × Val)) (hsol : sol ∈ (solveAll p rb rng findTwo maxSolutions).1)
    (g : Given) (hg : g ∈ p.givens) (hgr : g.r < p.rows) (hgc : g.c < p.cols) :
    ∃ v, alookup sol ((g.r, g.c) : Coord) = some v ∧
      (∀ n, g.num = some n → v.1 = n) ∧ (∀ col, g.col = some col → v.2 = col) := by
  have hgood := solveAll_goodSol p rb rng findTwo maxSolutions hcard sol hsol
  have hcell : ((g.r, g.c) : Coord) ∈ cellsList p := (cellsList_mem p _).2 ⟨hgr, hgc⟩
  obtain ⟨v, hv⟩ := goodSol_total p sol hgood _ hcell
  exact ⟨v, hv, initDom_given p g hg v (hgood.1 (((g.r, g.c) : Coord), v) (alookup_mem sol _ v hv))⟩

/-- Witness for C3 at the 1×1 fixture with a number given. -/
theorem C3_givens_respected_witness :
    ((baseDomVals puzzle11g).card < 10 ^ 18 ∧
      [((((0 : Nat), (0 : Nat)) : Coord), (((1 : Nat), (0 : Nat)) : Val))] ∈
        (solveAll puzzle11g rbZero () false 2).1 ∧
      ((0 : Nat) : Nat) < puzzle11g.rows ∧ ((0 : Nat) : Nat) < puzzle11g.cols) ∧
    ∃ v, alookup [((((0 : Nat), (0 : Nat)) : Coord), (((1 : Nat), (0 : Nat)) : Val))]
        ((({ r := 0, c := 0, num := some 1, col := none } : Given).r,
          ({ r := 0, c := 0, num := some 1, col := none } : Given).c) : Coord) = some v ∧
      (∀ n, ({ r := 0, c := 0, num := some 1, col := none } : Given).num = some n → v.1 = n) ∧
      (∀ col, ({ r := 0, c := 0, num := some 1, col := none } : Given).col = some col →
        v.2 = col) :=
  ⟨⟨by decide, by decide, by decide, by decide⟩,
    C3_givens_respected puzzle11g rbZero () false 2 (by decide) _ (by decide)
      { r := 0, c := 0, num := some 1, col := none } (List.mem_cons_self _ _)
      (by decide) (by decide)⟩

theorem neighbors4_mem_iff (R C : Nat) (a b : Coord) :
    b ∈ neighbors4 R C a ↔
      (0 < a.1 ∧ b = (a.1 - 1, a.2)) ∨ (a.1 + 1 < R ∧ b = (a.1 + 1, a.2)) ∨
      (0 < a.2 ∧ b = (a.1, a.2 - 1)) ∨ (a.2 + 1 < C ∧ b = (a.1, a.2 + 1)) := by
  rw [neighbors4]
  by_cases h1 : 0 < a.1 <;> by_cases h2 : a.1 + 1 < R <;> by_cases h3 : 0 < a.2 <;>
    by_cases h4 : a.2 + 1 < C <;> simp [h1, h2, h3, h4]

theorem neighbors4_grid (R C : Nat) (a : Coord) (h1 : a.1 < R) (h2 : a.2 < C) :
    ∀ b ∈ neighbors4 R C a, b.1 < R ∧ b.2 < C := by
  intro b hb
  rcases (neighbors4_mem_iff R C a b).1 hb with ⟨h, he⟩ | ⟨h, he⟩ | ⟨h, he⟩ | ⟨h, he⟩ <;>
    subst he <;> constructor <;> simp <;> omega

/-- Grid adjacency is symmetric (for an in-grid center). -/
theorem neighbors4_symm (R C : Nat) (a b : Coord) (ha1 : a.1 < R) (ha2 : a.2 < C)
    (hb : b ∈ neighbors4 R C a) : a ∈ neighbors4 R C b := by
  rcases (neighbors4_mem_iff R C a b).1 hb with ⟨h, he⟩ | ⟨h, he⟩ | ⟨h, he⟩ | ⟨h, he⟩ <;>
    subst he <;> rw [neighbors4_mem_iff] <;> simp [Prod.ext_iff] <;> omega

/-- A duplicate-free list of in-grid cells has at most `R*C` entries. -/
theorem length_le_grid (R C : Nat) (l : List Coord) (hn : l.Nodup)
    (hg : ∀ b ∈ l, b.1 < R ∧ b.2 < C) : l.length ≤ R * C := by
  rw [← List.toFinset_card_of_nodup hn]
  have hsub : l.toFinset ⊆ Finset.range R ×ˢ Finset.range C := by
    intro x hx
    rw [List.mem_toFinset] at hx
    rw [Finset.mem_product, Finset.mem_range, Finset.mem_range]
    exact hg x hx
  calc l.toFinset.card ≤ (Finset.range R ×ˢ Finset.range C).card := Finset.card_le_card hsub
    _ = R * C := by rw [Finset.card_product, Finset.card_range, Finset.card_range]

/-- The BFS neighbor fold appends the same fresh cells to queue and seen:
they pass the test, were unseen, and afterwards every passing neighbor is
seen. -/
theorem bfsFold_spec (ok : Coord → Bool) :
    ∀ (nbs : List Coord) (qs : List Coord × List Coord),
      ∃ new, (nbs.foldl (bfsPush ok) qs).1 = qs.1 ++ new ∧
        (nbs.foldl (bfsPush ok) qs).2 = qs.2 ++ new ∧
        (∀ b ∈ new, b ∈ nbs ∧ ok b = true ∧ b ∉ qs.2) ∧
        (qs.2.Nodup → (qs.2 ++ new).Nodup) ∧
        (∀ nb ∈ nbs, ok nb = true → nb ∈ (nbs.foldl (bfsPush ok) qs).2) := by
  intro nbs
  induction nbs with
  | nil =>
    intro qs
    exact ⟨[], by simp, by simp, by simp, by simp, by simp⟩
  | cons nb rest ih =>
    intro qs
    rw [List.foldl_cons]
    by_cases hseen : nb ∈ qs.2
    · have hpush : bfsPush ok qs nb = qs := by rw [bfsPush, if_pos hseen]
      rw [hpush]
      obtain ⟨new, ha, hb, hc, hd, he⟩ := ih qs
      refine ⟨new, ha, hb, fun b hbm =>
        ⟨List.mem_cons_of_mem nb (hc b hbm).1, (hc b hbm).2.1, (hc b hbm).2.2⟩, hd, ?_⟩
      intro x hx hokx
      rcases List.mem_cons.1 hx with h | h
      · subst h
        rw [hb]
        exact List.mem_append_left _ hseen
      · exact he x h hokx
    · by_cases hok : ok nb = true
      · have hpush : bfsPush ok qs nb = (qs.1 ++ [nb], qs.2 ++ [nb]) := by
          rw [bfsPush, if_neg hseen, if_pos hok]
        rw [hpush]
        obtain ⟨new, ha, hb, hc, hd, he⟩ := ih (qs.1 ++ [nb], qs.2 ++ [nb])
        refine ⟨nb :: new, ?_, ?_, ?_, ?_, ?_⟩
        · rw [ha]
          simp
        · rw [hb]
          simp
        · intro b hbm
          rcases List.mem_cons.1 hbm with h | h
          · subst h
            exact ⟨List.mem_cons_self _ _, hok, hseen⟩
          · have hcc := hc b h
            refine ⟨List.mem_cons_of_mem nb hcc.1, hcc.2.1, ?_⟩
            intro hbq
            exact hcc.2.2 (List.mem_append_left _ hbq)
        · intro hnod
          have hstep : (qs.2 ++ [nb]).Nodup := by
            rw [List.nodup_append]
            refine ⟨hnod, List.nodup_singleton nb, ?_⟩
            intro a haq han
            rw [List.mem_singleton] at han
            subst han
            exact hseen haq
          have h2 := hd hstep
          rw [List.append_assoc] at h2
          simpa using h2
        · intro x hx hokx
          rcases List.mem_cons.1 hx with h | h
          · subst h
            rw [hb]
            exact List.mem_append_left _ (List.mem_append_right _ (List.mem_singleton.2 rfl))
          · exact he x h hokx
      · have hpush : bfsPush ok qs nb = qs := by rw [bfsPush, if_neg hseen, if_neg hok]
        rw [hpush]
        obtain ⟨new, ha, hb, hc, hd, he⟩ := ih qs
        refine ⟨new, ha, hb, fun b hbm =>
          ⟨List.mem_cons_of_mem nb (hc b hbm).1, (hc b hbm).2.1, (hc b hbm).2.2⟩, hd, ?_⟩
        intro x hx hokx
        rcases List.mem_cons.1 hx with h | h
        · subst h
          exact absurd hokx hok
        · exact he x h hokx

/-- BFS with enough fuel: the result is duplicate-free, in-grid, extends
`seen`, only holds old cells or cells reached from the queue, and is
closed under expansion. -/
theorem bfsAux_spec (R C : Nat) (ok : Coord → Bool) :
    ∀ (fuel : Nat) (q seen : List Coord),
      seen.Nodup →
      (∀ b ∈ seen, b.1 < R ∧ b.2 < C) →
      q.Nodup →
      (∀ b ∈ q, b ∈ seen ∧ ok b = true) →
      (∀ b ∈ seen, b ∈ q ∨ (∀ c, okStep R C ok b c → c ∈ seen)) →
      q.length + (R * C - seen.length) ≤ fuel →
      (bfsAux R C ok fuel q seen).Nodup ∧
        (∀ b ∈ bfsAux R C ok fuel q seen, b.1 < R ∧ b.2 < C) ∧
        (∃ tl, bfsAux R C ok fuel q seen = seen ++ tl) ∧
        (∀ x ∈ bfsAux R C ok fuel q seen,
          x ∈ seen ∨ ∃ a ∈ q, Relation.ReflTransGen (okStep R C ok) a x) ∧
        (∀ b ∈ bfsAux R C ok fuel q seen, ∀ c, okStep R C ok b c →
          c ∈ bfsAux R C ok fuel q seen) := by
  intro fuel
  induction fuel with
  | zero =>
    intro q seen hsn hsg hqn hq hcl hpot
    cases q with
    | nil =>
      rw [bfsAux]
      refine ⟨hsn, hsg, ⟨[], by simp⟩, fun x hx => Or.inl hx, ?_⟩
      intro b hbm c hstep
      rcases hcl b hbm with h | h
      · exact absurd h (List.not_mem_nil b)
      · exact h c hstep
    | cons cur qtail =>
      exfalso
      rw [List.length_cons] at hpot
      omega
  | succ n ih =>
    intro q seen hsn hsg hqn hq hcl hpot
    cases q with
    | nil =>
      rw [bfsAux]
      refine ⟨hsn, hsg, ⟨[], by simp⟩, fun x hx => Or.inl hx, ?_⟩
      intro b hbm c hstep
      rcases hcl b hbm with h | h
      · exact absurd h (List.not_mem_nil b)
      · exact h c hstep
    | cons cur qtail =>
      have hcur := hq cur (List.mem_cons_self cur qtail)
      have hcurg := hsg cur hcur.1
      rw [bfsAux]
      rw [bfsStep]
      obtain ⟨new, ha, hb, hc, hd, he⟩ := bfsFold_spec ok (neighbors4 R C cur) (qtail, seen)
      rw [ha, hb]
      have hnewg : ∀ b ∈ new, b.1 < R ∧ b.2 < C := fun b hbm =>
        neighbors4_grid R C cur hcurg.1 hcurg.2 b (hc b hbm).1
      have hsn1 : (seen ++ new).Nodup := hd hsn
      have hsg1 : ∀ b ∈ seen ++ new, b.1 < R ∧ b.2 < C := by
        intro b hbm
        rcases List.mem_append.1 hbm with h | h
        · exact hsg b h
        · exact hnewg b h
      have hqn1 : (qtail ++ new).Nodup := by
        rw [List.nodup_append]
        refine ⟨(List.nodup_cons.1 hqn).2, ((List.nodup_append.1 hsn1).2.1), ?_⟩
        intro b hbq hbn
        exact (hc b hbn).2.2 (hq b (List.mem_cons_of_mem cur hbq)).1
      have hq1 : ∀ b ∈ qtail ++ new, b ∈ seen ++ new ∧ ok b = true := by
        intro b hbm
        rcases List.mem_append.1 hbm with h | h
        · exact ⟨List.mem_append_left _ (hq b (List.mem_cons_of_mem cur h)).1,
            (hq b (List.mem_cons_of_mem cur h)).2⟩
        · exact ⟨List.mem_append_right _ h, (hc b h).2.1⟩
      have hcl1 : ∀ b ∈ seen ++ new, b ∈ qtail ++ new ∨
          (∀ c, okStep R C ok b c → c ∈ seen ++ new) := by
        intro b hbm
        rcases List.mem_append.1 hbm with h | h
        · rcases hcl b h with h2 | h2
          · rcases List.mem_cons.1 h2 with h3 | h3
            · subst h3
              right
              intro c hstep
              have := he c hstep.1 hstep.2.2
              rw [hb] at this
              exact this
            · exact Or.inl (List.mem_append_left _ h3)
          · exact Or.inr (fun c hs => List.mem_append_left _ (h2 c hs))
        · exact Or.inl (List.mem_append_right _ h)
      have hpot1 : (qtail ++ new).length + (R * C - (seen ++ new).length) ≤ n := by
        have hle := length_le_grid R C (seen ++ new) hsn1 hsg1
        simp only [List.length_append, List.length_cons] at hle hpot ⊢
        omega
      obtain ⟨Rn, Rg, ⟨tl, Rt⟩, Rf, Rc⟩ :=
        ih (qtail ++ new) (seen ++ new) hsn1 hsg1 hqn1 hq1 hcl1 hpot1
      refine ⟨Rn, Rg, ⟨new ++ tl, by rw [Rt, List.append_assoc]⟩, ?_, Rc⟩
      intro x hx
      rcases Rf x hx with h | ⟨a, haq, hrtg⟩
      · rcases List.mem_append.1 h with h2 | h2
        · exact Or.inl h2
        · refine Or.inr ⟨cur, List.mem_cons_self cur qtail, ?_⟩
          exact Relation.ReflTransGen.single ⟨(hc x h2).1, hcur.2, (hc x h2).2.1⟩
      · rcases List.mem_append.1 haq with h2 | h2
        · exact Or.inr ⟨a, List.mem_cons_of_mem cur h2, hrtg⟩
        · refine Or.inr ⟨cur, List.mem_cons_self cur qtail, ?_⟩
          exact Relation.ReflTransGen.trans
            (Relation.ReflTransGen.single ⟨(hc a h2).1, hcur.2, (hc a h2).2.1⟩) hrtg

/-- The BFS membership characterization: old cells plus everything
reachable from the queue. -/
theorem bfsAux_mem_iff (R C : Nat) (ok : Coord → Bool) (fuel : Nat) (q seen : List Coord)
    (hsn : seen.Nodup) (hsg : ∀ b ∈ seen, b.1 < R ∧ b.2 < C) (hqn : q.Nodup)
    (hq : ∀ b ∈ q, b ∈ seen ∧ ok b = true)
    (hcl : ∀ b ∈ seen, b ∈ q ∨ (∀ c, okStep R C ok b c → c ∈ seen))
    (hpot : q.length + (R * C - seen.length) ≤ fuel) (x : Coord) :
    x ∈ bfsAux R C ok fuel q seen ↔
      x ∈ seen ∨ ∃ a ∈ q, Relation.ReflTransGen (okStep R C ok) a x := by
  obtain ⟨Rn, Rg, ⟨tl, Rt⟩, Rf, Rc⟩ := bfsAux_spec R C ok fuel q seen hsn hsg hqn hq hcl hpot
  constructor
  · exact Rf x
  · intro h
    rcases h with h | ⟨a, haq, hrtg⟩
    · rw [Rt]
      exact List.mem_append_left _ h
    · have hain : a ∈ bfsAux R C ok fuel q seen := by
        rw [Rt]
        exact List.mem_append_left _ (hq a haq).1
      induction hrtg with
      | refl => exact hain
      | tail h1 h2 ih2 => exact Rc _ ih2 _ h2

/-- Along a same-value path every cell holds the root's value. -/
theorem adjRtg_value (R C : Nat) (sol : List (Coord × Val)) (v : Val) (rc : Coord)
    (hrc : alookup sol rc = some v) (b : Coord)
    (h : Relation.ReflTransGen (adjSame R C sol) rc b) : alookup sol b = some v := by
  induction h with
  | refl => exact hrc
  | tail h1 h2 ih => exact h2.2.1.symm.trans ih

/-- `adjSame` is symmetric when assigned keys lie in the grid. -/
theorem adjSame_symm (R C : Nat) (sol : List (Coord × Val))
    (hkeys : ∀ k : Coord, (alookup sol k).isSome = true → k.1 < R ∧ k.2 < C)
    (x y : Coord) (h : adjSame R C sol x y) : adjSame R C sol y x := by
  obtain ⟨hnb, heq, hsome⟩ := h
  have hx := hkeys x hsome
  refine ⟨neighbors4_symm R C x y hx.1 hx.2 hnb, heq.symm, ?_⟩
  rw [← heq]
  exact hsome

theorem adjRtg_symm (R C : Nat) (sol : List (Coord × Val))
    (hkeys : ∀ k : Coord, (alookup sol k).isSome = true → k.1 < R ∧ k.2 < C)
    (a b : Coord) (h : Relation.ReflTransGen (adjSame R C sol) a b) :
    Relation.ReflTransGen (adjSame R C sol) b a := by
  induction h with
  | refl => exact Relation.ReflTransGen.refl
  | tail h1 h2 ih => exact Relation.ReflTransGen.head (adjSame_symm R C sol hkeys _ _ h2) ih

/-- Two cells of one component span the same component. -/
theorem comp_eq_of_mem (R C : Nat) (sol : List (Coord × Val))
    (hkeys : ∀ k : Coord, (alookup sol k).isSome = true → k.1 < R ∧ k.2 < C)
    (a b : Coord) (hab : Relation.ReflTransGen (adjSame R C sol) a b) :
    {x | Relation.ReflTransGen (adjSame R C sol) b x} =
      {x | Relation.ReflTransGen (adjSame R C sol) a x} := by
  have hba := adjRtg_symm R C sol hkeys a b hab
  ext x
  simp only [Set.mem_setOf_eq]
  exact ⟨fun h => Relation.ReflTransGen.trans hab h,
    fun h => Relation.ReflTransGen.trans hba h⟩

/-- BFS expansion paths and same-value adjacency paths agree from a cell
holding the value. -/
theorem okRtg_iff_adjRtg (R C : Nat) (sol : List (Coord × Val)) (v : Val) (rc : Coord)
    (hrc : alookup sol rc = some v) (x : Coord) :
    Relation.ReflTransGen (okStep R C (fun nb => decide (alookup sol nb = some v))) rc x ↔
      Relation.ReflTransGen (adjSame R C sol) rc x := by
  constructor
  · intro h
    induction h with
    | refl => exact Relation.ReflTransGen.refl
    | tail h1 h2 ih =>
      refine Relation.ReflTransGen.tail ih ?_
      obtain ⟨hnb, hoka, hokb⟩ := h2
      have ha := of_decide_eq_true hoka
      have hb := of_decide_eq_true hokb
      refine ⟨hnb, by rw [ha, hb], ?_⟩
      rw [ha]
      rfl
  · intro h
    have key : Relation.ReflTransGen
        (okStep R C (fun nb => decide (alookup sol nb = some v))) rc x ∧
        alookup sol x = some v := by
      induction h with
      | refl => exact ⟨Relation.ReflTransGen.refl, hrc⟩
      | tail h1 h2 ih =>
        have hcv := h2.2.1.symm.trans ih.2
        refine ⟨Relation.ReflTransGen.tail ih.1
          ⟨h2.1, decide_eq_true ih.2, decide_eq_true hcv⟩, hcv⟩
    exact key.1

/-- A closed seen set absorbs whole adjacency paths. -/
theorem seen_absorbs (R C : Nat) (sol : List (Coord × Val)) (seen : List Coord)
    (hcl : ∀ b ∈ seen, ∀ c, adjSame R C sol b c → c ∈ seen)
    (x : Coord) (hx : x ∈ seen) (y : Coord)
    (h : Relation.ReflTransGen (adjSame R C sol) x y) : y ∈ seen := by
  induction h with
  | refl => exact hx
  | tail h1 h2 ih => exact hcl _ ih _ h2

/-- The BFS pass of `complete_blocks_ok` at an unseen assigned cell:
result facts and the exact component count. -/
theorem bfs_component (R C : Nat) (sol : List (Coord × Val)) (v : Val) (rc : Coord)
    (hkeys : ∀ k : Coord, (alookup sol k).isSome = true → k.1 < R ∧ k.2 < C)
    (seen : List Coord) (hsn : seen.Nodup) (hsg : ∀ b ∈ seen, b.1 < R ∧ b.2 < C)
    (hcl : ∀ b ∈ seen, ∀ c, adjSame R C sol b c → c ∈ seen)
    (hrc : alookup sol rc = some v) (hrcs : rc ∉ seen) :
    (bfsAux R C (fun nb => decide (alookup sol nb = some v)) (R * C + 8) [rc]
        (seen ++ [rc])).Nodup ∧
    (∀ b ∈ bfsAux R C (fun nb => decide (alookup sol nb = some v)) (R * C + 8) [rc]
        (seen ++ [rc]), b.1 < R ∧ b.2 < C) ∧
    (∀ x, x ∈ bfsAux R C (fun nb => decide (alookup sol nb = some v)) (R * C + 8) [rc]
        (seen ++ [rc]) ↔
      x ∈ seen ∨ Relation.ReflTransGen (adjSame R C sol) rc x) ∧
    (bfsAux R C (fun nb => decide (alookup sol nb = some v)) (R * C + 8) [rc]
        (seen ++ [rc])).length - seen.length =
      {x | Relation.ReflTransGen (adjSame R C sol) rc x}.ncard := by
  have hrcg : rc.1 < R ∧ rc.2 < C := by
    apply hkeys rc
    rw [hrc]
    rfl
  have hsn0 : (seen ++ [rc]).Nodup := by
    rw [List.nodup_append]
    refine ⟨hsn, List.nodup_singleton rc, ?_⟩
    intro a ha hb
    rw [List.mem_singleton] at hb
    subst hb
    exact hrcs ha
  have hsg0 : ∀ b ∈ seen ++ [rc], b.1 < R ∧ b.2 < C := by
    intro b hb
    rcases List.mem_append.1 hb with h | h
    · exact hsg b h
    · rw [List.mem_singleton] at h
      subst h
      exact hrcg
  have hq0 : ∀ b ∈ [rc], b ∈ seen ++ [rc] ∧
      (fun nb => decide (alookup sol nb = some v)) b = true := by
    intro b hb
    rw [List.mem_singleton] at hb
    subst hb
    exact ⟨List.mem_append_right _ (List.mem_singleton.2 rfl), decide_eq_true hrc⟩
  have hcl0 : ∀ b ∈ seen ++ [rc], b ∈ [rc] ∨
      (∀ c, okStep R C (fun nb => decide (alookup sol nb = some v)) b c →
        c ∈ seen ++ [rc]) := by
    intro b hb
    rcases List.mem_append.1 hb with h | h
    · right
      intro c hstep
      have hbv := of_decide_eq_true hstep.2.1
      have hcv := of_decide_eq_true hstep.2.2
      have : adjSame R C sol b c := ⟨hstep.1, by rw [hbv, hcv], by rw [hbv]; rfl⟩
      exact List.mem_append_left _ (hcl b h c this)
    · exact Or.inl h
  have hpot : ([rc] : List Coord).length + (R * C - (seen ++ [rc]).length) ≤ R * C + 8 := by
    simp only [List.length_singleton, List.length_append]
    omega
  have hchar := fun x => bfsAux_mem_iff R C (fun nb => decide (alookup sol nb = some v))
    (R * C + 8) [rc] (seen ++ [rc]) hsn0 hsg0 (List.nodup_singleton rc) hq0 hcl0 hpot x
  obtain ⟨Rn, Rg, ⟨tl, Rt⟩, Rf, Rc2⟩ := bfsAux_spec R C
    (fun nb => decide (alookup sol nb = some v)) (R * C + 8) [rc] (seen ++ [rc])
    hsn0 hsg0 (List.nodup_singleton rc) hq0 hcl0 hpot
  have hchar2 : ∀ x, x ∈ bfsAux R C (fun nb => decide (alookup sol nb = some v)) (R * C + 8)
      [rc] (seen ++ [rc]) ↔ x ∈ seen ∨ Relation.ReflTransGen (adjSame R C sol) rc x := by
    intro x
    rw [hchar x]
    constructor
    · intro h
      rcases h with h | ⟨a, ha, hrtg⟩
      · rcases List.mem_append.1 h with h2 | h2
        · exact Or.inl h2
        · rw [List.mem_singleton] at h2
          subst h2
          exact Or.inr Relation.ReflTransGen.refl
      · rw [List.mem_singleton] at ha
        subst ha
        exact Or.inr ((okRtg_iff_adjRtg R C sol v a hrc x).1 hrtg)
    · intro h
      rcases h with h | h
      · exact Or.inl (List.mem_append_left _ h)
      · exact Or.inr ⟨rc, List.mem_singleton.2 rfl, (okRtg_iff_adjRtg R C sol v rc hrc x).2 h⟩
  refine ⟨Rn, Rg, hchar2, ?_⟩
  have hdisj : ∀ x, Relation.ReflTransGen (adjSame R C sol) rc x → x ∉ seen := by
    intro x hx hxs
    exact hrcs (seen_absorbs R C sol seen hcl x hxs rc (adjRtg_symm R C sol hkeys rc x hx))
  have hKfin : {x | Relation.ReflTransGen (adjSame R C sol) rc x} =
      ↑((bfsAux R C (fun nb => decide (alookup sol nb = some v)) (R * C + 8) [rc]
        (seen ++ [rc])).toFinset \ seen.toFinset) := by
    ext x
    simp only [Finset.coe_sdiff, Set.mem_diff, Finset.mem_coe, List.mem_toFinset,
      Set.mem_setOf_eq]
    constructor
    · intro h
      exact ⟨(hchar2 x).2 (Or.inr h), hdisj x h⟩
    · intro ⟨h1, h2⟩
      rcases (hchar2 x).1 h1 with h | h
      · exact absurd h h2
      · exact h
  rw [hKfin, Set.ncard_coe_Finset]
  have hsub : seen.toFinset ⊆ (bfsAux R C (fun nb => decide (alookup sol nb = some v))
      (R * C + 8) [rc] (seen ++ [rc])).toFinset := by
    intro x hx
    rw [List.mem_toFinset] at hx ⊢
    exact (hchar2 x).2 (Or.inl hx)
  rw [Finset.card_sdiff hsub, List.toFinset_card_of_nodup Rn,
    List.toFinset_card_of_nodup hsn]

/-- `complete_blocks_ok`'s scan: if it returns `true`, every scanned cell
is assigned and its connected same-value component has exactly its
number's size. -/
theorem completeBlocksGo_spec (R C : Nat) (sol : List (Coord × Val))
    (hkeys : ∀ k : Coord, (alookup sol k).isSome = true → k.1 < R ∧ k.2 < C) :
    ∀ (l : List Coord) (seen : List Coord),
      seen.Nodup → (∀ b ∈ seen, b.1 < R ∧ b.2 < C) →
      (∀ b ∈ seen, ∀ c, adjSame R C sol b c → c ∈ seen) →
      (∀ b ∈ seen, ∃ w, alookup sol b = some w ∧
        {x | Relation.ReflTransGen (adjSame R C sol) b x}.ncard = w.1) →
      completeBlocksGo R C sol l seen = true →
      ∀ rc ∈ l, ∃ w, alookup sol rc = some w ∧
        {x | Relation.ReflTransGen (adjSame R C sol) rc x}.ncard = w.1 := by
  intro l
  induction l with
  | nil =>
    intro seen _ _ _ _ _ rc hrc
    exact absurd hrc (List.not_mem_nil rc)
  | cons rc0 rest ih =>
    intro seen hsn hsg hclosed hP hrun rc hrcmem
    rw [completeBlocksGo] at hrun
    by_cases hseen0 : rc0 ∈ seen
    · rw [if_pos hseen0] at hrun
      rcases List.mem_cons.1 hrcmem with h | h
      · subst h
        exact hP rc hseen0
      · exact ih seen hsn hsg hclosed hP hrun rc h
    · rw [if_neg hseen0] at hrun
      cases halk : alookup sol rc0 with
      | none =>
        rw [halk] at hrun
        simp at hrun
      | some v =>
        rw [halk] at hrun
        dsimp only at hrun
        obtain ⟨Bn, Bg, Bchar, Bcount⟩ :=
          bfs_component R C sol v rc0 hkeys seen hsn hsg hclosed halk hseen0
        by_cases hcount : (bfsAux R C (fun nb => decide (alookup sol nb = some v))
            (R * C + 8) [rc0] (seen ++ [rc0])).length - seen.length = v.1
        · rw [if_pos hcount] at hrun
          have hP0 : ∃ w, alookup sol rc0 = some w ∧
              {x | Relation.ReflTransGen (adjSame R C sol) rc0 x}.ncard = w.1 :=
            ⟨v, halk, by rw [← Bcount, hcount]⟩
          rcases List.mem_cons.1 hrcmem with h | h
          · subst h
            exact hP0
          · -- recurse with the grown seen list
            apply ih (bfsAux R C (fun nb => decide (alookup sol nb = some v))
              (R * C + 8) [rc0] (seen ++ [rc0])) Bn Bg ?_ ?_ hrun rc h
            · intro b hb c hadj
              rcases (Bchar b).1 hb with h2 | h2
              · exact (Bchar c).2 (Or.inl (hclosed b h2 c hadj))
              · exact (Bchar c).2 (Or.inr (Relation.ReflTransGen.tail h2 hadj))
            · intro b hb
              rcases (Bchar b).1 hb with h2 | h2
              · exact hP b h2
              · refine ⟨v, adjRtg_value R C sol v rc0 halk b h2, ?_⟩
                rw [comp_eq_of_mem R C sol hkeys rc0 b h2, ← Bcount, hcount]
        · rw [if_neg hcount] at hrun
          simp at hrun

/-- If the final block check passes on a well-formed solution, every grid
cell's same-value component has exactly its number's size. -/
theorem completeBlocksOkA_spec (p : Puzzle) (sol : List (Coord × Val))
    (hgood : GoodSol p sol) (hok : completeBlocksOkA p sol = true) :
    ∀ rc : Coord, rc.1 < p.rows → rc.2 < p.cols →
      ∃ w, alookup sol rc = some w ∧
        {x | Relation.ReflTransGen (adjSame p.rows p.cols sol) rc x}.ncard = w.1 := by
  have hkeys : ∀ k : Coord, (alookup sol k).isSome = true → k.1 < p.rows ∧ k.2 < p.cols := by
    intro k hk
    obtain ⟨w, hw⟩ := Option.isSome_iff_exists.1 hk
    have hmem := alookup_mem sol k w hw
    have hkm : k ∈ sol.map Prod.fst := List.mem_map.2 ⟨(k, w), hmem, rfl⟩
    exact (cellsList_mem p k).1 (hgood.2.2.1 k hkm)
  intro rc h1 h2
  exact completeBlocksGo_spec p.rows p.cols sol hkeys (cellsList p) []
    List.nodup_nil (fun b hb => absurd hb (List.not_mem_nil b))
    (fun b hb => absurd hb (List.not_mem_nil b))
    (fun b hb => absurd hb (List.not_mem_nil b))
    hok rc ((cellsList_mem p rc).2 ⟨h1, h2⟩)

/-- The value loop only records block-checked solutions. -/
theorem loopVals_sols {σ : Type _} (ctx : SolverCtx σ) (next : SState σ → Bool × SState σ)
    (hnext : ∀ st, SolsOK ctx.p st → SolsOK ctx.p (next st).2) (rc : Coord) :
    ∀ (vs : List Val) (st : SState σ), SolsOK ctx.p st →
      SolsOK ctx.p (loopVals ctx next rc vs st).2 := by
  intro vs
  induction vs with
  | nil =>
    intro st hs
    exact hs
  | cons v vs ih =>
    intro st hs
    rw [loopVals]
    split
    · have hstep : SolsOK ctx.p (loopStep ctx next rc v st).2 :=
        hnext ({ assign_val st rc v with
          dom := (forward_check_prune ctx (assign_val st rc v) rc v).2 }) hs
      dsimp only
      split
      · exact hstep
      · split
        · exact hstep
        · exact ih _ hstep
    · exact ih st hs

/-- One `dfs` level only records block-checked solutions. -/
theorem dfsBody_sols {σ : Type _} (ctx : SolverCtx σ) (next : SState σ → Bool × SState σ)
    (hnext : ∀ st, SolsOK ctx.p st → SolsOK ctx.p (next st).2)
    (st : SState σ) (hs : SolsOK ctx.p st) : SolsOK ctx.p (dfsBody ctx next st).2 := by
  rw [dfsBody]
  split
  · exact hs
  · split
    · split
      · rename_i hguard
        rw [Bool.and_eq_true] at hguard
        intro sol hsol
        rcases List.mem_append.1 hsol with h | h
        · exact hs sol h
        · rw [List.mem_singleton] at h
          subst h
          exact hguard.2
      · exact hs
    · dsimp only
      exact loopVals_sols ctx next hnext (select_mrv ctx st)
        (order_values ctx st (select_mrv ctx st)).1
        (order_values ctx st (select_mrv ctx st)).2 hs

theorem dfsGo_sols {σ : Type _} (ctx : SolverCtx σ) :
    ∀ (fuel : Nat) (st : SState σ), SolsOK ctx.p st → SolsOK ctx.p (dfsGo ctx fuel st).2 := by
  intro fuel
  induction fuel with
  | zero =>
    intro st hs
    exact hs
  | succ n ih =>
    intro st hs
    rw [dfsGo]
    exact dfsBody_sols ctx (dfsGo ctx n) ih st hs

/-- Every recorded solution passed the block-size check. -/
theorem solveAll_blocksOk {σ : Type _} (p : Puzzle) (rb : Nat → σ → Nat × σ) (rng : σ)
    (findTwo : Bool) (maxSolutions : Nat) :
    ∀ sol ∈ (solveAll p rb rng findTwo maxSolutions).1, completeBlocksOkA p sol = true :=
  dfsGo_sols { p := p, rb := rb, findTwo := findTwo, maxSolutions := maxSolutions }
    (p.rows * p.cols + 1) (initState p rng) (fun sol h => absurd h (List.not_mem_nil sol))

/-- C2: every solution the solver records (module `solve` returns the
head of this list, `count_solutions` its length) is a total assignment in
which the maximal orthogonally connected same-value component of each
cell has exactly the cell's number as its size.  (`hcard` is
`select_mrv`'s `10^18` sentinel bound.) -/
theorem C2_blocks_correctly_sized {σ : Type _} (p : Puzzle) (rb : Nat → σ → Nat × σ)
    (rng : σ) (findTwo : Bool) (maxSolutions : Nat)
    (hcard : (baseDomVals p).card < 10 ^ 18)
    (sol : List (Coord × Val)) (hsol : sol ∈ (solveAll p rb rng findTwo maxSolutions).1)
    (rc : Coord) (h1 : rc.1 < p.rows) (h2 : rc.2 < p.cols) :
    ∃ w, alookup sol rc = some w ∧
      {x | Relation.ReflTransGen (adjSame p.rows p.cols sol) rc x}.ncard = w.1 :=
  completeBlocksOkA_spec p sol
    (solveAll_goodSol p rb rng findTwo maxSolutions hcard sol hsol)
    (solveAll_blocksOk p rb rng findTwo maxSolutions sol hsol) rc h1 h2

/-- Witness for C2 at the 1×1 fixture. -/
theorem C2_blocks_correctly_sized_witness :
    ((baseDomVals puzzle11).card < 10 ^ 18 ∧
      [((((0 : Nat), (0 : Nat)) : Coord), (((1 : Nat), (0 : Nat)) : Val))] ∈
        (solveAll puzzle11 rbZero () false 2).1 ∧
      (((0 : Nat), (0 : Nat)) : Coord).1 < puzzle11.rows ∧
      (((0 : Nat), (0 : Nat)) : Coord).2 < puzzle11.cols) ∧
    ∃ w, alookup [((((0 : Nat), (0 : Nat)) : Coord), (((1 : Nat), (0 : Nat)) : Val))]
        (((0 : Nat), (0 : Nat)) : Coord) = some w ∧
      {x | Relation.ReflTransGen (adjSame puzzle11.rows puzzle11.cols
        [((((0 : Nat), (0 : Nat)) : Coord), (((1 : Nat), (0 : Nat)) : Val))])
        (((0 : Nat), (0 : Nat)) : Coord) x}.ncard = w.1 :=
  ⟨⟨by decide, by decide, by decide, by decide⟩,
    C2_blocks_correctly_sized puzzle11 rbZero () false 2 (by decide) _ (by decide) _
      (by decide) (by decide)⟩

/-- `count_solutions(current_puzzle, ...)` depends only on the mask. -/
theorem countCurrent_mask {σ σs : Type _} (ctx : DCtx σ σs) (a b : DState σ)
    (h : a.mask = b.mask) : countCurrent ctx a = countCurrent ctx b := by
  have hp : current_puzzle ctx a = current_puzzle ctx b := by
    rw [current_puzzle, current_puzzle, build_givens_from_mask, build_givens_from_mask, h]
  rw [countCurrent, countCurrent, hp]

/-- The `_try_remove_from_block` candidate loop keeps uniqueness: it only
commits a hide that rechecked as unique, otherwise it reverts. -/
theorem tryRemoveGo_count {σ σs : Type _} (ctx : DCtx σ σs) :
    ∀ (cands : List (Nat × Nat × String)) (st : DState σ),
      countCurrent ctx st = 1 → countCurrent ctx (tryRemoveGo ctx cands st).2 = 1 := by
  intro cands
  induction cands with
  | nil =>
    intro st h
    exact h
  | cons cand rest ih =>
    intro st h
    rw [tryRemoveGo]
    dsimp only
    split
    · exact ih st h
    · split
      · exact ih st h
      · split
        · rename_i hcnt
          exact hcnt
        · exact ih st h

theorem try_remove_count {σ σs : Type _} (ctx : DCtx σ σs) (block : List Coord)
    (st : DState σ) (h : countCurrent ctx st = 1) :
    countCurrent ctx (try_remove_from_block ctx block st).2 = 1 := by
  rw [try_remove_from_block]
  exact tryRemoveGo_count ctx _ _ h

theorem ensure_fold_count {σ σs : Type _} (ctx : DCtx σ σs) :
    ∀ (blocks : List (List Coord)) (st : DState σ), countCurrent ctx st = 1 →
      countCurrent ctx (blocks.foldl (fun st block =>
        if block_fully_revealed st block then (try_remove_from_block ctx block st).2 else st)
        st) = 1 := by
  intro blocks
  induction blocks with
  | nil =>
    intro st h
    exact h
  | cons b rest ih =>
    intro st h
    rw [List.foldl_cons]
    by_cases hb : block_fully_revealed st b = true
    · rw [if_pos hb]
      exact ih _ (try_remove_count ctx b st h)
    · rw [if_neg hb]
      exact ih st h

/-- The post-step cleanup keeps uniqueness. -/
theorem ensure_count {σ σs : Type _} (ctx : DCtx σ σs) (st : DState σ)
    (h : countCurrent ctx st = 1) :
    countCurrent ctx (ensure_no_fully_revealed_blocks ctx st) = 1 := by
  rw [ensure_no_fully_revealed_blocks]
  exact ensure_fold_count ctx (blocks_from_solution ctx) st h

/-- Picking a candidate does not touch the mask. -/
theorem pick_mask {σ σs : Type _} (ctx : DCtx σ σs) (st : DState σ)
    (cand : Nat × Nat × String) (st1 : DState σ)
    (h : pick_next_candidate ctx st = some (cand, st1)) : st1.mask = st.mask := by
  rw [pick_next_candidate] at h
  split at h
  · exact absurd h (by simp)
  · split at h
    · rw [Option.some.injEq, Prod.mk.injEq] at h
      rw [← h.2]
    · split at h
      · rw [Option.some.injEq, Prod.mk.injEq] at h
        rw [← h.2]
      · exact absurd h (by simp)

/-- The `step` retry loop keeps uniqueness: it commits only rechecked
hides and otherwise retries from the reverted state. -/
theorem stepLoop_count {σ σs : Type _} (ctx : DCtx σ σs) :
    ∀ (fuel : Nat) (st : DState σ), countCurrent ctx st = 1 →
      countCurrent ctx (stepLoop ctx fuel st).2 = 1 := by
  intro fuel
  induction fuel with
  | zero =>
    intro st h
    exact h
  | succ n ih =>
    intro st h
    rw [stepLoop]
    split
    · exact h
    · split
      · exact h
      · rename_i cand st1 heq
        dsimp only
        split
        · rename_i hcnt
          exact hcnt
        · apply ih
          rw [countCurrent_mask ctx st1 st (pick_mask ctx st cand st1 heq)]
          exact h

/-- C1: every accepted removal of `DeconstructorStepper.step` — including
the removals of the fully-revealed-block cleanup — preserves
`count_solutions(current_puzzle, 2) == 1`: from any state whose current
puzzle has exactly one solution, the state after `step` again has exactly
one.  (Applied inductively from the fully-revealed initial state, whose
uniqueness is the claim's validity hypothesis.) -/
theorem C1_step_preserves_uniqueness {σ σs : Type _} (ctx : DCtx σ σs) (st : DState σ)
    (h : countCurrent ctx st = 1) : countCurrent ctx (dstep ctx st).2 = 1 := by
  rw [dstep]
  split
  · exact ensure_count ctx st h
  · split
    · exact ensure_count ctx st h
    · dsimp only
      split
      · exact ensure_count ctx _ (stepLoop_count ctx (triesLimit ctx)
          { st with stepsDone := st.stepsDone + 1 } h)
      · exact ensure_count ctx _ (stepLoop_count ctx (triesLimit ctx)
          { st with stepsDone := st.stepsDone + 1 } h)

/-- Witness for C1 at the 1×1 fixture stepper. -/
theorem C1_step_preserves_uniqueness_witness :
    countCurrent dctx11 (dInit dctx11 ()) = 1 ∧
    countCurrent dctx11 (dstep dctx11 (dInit dctx11 ())).2 = 1 :=
  ⟨by decide, C1_step_preserves_uniqueness dctx11 (dInit dctx11 ()) (by decide)⟩

theorem sum_map_add {α : Type _} (l : List α) (g1 g2 : α → Int) :
    (l.map (fun x => g1 x + g2 x)).sum = (l.map g1).sum + (l.map g2).sum := by
  induction l with
  | nil => simp
  | cons x xs ih =>
    simp only [List.map_cons, List.sum_cons, ih]
    ring

theorem sum_map_range_ite (C j : Nat) (a : Int) :
    ((List.range C).map (fun c => if c = j then a else 0)).sum = if j < C then a else 0 := by
  induction C with
  | zero => simp
  | succ n ih =>
    rw [List.range_succ, List.map_append, List.sum_append, ih]
    by_cases h : j < n
    · rw [if_pos h, if_pos (Nat.lt_succ_of_lt h)]
      have : ¬ n = j := by omega
      simp [this]
    · by_cases h2 : j = n
      · subst h2
        rw [if_neg h, if_pos (Nat.lt_succ_self j)]
        simp
      · rw [if_neg h, if_neg (by omega)]
        have : ¬ n = j := fun hh => h2 hh.symm
        simp [this]

theorem length_listSetAdd (l : List Int) (i : Nat) (d : Int) :
    (listSetAdd l i d).length = l.length := by
  rw [listSetAdd, List.length_set]

theorem listGetI_setAdd : ∀ (l : List Int) (i j : Nat) (d : Int), i < l.length →
    listGetI (listSetAdd l i d) j = if j = i then listGetI l j + d else listGetI l j := by
  intro l
  induction l with
  | nil =>
    intro i j d hi
    exact absurd hi (by simp)
  | cons x xs ih =>
    intro i j d hi
    cases i with
    | zero =>
      rw [listSetAdd_cons_zero]
      cases j with
      | zero => simp [listGetI, List.getD]
      | succ m => simp [listGetI, List.getD]
    | succ n =>
      rw [listSetAdd_cons_succ]
      cases j with
      | zero => simp [listGetI, List.getD]
      | succ m =>
        have hn : n < xs.length := by
          rw [List.length_cons] at hi
          omega
        have := ih n m d hn
        simp only [listGetI, List.getD_cons_succ] at this ⊢
        rw [this]
        by_cases h : m = n
        · rw [if_pos h, if_pos (by omega : m + 1 = n + 1)]
        · rw [if_neg h, if_neg (by omega : ¬ m + 1 = n + 1)]

/-- The per-row slice of an association list sums like the lookups over
the row's columns (keys distinct and in-grid; totality not required). -/
theorem filter_line_row (R C : Nat) :
    ∀ (l : List (Coord × Val)), (l.map Prod.fst).Nodup →
      (∀ k ∈ l.map Prod.fst, k.1 < R ∧ k.2 < C) → ∀ r : Nat,
      ((l.filter (fun rcv => rcv.1.1 = r)).map (fun rcv => (rcv.2.1 : Int))).sum =
        ((List.range C).map (fun c => numAt (alookup l) (r, c))).sum := by
  intro l
  induction l with
  | nil =>
    intro _ _ r
    simp [numAt, alookup]
  | cons kv rest ih =>
    intro hn hg r
    rw [List.map_cons, List.nodup_cons] at hn
    have hkv := hg kv.1 (by rw [List.map_cons]; exact List.mem_cons_self _ _)
    have hgrest : ∀ k ∈ rest.map Prod.fst, k.1 < R ∧ k.2 < C := by
      intro k hk
      exact hg k (by rw [List.map_cons]; exact List.mem_cons_of_mem _ hk)
    have hpoint : ∀ c, numAt (alookup (kv :: rest)) (r, c)
        = numAt (alookup rest) (r, c) + (if kv.1 = (r, c) then (kv.2.1 : Int) else 0) := by
      intro c
      by_cases h : kv.1 = (r, c)
      · have hrestnone : alookup rest (r, c) = none := by
          rw [alookup_eq_none, ← h]
          exact hn.1
        rw [numAt, alookup, if_pos h, numAt, hrestnone, if_pos h]
        simp
      · rw [numAt, alookup, if_neg h, numAt, if_neg h, add_zero]
    have hsum : ((List.range C).map (fun c => numAt (alookup (kv :: rest)) (r, c))).sum
        = ((List.range C).map (fun c => numAt (alookup rest) (r, c))).sum
          + ((List.range C).map (fun c => if kv.1 = (r, c) then (kv.2.1 : Int) else 0)).sum := by
      rw [← sum_map_add]
      exact congrArg List.sum (List.map_congr_left (fun c _ => hpoint c))
    have hite : ((List.range C).map (fun c => if kv.1 = (r, c) then (kv.2.1 : Int) else 0)).sum
        = if kv.1.1 = r then (kv.2.1 : Int) else 0 := by
      by_cases hr : kv.1.1 = r
      · have : ∀ c, (if kv.1 = (r, c) then (kv.2.1 : Int) else 0)
            = (if c = kv.1.2 then (kv.2.1 : Int) else 0) := by
          intro c
          by_cases hc : c = kv.1.2
          · rw [if_pos hc, if_pos (by rw [Prod.ext_iff]; exact ⟨hr, hc.symm⟩)]
          · rw [if_neg hc, if_neg (by intro hh; rw [Prod.ext_iff] at hh; exact hc hh.2.symm)]
        rw [List.map_congr_left (fun c _ => this c), sum_map_range_ite,
          if_pos hkv.2, if_pos hr]
      · have : ∀ c, (if kv.1 = (r, c) then (kv.2.1 : Int) else 0) = (0 : Int) := by
          intro c
          rw [if_neg (by intro hh; rw [Prod.ext_iff] at hh; exact hr hh.1)]
        rw [List.map_congr_left (fun c _ => this c), if_neg hr]
        simp
    rw [hsum, hite, ← ih hn.2 hgrest r, List.filter_cons]
    by_cases hr : kv.1.1 = r
    · rw [if_pos (by simpa using hr), List.map_cons, List.sum_cons, if_pos hr]
      ring
    · rw [if_neg (by simpa using hr), if_neg hr, add_zero]

/-- The per-column analogue. -/
theorem filter_line_col (R C : Nat) :
    ∀ (l : List (Coord × Val)), (l.map Prod.fst).Nodup →
      (∀ k ∈ l.map Prod.fst, k.1 < R ∧ k.2 < C) → ∀ c : Nat,
      ((l.filter (fun rcv => rcv.1.2 = c)).map (fun rcv => (rcv.2.1 : Int))).sum =
        ((List.range R).map (fun r => numAt (alookup l) (r, c))).sum := by
  intro l
  induction l with
  | nil =>
    intro _ _ c
    simp [numAt, alookup]
  | cons kv rest ih =>
    intro hn hg c
    rw [List.map_cons, List.nodup_cons] at hn
    have hkv := hg kv.1 (by rw [List.map_cons]; exact List.mem_cons_self _ _)
    have hgrest : ∀ k ∈ rest.map Prod.fst, k.1 < R ∧ k.2 < C := by
      intro k hk
      exact hg k (by rw [List.map_cons]; exact List.mem_cons_of_mem _ hk)
    have hpoint : ∀ r, numAt (alookup (kv :: rest)) (r, c)
        = numAt (alookup rest) (r, c) + (if kv.1 = (r, c) then (kv.2.1 : Int) else 0) := by
      intro r
      by_cases h : kv.1 = (r, c)
      · have hrestnone : alookup rest (r, c) = none := by
          rw [alookup_eq_none, ← h]
          exact hn.1
        rw [numAt, alookup, if_pos h, numAt, hrestnone, if_pos h]
        simp
      · rw [numAt, alookup, if_neg h, numAt, if_neg h, add_zero]
    have hsum : ((List.range R).map (fun r => numAt (alookup (kv :: rest)) (r, c))).sum
        = ((List.range R).map (fun r => numAt (alookup rest) (r, c))).sum
          + ((List.range R).map (fun r => if kv.1 = (r, c) then (kv.2.1 : Int) else 0)).sum := by
      rw [← sum_map_add]
      exact congrArg List.sum (List.map_congr_left (fun r _ => hpoint r))
    have hite : ((List.range R).map (fun r => if kv.1 = (r, c) then (kv.2.1 : Int) else 0)).sum
        = if kv.1.2 = c then (kv.2.1 : Int) else 0 := by
      by_cases hc : kv.1.2 = c
      · have : ∀ r, (if kv.1 = (r, c) then (kv.2.1 : Int) else 0)
            = (if r = kv.1.1 then (kv.2.1 : Int) else 0) := by
          intro r
          by_cases hr : r = kv.1.1
          · rw [if_pos hr, if_pos (by rw [Prod.ext_iff]; exact ⟨hr.symm, hc⟩)]
          · rw [if_neg hr, if_neg (by intro hh; rw [Prod.ext_iff] at hh; exact hr hh.1.symm)]
        rw [List.map_congr_left (fun r _ => this r), sum_map_range_ite,
          if_pos hkv.1, if_pos hc]
      · have : ∀ r, (if kv.1 = (r, c) then (kv.2.1 : Int) else 0) = (0 : Int) := by
          intro r
          rw [if_neg (by intro hh; rw [Prod.ext_iff] at hh; exact hc hh.2)]
        rw [List.map_congr_left (fun r _ => this r), if_neg hc]
        simp
    rw [hsum, hite, ← ih hn.2 hgrest c, List.filter_cons]
    by_cases hc : kv.1.2 = c
    · rw [if_pos (by simpa using hc), List.map_cons, List.sum_cons, if_pos hc]
      ring
    · rw [if_neg (by simpa using hc), if_neg hc, add_zero]

theorem alookup_of_mem {κ β : Type _} [DecidableEq κ] :
    ∀ (l : List (κ × β)), (l.map Prod.fst).Nodup → ∀ k w, (k, w) ∈ l →
      alookup l k = some w := by
  intro l
  induction l with
  | nil =>
    intro _ k w h
    exact absurd h (List.not_mem_nil _)
  | cons kv rest ih =>
    intro hn k w h
    rw [List.map_cons, List.nodup_cons] at hn
    rw [alookup]
    rcases List.mem_cons.1 h with h2 | h2
    · rw [← h2]
      rw [if_pos rfl]
    · have hne : ¬ kv.1 = k := by
        intro he
        exact hn.1 (he ▸ List.mem_map.2 ⟨(k, w), h2, rfl⟩)
      rw [if_neg hne]
      exact ih hn.2 k w h2

theorem sumsInv_congr {σ : Type _} (p : Puzzle) (a b : SState σ)
    (h1 : a.assign = b.assign) (h2 : a.rowSumNow = b.rowSumNow)
    (h3 : a.colSumNow = b.colSumNow) (hb : SumsInv p b) : SumsInv p a := by
  unfold SumsInv at hb ⊢
  rw [h1, h2, h3]
  exact hb

/-- Appending an assignment updates the bookkeeping coherently. -/
theorem sumsInv_assign {σ : Type _} (p : Puzzle) (st : SState σ) (rc : Coord) (v : Val)
    (hS : SumsInv p st) (hr : rc.1 < p.rows) (hc : rc.2 < p.cols) :
    SumsInv p (assign_val st rc v) := by
  obtain ⟨hl1, hl2, hrow, hcol⟩ := hS
  refine ⟨?_, ?_, ?_, ?_⟩
  · show (listSetAdd st.rowSumNow rc.1 (v.1 : Int)).length = p.rows
    rw [length_listSetAdd, hl1]
  · show (listSetAdd st.colSumNow rc.2 (v.1 : Int)).length = p.cols
    rw [length_listSetAdd, hl2]
  · intro r
    show listGetI (listSetAdd st.rowSumNow rc.1 (v.1 : Int)) r =
      (((st.assign ++ [(rc, v)]).filter (fun rcv => rcv.1.1 = r)).map
        (fun rcv => (rcv.2.1 : Int))).sum
    rw [listGetI_setAdd st.rowSumNow rc.1 r (v.1 : Int) (by rw [hl1]; exact hr),
      List.filter_append, List.map_append, List.sum_append, ← hrow r]
    by_cases h : r = rc.1
    · rw [if_pos h]
      have hf : List.filter (fun rcv => decide (rcv.1.1 = r)) [(rc, v)] = [(rc, v)] := by
        simp [h]
      rw [hf]
      simp
    · rw [if_neg h]
      have hf : List.filter (fun rcv => decide (rcv.1.1 = r)) [(rc, v)] = [] := by
        simp
        omega
      rw [hf]
      simp
  · intro c
    show listGetI (listSetAdd st.colSumNow rc.2 (v.1 : Int)) c =
      (((st.assign ++ [(rc, v)]).filter (fun rcv => rcv.1.2 = c)).map
        (fun rcv => (rcv.2.1 : Int))).sum
    rw [listGetI_setAdd st.colSumNow rc.2 c (v.1 : Int) (by rw [hl2]; exact hc),
      List.filter_append, List.map_append, List.sum_append, ← hcol c]
    by_cases h : c = rc.2
    · rw [if_pos h]
      have hf : List.filter (fun rcv => decide (rcv.1.2 = c)) [(rc, v)] = [(rc, v)] := by
        simp [h]
      rw [hf]
      simp
    · rw [if_neg h]
      have hf : List.filter (fun rcv => decide (rcv.1.2 = c)) [(rc, v)] = [] := by
        simp
        omega
      rw [hf]
      simp

/-- A passed color guard extends the pairwise color invariant. -/
theorem colorAdjA_assign {σ : Type _} (ctx : SolverCtx σ) (st : SState σ) (rc : Coord)
    (v : Val) (hA : ColorAdjA ctx.p.rows ctx.p.cols st.assign)
    (hnod : (st.assign.map Prod.fst).Nodup)
    (hkeys : ∀ k ∈ st.assign.map Prod.fst, k ∈ cellsList ctx.p)
    (hrcg : rc.1 < ctx.p.rows ∧ rc.2 < ctx.p.cols)
    (hguard : color_adjacency_ok ctx st rc v = true) :
    ColorAdjA ctx.p.rows ctx.p.cols (st.assign ++ [(rc, v)]) := by
  have hg : ∀ nb ∈ neighbors4 ctx.p.rows ctx.p.cols rc, ∀ w,
      alookup st.assign nb = some w → ¬(w.1 ≠ v.1 ∧ w.2 = v.2) := by
    intro nb hnb w hw
    rw [color_adjacency_ok, List.all_eq_true] at hguard
    have hx := hguard nb hnb
    rw [hw] at hx
    exact of_decide_eq_true hx
  intro a ha b hb hnb hnum
  rcases List.mem_append.1 ha with ha | ha <;> rcases List.mem_append.1 hb with hb | hb
  · exact hA a ha b hb hnb hnum
  · rw [List.mem_singleton] at hb
    subst hb
    have hag := (cellsList_mem ctx.p a.1).1 (hkeys a.1 (List.mem_map.2 ⟨a, ha, rfl⟩))
    have hmem : a.1 ∈ neighbors4 ctx.p.rows ctx.p.cols rc :=
      neighbors4_symm ctx.p.rows ctx.p.cols a.1 rc hag.1 hag.2 hnb
    have hlook : alookup st.assign a.1 = some a.2 := alookup_of_mem st.assign hnod a.1 a.2 ha
    have := hg a.1 hmem a.2 hlook
    intro hcc
    exact this ⟨hnum, hcc⟩
  · rw [List.mem_singleton] at ha
    subst ha
    have hlook : alookup st.assign b.1 = some b.2 := alookup_of_mem st.assign hnod b.1 b.2 hb
    have := hg b.1 hnb b.2 hlook
    intro hcc
    exact this ⟨fun hh => hnum hh.symm, hcc.symm⟩
  · rw [List.mem_singleton] at ha hb
    subst ha
    subst hb
    exact absurd rfl hnum

theorem colorAdjA_congr (R C : Nat) (l1 l2 : List (Coord × Val)) (h : l1 = l2)
    (h2 : ColorAdjA R C l2) : ColorAdjA R C l1 := by
  rw [h]
  exact h2

/-- One accepted value iteration preserves the counting invariant and the
recorded facts, and restores the tracked components. -/
theorem loopStep_inv4 {σ : Type _} (ctx : SolverCtx σ) (next : SState σ → Bool × SState σ)
    (hnext : ∀ st, Inv4 ctx.p st → (∀ sol ∈ st.solutions, RecordedGood ctx.p sol) →
      (Inv4 ctx.p (next st).2 ∧ (∀ sol ∈ (next st).2.solutions, RecordedGood ctx.p sol)) ∧
        SameCore (next st).2 st)
    (rc : Coord) (v : Val) (st : SState σ)
    (hI : Inv4 ctx.p st) (hrec : ∀ sol ∈ st.solutions, RecordedGood ctx.p sol)
    (hrcC : rc ∈ cellsList ctx.p) (hrc : alookup st.assign rc = none)
    (hv : v ∈ st.dom rc)
    (hguard : color_adjacency_ok ctx st rc v = true) :
    (Inv4 ctx.p (loopStep ctx next rc v st).2 ∧
      (∀ sol ∈ (loopStep ctx next rc v st).2.solutions, RecordedGood ctx.p sol)) ∧
      SameCore (loopStep ctx next rc v st).2 st := by
  have hrckeys : rc ∉ st.assign.map Prod.fst := (alookup_eq_none st.assign rc).1 hrc
  have hrcg := (cellsList_mem ctx.p rc).1 hrcC
  have hKD := keysOK_append ctx.p st rc v hI.1 hrcC hrckeys
  have hI2 : Inv4 ctx.p ({ assign_val st rc v with
      dom := (forward_check_prune ctx (assign_val st rc v) rc v).2 }) := by
    refine ⟨⟨hKD.1, hKD.2⟩, ?_, ?_, ?_, ?_⟩
    · intro x
      exact Finset.Subset.trans
        (forward_check_prune_dom_subset ctx (assign_val st rc v) rc v x) (hI.2.1 x)
    · intro rcv hmem
      rcases List.mem_append.1 hmem with h | h
      · exact hI.2.2.1 rcv h
      · rw [List.mem_singleton] at h
        subst h
        exact hI.2.1 rc hv
    · exact sumsInv_assign ctx.p st rc v hI.2.2.2.1 hrcg.1 hrcg.2
    · exact colorAdjA_assign ctx st rc v hI.2.2.2.2 hI.1.1 hI.1.2 hrcg hguard
  have hrec2 : ∀ sol ∈ ({ assign_val st rc v with
      dom := (forward_check_prune ctx (assign_val st rc v) rc v).2 } : SState σ).solutions,
      RecordedGood ctx.p sol := hrec
  have key : ∀ (r : Bool × SState σ) (pr : List (Coord × Val) × (Coord → Finset Val)),
      Inv4 ctx.p r.2 → (∀ sol ∈ r.2.solutions, RecordedGood ctx.p sol) →
      SameCore r.2 ({ assign_val st rc v with dom := pr.2 }) →
      (∀ x, undo_prune pr.1 pr.2 x = (assign_val st rc v).dom x) →
      (Inv4 ctx.p (unassign_val { r.2 with dom := undo_prune pr.1 r.2.dom } rc v) ∧
        (∀ sol ∈ (unassign_val { r.2 with dom := undo_prune pr.1 r.2.dom } rc v).solutions,
          RecordedGood ctx.p sol)) ∧
        SameCore (unassign_val { r.2 with dom := undo_prune pr.1 r.2.dom } rc v) st := by
    intro r pr hIr hrecr hr hundo
    obtain ⟨h1, h2, h3, h4⟩ := hr
    have hcore : SameCore (unassign_val { r.2 with dom := undo_prune pr.1 r.2.dom } rc v) st := by
      refine ⟨?_, ?_, ?_, ?_⟩
      · show undo_prune pr.1 r.2.dom = st.dom
        rw [h1]
        show undo_prune pr.1 pr.2 = st.dom
        funext x
        exact hundo x
      · show aerase r.2.assign rc = st.assign
        rw [h2]
        show aerase (st.assign ++ [(rc, v)]) rc = st.assign
        exact aerase_append_singleton st.assign rc v hrckeys
      · show listSetAdd r.2.rowSumNow rc.1 (-(v.1 : Int)) = st.rowSumNow
        rw [h3]
        show listSetAdd (listSetAdd st.rowSumNow rc.1 (v.1 : Int)) rc.1 (-(v.1 : Int)) =
          st.rowSumNow
        exact listSetAdd_cancel st.rowSumNow rc.1 (v.1 : Int)
      · show listSetAdd r.2.colSumNow rc.2 (-(v.1 : Int)) = st.colSumNow
        rw [h4]
        show listSetAdd (listSetAdd st.colSumNow rc.2 (v.1 : Int)) rc.2 (-(v.1 : Int)) =
          st.colSumNow
        exact listSetAdd_cancel st.colSumNow rc.2 (v.1 : Int)
    refine ⟨⟨⟨?_, ?_, ?_, ?_, ?_⟩, ?_⟩, hcore⟩
    · exact keysOK_congr ctx.p _ st hcore.2.1 hI.1
    · intro x
      rw [congrFun hcore.1 x]
      exact hI.2.1 x
    · intro rcv hmem
      rw [hcore.2.1] at hmem
      exact hI.2.2.1 rcv hmem
    · exact sumsInv_congr ctx.p _ st hcore.2.1 hcore.2.2.1 hcore.2.2.2 hI.2.2.2.1
    · exact colorAdjA_congr ctx.p.rows ctx.p.cols _ st.assign hcore.2.1 hI.2.2.2.2
    · exact hrecr
  exact key (next ({ assign_val st rc v with
      dom := (forward_check_prune ctx (assign_val st rc v) rc v).2 }))
    (forward_check_prune ctx (assign_val st rc v) rc v)
    (hnext _ hI2 hrec2).1.1 (hnext _ hI2 hrec2).1.2 (hnext _ hI2 hrec2).2
    (fun x => prune_undo_restores ctx (assign_val st rc v) rc v x)

/-- The value loop preserves the counting invariant and recorded facts. -/
theorem loopVals_inv4 {σ : Type _} (ctx : SolverCtx σ) (next : SState σ → Bool × SState σ)
    (hnext : ∀ st, Inv4 ctx.p st → (∀ sol ∈ st.solutions, RecordedGood ctx.p sol) →
      (Inv4 ctx.p (next st).2 ∧ (∀ sol ∈ (next st).2.solutions, RecordedGood ctx.p sol)) ∧
        SameCore (next st).2 st)
    (rc : Coord) (hrcC : rc ∈ cellsList ctx.p) :
    ∀ (vs : List Val) (st : SState σ), Inv4 ctx.p st →
      (∀ sol ∈ st.solutions, RecordedGood ctx.p sol) →
      alookup st.assign rc = none → (∀ v ∈ vs, v ∈ st.dom rc) →
      (Inv4 ctx.p (loopVals ctx next rc vs st).2 ∧
        (∀ sol ∈ (loopVals ctx next rc vs st).2.solutions, RecordedGood ctx.p sol)) ∧
        SameCore (loopVals ctx next rc vs st).2 st := by
  intro vs
  induction vs with
  | nil =>
    intro st hI hrec _ _
    exact ⟨⟨hI, hrec⟩, rfl, rfl, rfl, rfl⟩
  | cons v vs ih =>
    intro st hI hrec hrc hvs
    rw [loopVals]
    split
    · rename_i hguard
      rw [Bool.and_eq_true, Bool.and_eq_true] at hguard
      have hstep := loopStep_inv4 ctx next hnext rc v st hI hrec hrcC hrc
        (hvs v (List.mem_cons_self v vs)) hguard.1.2
      dsimp only
      split
      · exact hstep
      · split
        · exact hstep
        · have hrec2 := ih (loopStep ctx next rc v st).2 hstep.1.1 hstep.1.2
            (by rw [hstep.2.2.1]; exact hrc)
            (fun w hw => by
              rw [congrFun hstep.2.1 rc]
              exact hvs w (List.mem_cons_of_mem v hw))
          exact ⟨hrec2.1, sameCore_trans _ _ _ hrec2.2 hstep.2⟩
    · exact ih st hI hrec hrc (fun w hw => hvs w (List.mem_cons_of_mem v hw))

/-- One `dfs` level preserves the counting invariant and recorded facts. -/
theorem dfsBody_inv4 {σ : Type _} (ctx : SolverCtx σ)
    (hcard : (baseDomVals ctx.p).card < 10 ^ 18)
    (next : SState σ → Bool × SState σ)
    (hnext : ∀ st, Inv4 ctx.p st → (∀ sol ∈ st.solutions, RecordedGood ctx.p sol) →
      (Inv4 ctx.p (next st).2 ∧ (∀ sol ∈ (next st).2.solutions, RecordedGood ctx.p sol)) ∧
        SameCore (next st).2 st)
    (st : SState σ) (hI : Inv4 ctx.p st)
    (hrec : ∀ sol ∈ st.solutions, RecordedGood ctx.p sol) :
    (Inv4 ctx.p (dfsBody ctx next st).2 ∧
      (∀ sol ∈ (dfsBody ctx next st).2.solutions, RecordedGood ctx.p sol)) ∧
      SameCore (dfsBody ctx next st).2 st := by
  rw [dfsBody]
  split
  · exact ⟨⟨hI, hrec⟩, rfl, rfl, rfl, rfl⟩
  · split
    · rename_i hcomp
      split
      · rename_i hguard
        rw [Bool.and_eq_true] at hguard
        have hse := of_decide_eq_true hguard.1
        refine ⟨⟨⟨?_, ?_, ?_, ?_, ?_⟩, ?_⟩, rfl, rfl, rfl, rfl⟩
        · exact keysOK_congr ctx.p _ st rfl hI.1
        · exact hI.2.1
        · exact hI.2.2.1
        · exact hI.2.2.2.1
        · exact hI.2.2.2.2
        · intro sol hs
          rcases List.mem_append.1 hs with h | h
          · exact hrec sol h
          · rw [List.mem_singleton] at h
            subst h
            refine ⟨⟨hI.2.2.1, hI.1.1, hI.1.2, of_decide_eq_true hcomp⟩,
              hI.2.2.2.2, hguard.2, ?_, ?_, ?_, ?_⟩
            · intro r
              rw [← hI.2.2.2.1.2.2.1 r, hse.1]
            · intro c
              rw [← hI.2.2.2.1.2.2.2 c, hse.2]
            · rw [← hse.1]
              exact hI.2.2.2.1.1
            · rw [← hse.2]
              exact hI.2.2.2.1.2.1
      · exact ⟨⟨hI, hrec⟩, rfl, rfl, rfl, rfl⟩
    · rename_i hinc
      have hsel := select_mrv_spec ctx st hcard hI.1
        (fun x => Finset.Subset.trans (hI.2.1 x) (initDom_subset ctx.p x)) hinc
      dsimp only
      have hloop := loopVals_inv4 ctx next hnext (select_mrv ctx st) hsel.1
        (order_values ctx st (select_mrv ctx st)).1
        (order_values ctx st (select_mrv ctx st)).2
        hI hrec hsel.2
        (fun w hw => order_values_mem ctx st (select_mrv ctx st) w hw)
      exact ⟨hloop.1, sameCore_trans _ _ _ hloop.2 ⟨rfl, rfl, rfl, rfl⟩⟩

/-- `dfs` preserves the counting invariant and recorded facts. -/
theorem dfsGo_inv4 {σ : Type _} (ctx : SolverCtx σ)
    (hcard : (baseDomVals ctx.p).card < 10 ^ 18) :
    ∀ (fuel : Nat) (st : SState σ), Inv4 ctx.p st →
      (∀ sol ∈ st.solutions, RecordedGood ctx.p sol) →
      (Inv4 ctx.p (dfsGo ctx fuel st).2 ∧
        (∀ sol ∈ (dfsGo ctx fuel st).2.solutions, RecordedGood ctx.p sol)) ∧
        SameCore (dfsGo ctx fuel st).2 st := by
  intro fuel
  induction fuel with
  | zero =>
    intro st hI hrec
    exact ⟨⟨hI, hrec⟩, rfl, rfl, rfl, rfl⟩
  | succ n ih =>
    intro st hI hrec
    rw [dfsGo]
    exact dfsBody_inv4 ctx hcard (dfsGo ctx n) ih st hI hrec

/-- Every recorded solution carries the push-site facts. -/
theorem solveAll_recordedGood {σ : Type _} (p : Puzzle) (rb : Nat → σ → Nat × σ) (rng : σ)
    (findTwo : Bool) (maxSolutions : Nat) (hcard : (baseDomVals p).card < 10 ^ 18) :
    ∀ sol ∈ (solveAll p rb rng findTwo maxSolutions).1, RecordedGood p sol := by
  have h := (dfsGo_inv4
    { p := p, rb := rb, findTwo := findTwo, maxSolutions := maxSolutions } hcard
    (p.rows * p.cols + 1) (initState p rng)
    ⟨⟨List.nodup_nil, fun k hk => absurd hk (List.not_mem_nil k)⟩,
      fun x => Finset.Subset.refl _,
      fun rcv h => absurd h (List.not_mem_nil rcv),
      ⟨by simp [initState, listGetI], by simp [initState, listGetI], ?_, ?_⟩,
      fun a ha => absurd ha (List.not_mem_nil a)⟩
    (fun sol h => absurd h (List.not_mem_nil sol))).1.2
  · exact fun sol hs => h sol hs
  · intro r
    simp [initState, listGetI, alookup]
  · intro c
    simp [initState, listGetI, alookup]

theorem insertLe_perm {α : Type _} (le : α → α → Bool) (x : α) :
    ∀ l, List.Perm (insertLe le x l) (x :: l) := by
  intro l
  induction l with
  | nil => exact List.Perm.refl _
  | cons y ys ih =>
    rw [insertLe]
    by_cases h : le x y = true
    · rw [if_pos h]
    · rw [if_neg h]
      exact (ih.cons y).trans (List.Perm.swap x y ys)

theorem isortBy_perm {α : Type _} (le : α → α → Bool) :
    ∀ l, List.Perm (isortBy le l) l := by
  intro l
  induction l with
  | nil => exact List.Perm.refl _
  | cons x xs ih =>
    rw [isortBy]
    exact (insertLe_perm le x (isortBy le xs)).trans (ih.cons x)

theorem pySwap_perm {α : Type _} [DecidableEq α] (l : List α) (i j : Nat) :
    List.Perm (pySwap l i j) l := by
  rw [pySwap]
  cases hi : l.get? i with
  | none =>
    cases hj : l.get? j with
    | none => exact List.Perm.refl l
    | some b0 => exact List.Perm.refl l
  | some a0 =>
    cases hj : l.get? j with
    | none => exact List.Perm.refl l
    | some b0 =>
      have hil : i < l.length := by
        by_contra h
        rw [List.get?_eq_none.2 (le_of_not_lt h)] at hi
        cases hi
      have hjl : j < l.length := by
        by_contra h
        rw [List.get?_eq_none.2 (le_of_not_lt h)] at hj
        cases hj
      have hia : l[i] = a0 := by
        have := List.getElem?_eq_getElem hil
        rw [← List.get?_eq_getElem?, hi] at this
        exact (Option.some.injEq _ _ ▸ this).symm
      have hjb : l[j] = b0 := by
        have := List.getElem?_eq_getElem hjl
        rw [← List.get?_eq_getElem?, hj] at this
        exact (Option.some.injEq _ _ ▸ this).symm
      have hmem_a : a0 ∈ l := by
        rw [← hia]
        exact List.getElem_mem hil
      have hmem_b : b0 ∈ l := by
        rw [← hjb]
        exact List.getElem_mem hjl
      rw [List.perm_iff_count]
      intro x
      have hjl2 : j < (l.set i b0).length := by
        rw [List.length_set]
        exact hjl
      rw [List.count_set a0 x (l.set i b0) j hjl2]
      rw [List.count_set b0 x l i hil]
      have hset : (l.set i b0)[j] = b0 := by
        rw [List.getElem_set]
        by_cases h : i = j
        · rw [if_pos h]
        · rw [if_neg h, hjb]
      rw [hset, hia]
      have hca : a0 = x → 1 ≤ l.count x := by
        intro h
        subst h
        exact List.count_pos_iff.2 hmem_a
      split_ifs with h1 h2 <;>
        first
          | (have h3 := hca (by simpa using h1); omega)
          | omega

theorem shuffleGo_perm {σ α : Type _} [DecidableEq α] (rb : Nat → σ → Nat × σ) :
    ∀ (n : Nat) (l : List α) (s : σ), List.Perm (shuffleGo rb n l s).1 l := by
  intro n
  induction n with
  | zero => intro l s; exact List.Perm.refl l
  | succ i ih =>
    intro l s
    rw [shuffleGo]
    exact (ih _ _).trans (pySwap_perm l (i + 1) (rb (i + 2) s).1)

theorem pyShuffle_perm {σ α : Type _} [DecidableEq α] (rb : Nat → σ → Nat × σ)
    (l : List α) (s : σ) : List.Perm (pyShuffle rb l s).1 l :=
  shuffleGo_perm rb (l.length - 1) l s

theorem gridLike_nodup (R C : Nat) :
    ((List.range R).flatMap (fun r => (List.range C).map (fun c => ((r, c) : Coord)))).Nodup := by
  rw [List.nodup_flatMap]
  constructor
  · intro r _
    exact (List.nodup_range C).map (fun a b h => by simpa using h)
  · apply List.Pairwise.imp ?_ (List.pairwise_lt_range R)
    intro a b hab
    intro x hxa hxb
    simp only [List.mem_map, List.mem_range] at hxa hxb
    obtain ⟨c1, _, h1⟩ := hxa
    obtain ⟨c2, _, h2⟩ := hxb
    rw [← h2] at h1
    injection h1 with hr hc
    exact absurd hab (by rw [hr]; exact Nat.lt_irrefl b)

theorem domList_nodup (d : Finset Val) : (domList d).Nodup := by
  rw [domList]
  exact (gridLike_nodup _ _).filter _

/-- `order_values` permutes the domain list. -/
theorem order_values_perm {σ : Type _} (ctx : SolverCtx σ) (st : SState σ) (rc : Coord) :
    List.Perm (order_values ctx st rc).1 (domList (st.dom rc)) := by
  rw [order_values]
  exact (isortBy_perm _ _).trans (pyShuffle_perm ctx.rb _ st.rng)

theorem order_values_nodup {σ : Type _} (ctx : SolverCtx σ) (st : SState σ) (rc : Coord) :
    (order_values ctx st rc).1.Nodup :=
  ((order_values_perm ctx st rc).nodup_iff).2 (domList_nodup _)

theorem order_values_mem_iff {σ : Type _} (ctx : SolverCtx σ) (st : SState σ) (rc : Coord)
    (v : Val) : v ∈ (order_values ctx st rc).1 ↔ v ∈ st.dom rc :=
  ((order_values_perm ctx st rc).mem_iff).trans (domList_mem _ v)

theorem alookup_append_key {κ β : Type _} [DecidableEq κ] :
    ∀ (l1 : List (κ × β)) (k : κ) (v : β) (l2 : List (κ × β)), k ∉ l1.map Prod.fst →
      alookup (l1 ++ (k, v) :: l2) k = some v := by
  intro l1
  induction l1 with
  | nil =>
    intro k v l2 _
    rw [List.nil_append, alookup, if_pos rfl]
  | cons kv rest ih =>
    intro k v l2 h
    rw [List.map_cons, List.mem_cons, not_or] at h
    rw [List.cons_append, alookup, if_neg (fun hh => h.1 hh.symm)]
    exact ih k v l2 h.2

/-- A recorded solution is a solution by the puzzle's rules. -/
theorem recordedGood_isSolution (p : Puzzle) (sol : List (Coord × Val))
    (h : RecordedGood p sol) : IsSolution p (alookup sol) := by
  obtain ⟨hgood, hcolor, hblocks, hrows, hcols, hlr, hlc⟩ := h
  have hkeysg : ∀ k ∈ sol.map Prod.fst, k.1 < p.rows ∧ k.2 < p.cols := by
    intro k hk
    exact (cellsList_mem p k).1 (hgood.2.2.1 k hk)
  refine ⟨hlr, hlc, ?_, ?_, ?_, ?_, ?_, ?_⟩
  · intro x
    constructor
    · intro hs
      obtain ⟨v, hv⟩ := Option.isSome_iff_exists.1 hs
      have hm := alookup_mem sol x v hv
      exact hkeysg x (List.mem_map.2 ⟨(x, v), hm, rfl⟩)
    · intro hx
      obtain ⟨v, hv⟩ := goodSol_total p sol hgood x ((cellsList_mem p x).2 hx)
      rw [hv]
      rfl
  · intro x v hv
    exact hgood.1 (x, v) (alookup_mem sol x v hv)
  · intro r _
    rw [← filter_line_row p.rows p.cols sol hgood.2.1 hkeysg r]
    exact hrows r
  · intro c _
    rw [← filter_line_col p.rows p.cols sol hgood.2.1 hkeysg c]
    exact hcols c
  · intro a b hnb va vb hva hvb hne
    exact hcolor (a, va) (alookup_mem sol a va hva) (b, vb) (alookup_mem sol b vb hvb) hnb hne
  · intro x v hv
    have hx : x.1 < p.rows ∧ x.2 < p.cols :=
      hkeysg x (List.mem_map.2 ⟨(x, v), alookup_mem sol x v hv, rfl⟩)
    obtain ⟨w, hw1, hw2⟩ := completeBlocksOkA_spec p sol hgood hblocks x hx.1 hx.2
    rw [hv] at hw1
    injection hw1 with hw1
    subst hw1
    exact hw2

/-- The value loop appends, per tried value, solution batches that start
with the extended assignment — batches from different values differ at
the branch cell. -/
theorem loopVals_distinct {σ : Type _} (ctx : SolverCtx σ) (next : SState σ → Bool × SState σ)
    (hnextR : ∀ st, KeysOK ctx.p st → DomOK ctx.p st → SameCore (next st).2 st)
    (hnextD : ∀ st, KeysOK ctx.p st → DomOK ctx.p st →
      ∃ tl, (next st).2.solutions = st.solutions ++ tl ∧
        (∀ sol ∈ tl, ∃ rest, sol = st.assign ++ rest) ∧
        tl.Pairwise (fun s1 s2 => ∃ x, alookup s1 x ≠ alookup s2 x))
    (rc : Coord) (hrcC : rc ∈ cellsList ctx.p) :
    ∀ (vs : List Val) (st : SState σ), vs.Nodup → KeysOK ctx.p st → DomOK ctx.p st →
      alookup st.assign rc = none →
      ∃ tl, (loopVals ctx next rc vs st).2.solutions = st.solutions ++ tl ∧
        (∀ sol ∈ tl, ∃ v ∈ vs, ∃ rest, sol = st.assign ++ (rc, v) :: rest) ∧
        tl.Pairwise (fun s1 s2 => ∃ x, alookup s1 x ≠ alookup s2 x) := by
  intro vs
  induction vs with
  | nil =>
    intro st _ _ _ _
    exact ⟨[], (List.append_nil _).symm, fun sol hs => absurd hs (List.not_mem_nil sol),
      List.Pairwise.nil⟩
  | cons v vs ih =>
    intro st hvn hK hD hrc
    rw [List.nodup_cons] at hvn
    have hrckeys : rc ∉ st.assign.map Prod.fst := (alookup_eq_none st.assign rc).1 hrc
    rw [loopVals]
    split
    · have hcore := loopStep_core ctx next hnextR rc v st hK hD hrcC hrc
      have hKD := keysOK_append ctx.p st rc v hK hrcC hrckeys
      have hK2 : KeysOK ctx.p ({ assign_val st rc v with
          dom := (forward_check_prune ctx (assign_val st rc v) rc v).2 }) := ⟨hKD.1, hKD.2⟩
      have hD2 : DomOK ctx.p ({ assign_val st rc v with
          dom := (forward_check_prune ctx (assign_val st rc v) rc v).2 }) :=
        fun x => Finset.Subset.trans
          (forward_check_prune_dom_subset ctx (assign_val st rc v) rc v x) (hD x)
      obtain ⟨tlN, hN1, hN2, hN3⟩ := hnextD _ hK2 hD2
      have hsols : (loopStep ctx next rc v st).2.solutions = st.solutions ++ tlN := hN1
      have hmemN : ∀ sol ∈ tlN, ∃ rest, sol = st.assign ++ (rc, v) :: rest := by
        intro sol hs
        obtain ⟨rest, he⟩ := hN2 sol hs
        refine ⟨rest, ?_⟩
        rw [he]
        show (st.assign ++ [(rc, v)]) ++ rest = st.assign ++ (rc, v) :: rest
        rw [List.append_assoc, List.singleton_append]
      have hlookN : ∀ sol ∈ tlN, alookup sol rc = some v := by
        intro sol hs
        obtain ⟨rest, he⟩ := hmemN sol hs
        rw [he]
        exact alookup_append_key st.assign rc v rest hrckeys
      dsimp only
      split
      · exact ⟨tlN, hsols, fun sol hs => ⟨v, List.mem_cons_self v vs, hmemN sol hs⟩, hN3⟩
      · split
        · exact ⟨tlN, hsols, fun sol hs => ⟨v, List.mem_cons_self v vs, hmemN sol hs⟩, hN3⟩
        · obtain ⟨tlR, hR1, hR2, hR3⟩ := ih (loopStep ctx next rc v st).2 hvn.2
            (keysOK_congr ctx.p _ st hcore.2.1 hK)
            (domOK_congr ctx.p _ st hcore.1 hD)
            (by rw [hcore.2.1]; exact hrc)
          refine ⟨tlN ++ tlR, ?_, ?_, ?_⟩
          · rw [hR1, hsols, List.append_assoc]
          · intro sol hs
            rcases List.mem_append.1 hs with h | h
            · exact ⟨v, List.mem_cons_self v vs, hmemN sol h⟩
            · obtain ⟨v2, hv2, rest, he⟩ := hR2 sol h
              rw [hcore.2.1] at he
              exact ⟨v2, List.mem_cons_of_mem v hv2, rest, he⟩
          · rw [List.pairwise_append]
            refine ⟨hN3, hR3, ?_⟩
            intro s1 hs1 s2 hs2
            obtain ⟨v2, hv2, rest2, he2⟩ := hR2 s2 hs2
            refine ⟨rc, ?_⟩
            rw [hlookN s1 hs1, hcore.2.1] at *
            rw [he2, alookup_append_key st.assign rc v2 rest2 hrckeys]
            intro hh
            injection hh with hh
            exact hvn.1 (hh ▸ hv2)
    · obtain ⟨tl, h1, h2, h3⟩ := ih st hvn.2 hK hD hrc
      exact ⟨tl, h1, fun sol hs =>
        (h2 sol hs).elim (fun v2 hv2 => ⟨v2, List.mem_cons_of_mem v hv2.1, hv2.2⟩), h3⟩

/-- One `dfs` level appends distinct batches extending the entry
assignment. -/
theorem dfsBody_distinct {σ : Type _} (ctx : SolverCtx σ)
    (hcard : (baseDomVals ctx.p).card < 10 ^ 18)
    (next : SState σ → Bool × SState σ)
    (hnextR : ∀ st, KeysOK ctx.p st → DomOK ctx.p st → SameCore (next st).2 st)
    (hnextD : ∀ st, KeysOK ctx.p st → DomOK ctx.p st →
      ∃ tl, (next st).2.solutions = st.solutions ++ tl ∧
        (∀ sol ∈ tl, ∃ rest, sol = st.assign ++ rest) ∧
        tl.Pairwise (fun s1 s2 => ∃ x, alookup s1 x ≠ alookup s2 x))
    (st : SState σ) (hK : KeysOK ctx.p st) (hD : DomOK ctx.p st) :
    ∃ tl, (dfsBody ctx next st).2.solutions = st.solutions ++ tl ∧
      (∀ sol ∈ tl, ∃ rest, sol = st.assign ++ rest) ∧
      tl.Pairwise (fun s1 s2 => ∃ x, alookup s1 x ≠ alookup s2 x) := by
  rw [dfsBody]
  split
  · exact ⟨[], (List.append_nil _).symm, fun sol hs => absurd hs (List.not_mem_nil sol),
      List.Pairwise.nil⟩
  · split
    · split
      · refine ⟨[st.assign], rfl, ?_, List.pairwise_singleton _ _⟩
        intro sol hs
        rw [List.mem_singleton] at hs
        exact ⟨[], by rw [hs, List.append_nil]⟩
      · exact ⟨[], (List.append_nil _).symm, fun sol hs => absurd hs (List.not_mem_nil sol),
          List.Pairwise.nil⟩
    · rename_i hinc
      have hsel := select_mrv_spec ctx st hcard hK hD hinc
      dsimp only
      obtain ⟨tl, h1, h2, h3⟩ := loopVals_distinct ctx next hnextR hnextD
        (select_mrv ctx st) hsel.1
        (order_values ctx st (select_mrv ctx st)).1
        (order_values ctx st (select_mrv ctx st)).2
        (order_values_nodup ctx st (select_mrv ctx st))
        (keysOK_congr ctx.p _ st rfl hK) (domOK_congr ctx.p _ st rfl hD) hsel.2
      refine ⟨tl, h1, ?_, h3⟩
      intro sol hs
      obtain ⟨v, _, rest, he⟩ := h2 sol hs
      exact ⟨(select_mrv ctx st, v) :: rest, he⟩

/-- `dfs` appends pairwise-distinct solutions extending the entry
assignment. -/
theorem dfsGo_distinct {σ : Type _} (ctx : SolverCtx σ)
    (hcard : (baseDomVals ctx.p).card < 10 ^ 18) :
    ∀ (fuel : Nat) (st : SState σ), KeysOK ctx.p st → DomOK ctx.p st →
      ∃ tl, (dfsGo ctx fuel st).2.solutions = st.solutions ++ tl ∧
        (∀ sol ∈ tl, ∃ rest, sol = st.assign ++ rest) ∧
        tl.Pairwise (fun s1 s2 => ∃ x, alookup s1 x ≠ alookup s2 x) := by
  intro fuel
  induction fuel with
  | zero =>
    intro st _ _
    exact ⟨[], (List.append_nil _).symm, fun sol hs => absurd hs (List.not_mem_nil sol),
      List.Pairwise.nil⟩
  | succ n ih =>
    intro st hK hD
    rw [dfsGo]
    exact dfsBody_distinct ctx hcard (dfsGo ctx n)
      (fun st2 hK2 hD2 => dfsGo_restores ctx hcard n st2 hK2 hD2)
      (fun st2 hK2 hD2 => ih st2 hK2 hD2) st hK hD

/-- The recorded solutions are pairwise distinct as assignments. -/
theorem solveAll_distinct {σ : Type _} (p : Puzzle) (rb : Nat → σ → Nat × σ) (rng : σ)
    (findTwo : Bool) (maxSolutions : Nat) (hcard : (baseDomVals p).card < 10 ^ 18) :
    ((solveAll p rb rng findTwo maxSolutions).1).Pairwise
      (fun s1 s2 => ∃ x, alookup s1 x ≠ alookup s2 x) := by
  obtain ⟨tl, h1, _, h3⟩ := dfsGo_distinct
    { p := p, rb := rb, findTwo := findTwo, maxSolutions := maxSolutions } hcard
    (p.rows * p.cols + 1) (initState p rng)
    ⟨List.nodup_nil, fun k hk => absurd hk (List.not_mem_nil k)⟩
    (fun x => Finset.Subset.trans (initDom_subset p x) (Finset.Subset.refl _))
  have he : (solveAll p rb rng findTwo maxSolutions).1 = tl := by
    show (dfsGo { p := p, rb := rb, findTwo := findTwo, maxSolutions := maxSolutions }
      (p.rows * p.cols + 1) (initState p rng)).2.solutions = tl
    rw [h1]
    exact List.nil_append tl
  rw [he]
  exact h3

/-- The value loop keeps the recorded count at most the cap when the
two-solution search is on. -/
theorem loopVals_bound {σ : Type _} (ctx : SolverCtx σ) (next : SState σ → Bool × SState σ)
    (hft : ctx.findTwo = true)
    (hnext : ∀ st, st.solutions.length < ctx.maxSolutions →
      (next st).2.solutions.length ≤ ctx.maxSolutions) (rc : Coord) :
    ∀ (vs : List Val) (st : SState σ), st.solutions.length < ctx.maxSolutions →
      (loopVals ctx next rc vs st).2.solutions.length ≤ ctx.maxSolutions := by
  intro vs
  induction vs with
  | nil =>
    intro st h
    exact le_of_lt h
  | cons v vs ih =>
    intro st h
    rw [loopVals]
    split
    · have hs : (loopStep ctx next rc v st).2.solutions.length ≤ ctx.maxSolutions :=
        hnext ({ assign_val st rc v with
          dom := (forward_check_prune ctx (assign_val st rc v) rc v).2 }) h
      dsimp only
      split
      · exact hs
      · split
        · exact hs
        · rename_i hcond
          apply ih
          rw [not_and_or] at hcond
          rcases hcond with hcond | hcond
          · exact absurd hft hcond
          · omega
    · exact ih st h

/-- One `dfs` level keeps the recorded count at most the cap. -/
theorem dfsBody_bound {σ : Type _} (ctx : SolverCtx σ) (hft : ctx.findTwo = true)
    (next : SState σ → Bool × SState σ)
    (hnext : ∀ st, st.solutions.length < ctx.maxSolutions →
      (next st).2.solutions.length ≤ ctx.maxSolutions)
    (st : SState σ) (h : st.solutions.length < ctx.maxSolutions) :
    (dfsBody ctx next st).2.solutions.length ≤ ctx.maxSolutions := by
  rw [dfsBody]
  split
  · exact le_of_lt h
  · split
    · split
      · show (st.solutions ++ [st.assign]).length ≤ ctx.maxSolutions
        rw [List.length_append, List.length_singleton]
        omega
      · exact le_of_lt h
    · dsimp only
      exact loopVals_bound ctx next hft hnext (select_mrv ctx st)
        (order_values ctx st (select_mrv ctx st)).1
        (order_values ctx st (select_mrv ctx st)).2 h

theorem dfsGo_bound {σ : Type _} (ctx : SolverCtx σ) (hft : ctx.findTwo = true) :
    ∀ (fuel : Nat) (st : SState σ), st.solutions.length < ctx.maxSolutions →
      (dfsGo ctx fuel st).2.solutions.length ≤ ctx.maxSolutions := by
  intro fuel
  induction fuel with
  | zero =>
    intro st h
    exact le_of_lt h
  | succ n ih =>
    intro st h
    rw [dfsGo]
    exact dfsBody_bound ctx hft (dfsGo ctx n) ih st h

theorem loopVals_mono {σ : Type _} (ctx : SolverCtx σ) (next : SState σ → Bool × SState σ)
    (hnext : ∀ st, ∃ tl, (next st).2.solutions = st.solutions ++ tl) (rc : Coord) :
    ∀ (vs : List Val) (st : SState σ),
      ∃ tl, (loopVals ctx next rc vs st).2.solutions = st.solutions ++ tl := by
  intro vs
  induction vs with
  | nil =>
    intro st
    exact ⟨[], (List.append_nil _).symm⟩
  | cons v vs ih =>
    intro st
    rw [loopVals]
    split
    · obtain ⟨tl1, h1⟩ := hnext ({ assign_val st rc v with
        dom := (forward_check_prune ctx (assign_val st rc v) rc v).2 })
      have hs : (loopStep ctx next rc v st).2.solutions = st.solutions ++ tl1 := h1
      dsimp only
      split
      · exact ⟨tl1, hs⟩
      · split
        · exact ⟨tl1, hs⟩
        · obtain ⟨tl2, h2⟩ := ih (loopStep ctx next rc v st).2
          exact ⟨tl1 ++ tl2, by rw [h2, hs, List.append_assoc]⟩
    · exact ih st

theorem dfsBody_mono {σ : Type _} (ctx : SolverCtx σ) (next : SState σ → Bool × SState σ)
    (hnext : ∀ st, ∃ tl, (next st).2.solutions = st.solutions ++ tl) (st : SState σ) :
    ∃ tl, (dfsBody ctx next st).2.solutions = st.solutions ++ tl := by
  rw [dfsBody]
  split
  · exact ⟨[], (List.append_nil _).symm⟩
  · split
    · split
      · exact ⟨[st.assign], rfl⟩
      · exact ⟨[], (List.append_nil _).symm⟩
    · dsimp only
      exact loopVals_mono ctx next hnext (select_mrv ctx st)
        (order_values ctx st (select_mrv ctx st)).1
        (order_values ctx st (select_mrv ctx st)).2

theorem dfsGo_mono {σ : Type _} (ctx : SolverCtx σ) :
    ∀ (fuel : Nat) (st : SState σ),
      ∃ tl, (dfsGo ctx fuel st).2.solutions = st.solutions ++ tl := by
  intro fuel
  induction fuel with
  | zero =>
    intro st
    exact ⟨[], (List.append_nil _).symm⟩
  | succ n ih =>
    intro st
    rw [dfsGo]
    exact dfsBody_mono ctx (dfsGo ctx n) ih st

theorem domMinNum_le (d : Finset Val) (w : Val) (hw : w ∈ d) : domMinNum d ≤ (w.1 : Int) := by
  rw [domMinNum]
  have hmem : w.1 ∈ d.image Prod.fst := Finset.mem_image_of_mem Prod.fst hw
  have hle := Finset.min_le hmem
  cases hmin : (d.image Prod.fst).min with
  | top =>
    rw [hmin] at hle
    exact absurd hle (by simp)
  | coe m =>
    rw [hmin] at hle
    have h1 : m ≤ w.1 := by simpa using hle
    simpa using h1

theorem le_domMaxNum (d : Finset Val) (w : Val) (hw : w ∈ d) : (w.1 : Int) ≤ domMaxNum d := by
  rw [domMaxNum]
  have hmem : w.1 ∈ d.image Prod.fst := Finset.mem_image_of_mem Prod.fst hw
  have hle := Finset.le_max hmem
  cases hmax : (d.image Prod.fst).max with
  | bot =>
    rw [hmax] at hle
    exact absurd hle (by simp)
  | coe m =>
    rw [hmax] at hle
    have h1 : w.1 ≤ m := by simpa using hle
    simpa using h1

theorem alookup_append_or {κ β : Type _} [DecidableEq κ] :
    ∀ (l1 l2 : List (κ × β)) (k : κ),
      alookup (l1 ++ l2) k =
        if (alookup l1 k).isSome then alookup l1 k else alookup l2 k := by
  intro l1
  induction l1 with
  | nil =>
    intro l2 k
    rw [alookup]
    simp
  | cons kv rest ih =>
    intro l2 k
    rw [List.cons_append, alookup, alookup]
    by_cases h : kv.1 = k
    · rw [if_pos h, if_pos h]
      simp
    · rw [if_neg h, if_neg h]
      exact ih l2 k

theorem alookup_append_none {κ β : Type _} [DecidableEq κ] (l1 l2 : List (κ × β)) (k : κ) :
    alookup (l1 ++ l2) k = none ↔ alookup l1 k = none ∧ alookup l2 k = none := by
  rw [alookup_append_or]
  by_cases h : (alookup l1 k).isSome = true
  · rw [if_pos h]
    obtain ⟨v, hv⟩ := Option.isSome_iff_exists.1 h
    rw [hv]
    simp
  · rw [if_neg h]
    rw [Option.not_isSome_iff_eq_none] at h
    rw [h]
    simp

/-- Prune of a survivor value: a value at a cell that is not the locked
cell and is not a same-color different-number value survives the fold. -/
theorem pruneFold_mem {σ : Type _} (st : SState σ) (v : Val) (x : Coord) (w : Val) :
    ∀ (nbs : List Coord) (acc : List (Coord × Val) × (Coord → Finset Val)),
      (x ∈ nbs → ¬(w.1 ≠ v.1 ∧ w.2 = v.2)) →
      w ∈ acc.2 x → w ∈ (nbs.foldl (pruneNb st v) acc).2 x := by
  intro nbs
  induction nbs with
  | nil =>
    intro acc _ h
    exact h
  | cons nb rest ih =>
    intro acc hcond h
    rw [List.foldl_cons]
    apply ih _ (fun hm => hcond (List.mem_cons_of_mem _ hm))
    rw [pruneNb]
    by_cases ha : (alookup st.assign nb).isSome = true
    · rw [if_pos ha]
      exact h
    · rw [if_neg ha]
      dsimp only
      by_cases hx : nb = x
      · subst hx
        rw [Function.update_same]
        exact Finset.mem_filter.2 ⟨h, hcond (List.mem_cons_self _ _)⟩
      · rw [Function.update_noteq (fun hh => hx hh.symm)]
        exact h

theorem forward_check_prune_dom_mem {σ : Type _} (ctx : SolverCtx σ) (st : SState σ)
    (rc : Coord) (v : Val) (x : Coord) (w : Val)
    (hx : x ≠ rc) (hw : w ∈ st.dom x)
    (hcond : x ∈ neighbors4 ctx.p.rows ctx.p.cols rc → ¬(w.1 ≠ v.1 ∧ w.2 = v.2)) :
    w ∈ (forward_check_prune ctx st rc v).2 x := by
  rw [forward_check_prune]
  apply pruneFold_mem st v x w _ _ hcond
  show w ∈ Function.update st.dom rc ((st.dom rc).filter (fun u => u = v)) x
  rw [Function.update_noteq hx]
  exact hw

theorem compat_congr {σ : Type _} (p : Puzzle) (f : Coord → Option Val) (a b : SState σ)
    (hd : a.dom = b.dom) (ha : a.assign = b.assign) (hb : Compat p f b) : Compat p f a := by
  unfold Compat at hb ⊢
  rw [hd, ha]
  exact hb

theorem sumsBoundGo_congr {σ : Type _} (a b : SState σ) (hd : a.dom = b.dom)
    (ha : a.assign = b.assign) (rc : Coord) :
    ∀ (cells : List Coord) (acc : Int × Int),
      sumsBoundGo a rc cells acc = sumsBoundGo b rc cells acc := by
  intro cells
  induction cells with
  | nil =>
    intro acc
    rfl
  | cons x rest ih =>
    intro acc
    rw [sumsBoundGo, sumsBoundGo, ha, hd]
    by_cases h : x = rc ∨ (alookup b.assign x).isSome = true
    · rw [if_pos h, if_pos h]
      exact ih acc
    · rw [if_neg h, if_neg h]
      dsimp only
      by_cases h2 : b.dom x = ∅
      · rw [if_pos h2, if_pos h2]
      · rw [if_neg h2, if_neg h2]
        exact ih _

theorem minmaxGo_congr {σ : Type _} (a b : SState σ) (hd : a.dom = b.dom)
    (ha : a.assign = b.assign) :
    ∀ (cells : List Coord) (acc : Int × Int), minmaxGo a cells acc = minmaxGo b cells acc := by
  intro cells
  induction cells with
  | nil =>
    intro acc
    rfl
  | cons x rest ih =>
    intro acc
    rw [minmaxGo, minmaxGo, ha, hd]
    by_cases h : (alookup b.assign x).isSome = true
    · rw [if_pos h, if_pos h]
      exact ih acc
    · rw [if_neg h, if_neg h]
      dsimp only
      by_cases h2 : b.dom x = ∅
      · rw [if_pos h2, if_pos h2]
      · rw [if_neg h2, if_neg h2]
        exact ih _

theorem sums_ok_local_congr {σ : Type _} (ctx : SolverCtx σ) (a b : SState σ)
    (hd : a.dom = b.dom) (ha : a.assign = b.assign) (hr : a.rowSumNow = b.rowSumNow)
    (hc : a.colSumNow = b.colSumNow) (rc : Coord) (v : Val) :
    sums_ok_local ctx a rc v = sums_ok_local ctx b rc v := by
  unfold sums_ok_local
  rw [hr, hc, sumsBoundGo_congr a b hd ha rc, sumsBoundGo_congr a b hd ha rc]

theorem color_adjacency_ok_congr {σ : Type _} (ctx : SolverCtx σ) (a b : SState σ)
    (ha : a.assign = b.assign) (rc : Coord) (v : Val) :
    color_adjacency_ok ctx a rc v = color_adjacency_ok ctx b rc v := by
  unfold color_adjacency_ok
  rw [ha]

theorem block_feasible_congr {σ : Type _} (ctx : SolverCtx σ) (a b : SState σ)
    (hd : a.dom = b.dom) (ha : a.assign = b.assign) (rc : Coord) (v : Val) :
    block_feasible ctx a rc v = block_feasible ctx b rc v := by
  unfold block_feasible
  rw [ha, hd]

theorem global_bounds_ok_congr {σ : Type _} (ctx : SolverCtx σ) (a b : SState σ)
    (hd : a.dom = b.dom) (ha : a.assign = b.assign) (hr : a.rowSumNow = b.rowSumNow)
    (hc : a.colSumNow = b.colSumNow) :
    global_bounds_ok ctx a = global_bounds_ok ctx b := by
  unfold global_bounds_ok minmax_remaining_row minmax_remaining_col
  rw [hr, hc]
  simp only [minmaxGo_congr a b hd ha]

theorem numAt_nonneg (f : Coord → Option Val) (x : Coord) : 0 ≤ numAt f x := by
  cases h : f x with
  | none => simp [numAt, h]
  | some w => simp [numAt, h]

/-- Pointwise split of a total solution into its assigned part and the
remaining unassigned part. -/
theorem numAt_split2 {σ : Type _} (st : SState σ) (f : Coord → Option Val)
    (hcompat : ∀ x v, alookup st.assign x = some v → f x = some v) (x : Coord) :
    numAt f x = numAt (alookup st.assign) x
      + (if (alookup st.assign x).isSome = true then 0 else numAt f x) := by
  by_cases h : (alookup st.assign x).isSome = true
  · obtain ⟨v, hv⟩ := Option.isSome_iff_exists.1 h
    rw [if_pos h, add_zero]
    simp only [numAt, hv, hcompat x v hv]
  · rw [if_neg h]
    simp only [numAt, Option.not_isSome_iff_eq_none.1 h]
    simp

/-- Pointwise three-way split of a total solution: assigned part, the cell
about to be assigned, the other unassigned cells. -/
theorem numAt_split3 {σ : Type _} (st : SState σ) (f : Coord → Option Val) (rc : Coord)
    (hcompat : ∀ x v, alookup st.assign x = some v → f x = some v)
    (hrc : alookup st.assign rc = none) (x : Coord) :
    numAt f x = numAt (alookup st.assign) x
      + (if x = rc then numAt f x else 0)
      + (if x = rc ∨ (alookup st.assign x).isSome = true then 0 else numAt f x) := by
  by_cases hx : x = rc
  · subst hx
    rw [if_pos rfl, if_pos (Or.inl rfl), add_zero]
    simp only [numAt, hrc]
    simp
  · rw [if_neg hx]
    by_cases h : (alookup st.assign x).isSome = true
    · obtain ⟨v, hv⟩ := Option.isSome_iff_exists.1 h
      rw [if_pos (Or.inr h), add_zero, add_zero]
      simp only [numAt, hv, hcompat x v hv]
    · rw [if_neg (not_or.2 ⟨hx, h⟩)]
      simp only [numAt, Option.not_isSome_iff_eq_none.1 h]
      simp

theorem rowSumNow_eq {σ : Type _} (p : Puzzle) (st : SState σ)
    (hK : KeysOK p st) (hS : SumsInv p st) (r : Nat) :
    listGetI st.rowSumNow r
      = ((List.range p.cols).map (fun c => numAt (alookup st.assign) (r, c))).sum := by
  have hgrid : ∀ k ∈ st.assign.map Prod.fst, k.1 < p.rows ∧ k.2 < p.cols := by
    intro k hk
    exact (cellsList_mem p k).1 (hK.2 k hk)
  rw [hS.2.2.1 r]
  exact filter_line_row p.rows p.cols st.assign hK.1 hgrid r

theorem colSumNow_eq {σ : Type _} (p : Puzzle) (st : SState σ)
    (hK : KeysOK p st) (hS : SumsInv p st) (c : Nat) :
    listGetI st.colSumNow c
      = ((List.range p.rows).map (fun r => numAt (alookup st.assign) (r, c))).sum := by
  have hgrid : ∀ k ∈ st.assign.map Prod.fst, k.1 < p.rows ∧ k.2 < p.cols := by
    intro k hk
    exact (cellsList_mem p k).1 (hK.2 k hk)
  rw [hS.2.2.2 c]
  exact filter_line_col p.rows p.cols st.assign hK.1 hgrid c

/-- The `sums_ok_local` bound loop never hits an empty domain and its
result bounds the inline sum of any compatible solution's values over the
skipped-complement. -/
theorem sumsBoundGo_sound {σ : Type _} (st : SState σ) (rc : Coord) (f : Coord → Option Val) :
    ∀ (cells : List Coord) (acc : Int × Int),
      (∀ x ∈ cells, ¬(x = rc ∨ (alookup st.assign x).isSome = true) →
        ∃ v, f x = some v ∧ v ∈ st.dom x) →
      ∃ mm, sumsBoundGo st rc cells acc = some mm ∧
        mm.1 ≤ acc.1 + (cells.map (fun x =>
          if x = rc ∨ (alookup st.assign x).isSome = true then 0 else numAt f x)).sum ∧
        acc.2 + (cells.map (fun x =>
          if x = rc ∨ (alookup st.assign x).isSome = true then 0 else numAt f x)).sum ≤ mm.2 := by
  intro cells
  induction cells with
  | nil =>
    intro acc _
    exact ⟨acc, rfl, by simp, by simp⟩
  | cons x rest ih =>
    intro acc hdom
    have hrest : ∀ y ∈ rest, ¬(y = rc ∨ (alookup st.assign y).isSome = true) →
        ∃ v, f y = some v ∧ v ∈ st.dom y :=
      fun y hy => hdom y (List.mem_cons_of_mem _ hy)
    rw [sumsBoundGo]
    by_cases h : x = rc ∨ (alookup st.assign x).isSome = true
    · rw [if_pos h]
      obtain ⟨mm, h1, h2, h3⟩ := ih acc hrest
      refine ⟨mm, h1, ?_, ?_⟩
      · rw [List.map_cons, List.sum_cons, if_pos h]
        linarith
      · rw [List.map_cons, List.sum_cons, if_pos h]
        linarith
    · rw [if_neg h]
      obtain ⟨v, hv, hvd⟩ := hdom x (List.mem_cons_self _ _) h
      have hne : ¬ st.dom x = ∅ := by
        intro hh
        rw [hh] at hvd
        exact absurd hvd (Finset.not_mem_empty v)
      dsimp only
      rw [if_neg hne]
      obtain ⟨mm, h1, h2, h3⟩ :=
        ih (acc.1 + domMinNum (st.dom x), acc.2 + domMaxNum (st.dom x)) hrest
      dsimp only at h2 h3
      have hmin := domMinNum_le (st.dom x) v hvd
      have hmax := le_domMaxNum (st.dom x) v hvd
      have hnum : numAt f x = (v.1 : Int) := by
        rw [numAt, hv]
        rfl
      refine ⟨mm, h1, ?_, ?_⟩
      · rw [List.map_cons, List.sum_cons, if_neg h, hnum]
        linarith
      · rw [List.map_cons, List.sum_cons, if_neg h, hnum]
        linarith

/-- The `minmax_remaining` loop's result bounds the inline sum of any
compatible solution's values over the unassigned cells. -/
theorem minmaxGo_sound {σ : Type _} (st : SState σ) (f : Coord → Option Val) :
    ∀ (cells : List Coord) (acc : Int × Int),
      (∀ x ∈ cells, ¬((alookup st.assign x).isSome = true) →
        ∃ v, f x = some v ∧ v ∈ st.dom x) →
      (minmaxGo st cells acc).1 ≤ acc.1 + (cells.map (fun x =>
          if (alookup st.assign x).isSome = true then 0 else numAt f x)).sum ∧
      acc.2 + (cells.map (fun x =>
          if (alookup st.assign x).isSome = true then 0 else numAt f x)).sum
        ≤ (minmaxGo st cells acc).2 := by
  intro cells
  induction cells with
  | nil =>
    intro acc _
    exact ⟨by simp [minmaxGo], by simp [minmaxGo]⟩
  | cons x rest ih =>
    intro acc hdom
    have hrest : ∀ y ∈ rest, ¬((alookup st.assign y).isSome = true) →
        ∃ v, f y = some v ∧ v ∈ st.dom y :=
      fun y hy => hdom y (List.mem_cons_of_mem _ hy)
    rw [minmaxGo]
    by_cases h : (alookup st.assign x).isSome = true
    · rw [if_pos h]
      obtain ⟨h2, h3⟩ := ih acc hrest
      constructor
      · rw [List.map_cons, List.sum_cons, if_pos h]
        linarith
      · rw [List.map_cons, List.sum_cons, if_pos h]
        linarith
    · rw [if_neg h]
      obtain ⟨v, hv, hvd⟩ := hdom x (List.mem_cons_self _ _) h
      have hne : ¬ st.dom x = ∅ := by
        intro hh
        rw [hh] at hvd
        exact absurd hvd (Finset.not_mem_empty v)
      dsimp only
      rw [if_neg hne]
      obtain ⟨h2, h3⟩ := ih (acc.1 + domMinNum (st.dom x), acc.2 + domMaxNum (st.dom x)) hrest
      dsimp only at h2 h3
      have hmin := domMinNum_le (st.dom x) v hvd
      have hmax := le_domMaxNum (st.dom x) v hvd
      have hnum : numAt f x = (v.1 : Int) := by
        rw [numAt, hv]
        rfl
      constructor
      · rw [List.map_cons, List.sum_cons, if_neg h, hnum]
        linarith
      · rw [List.map_cons, List.sum_cons, if_neg h, hnum]
        linarith

/-- When a compatible total solution exists, `global_bounds_ok` cannot
prune. -/
theorem global_bounds_sound {σ : Type _} (ctx : SolverCtx σ) (st : SState σ)
    (f : Coord → Option Val) (hf : IsSolution ctx.p f)
    (hK : KeysOK ctx.p st) (hS : SumsInv ctx.p st) (hC : Compat ctx.p f st) :
    global_bounds_ok ctx st = true := by
  rw [global_bounds_ok, Bool.and_eq_true, List.all_eq_true, List.all_eq_true]
  constructor
  · intro r hrm
    have hr : r < ctx.p.rows := List.mem_range.1 hrm
    simp only [decide_eq_true_eq, minmax_remaining_row]
    push_neg
    have hdom : ∀ x ∈ (List.range ctx.p.cols).map (fun c => (r, c)),
        ¬((alookup st.assign x).isSome = true) → ∃ v, f x = some v ∧ v ∈ st.dom x := by
      intro x hx hna
      obtain ⟨c, hc, hxe⟩ := List.mem_map.1 hx
      have hcc : c < ctx.p.cols := List.mem_range.1 hc
      subst hxe
      obtain ⟨v, hv⟩ := Option.isSome_iff_exists.1 ((hf.2.2.1 (r, c)).2 ⟨hr, hcc⟩)
      exact ⟨v, hv, hC.2 (r, c) v hr hcc (Option.not_isSome_iff_eq_none.1 hna) hv⟩
    obtain ⟨hlo, hhi⟩ :=
      minmaxGo_sound st f ((List.range ctx.p.cols).map (fun c => (r, c))) (0, 0) hdom
    dsimp only at hlo hhi
    have hT : (((List.range ctx.p.cols).map (fun c => (r, c))).map
          (fun x => if (alookup st.assign x).isSome = true then 0 else numAt f x)).sum
        = ((List.range ctx.p.cols).map
          (fun c => if (alookup st.assign (r, c)).isSome = true then 0
            else numAt f (r, c))).sum := by
      rw [List.map_map]
      exact congrArg List.sum (List.map_congr_left (fun c _ => rfl))
    rw [hT] at hlo hhi
    have hnow := rowSumNow_eq ctx.p st hK hS r
    have htarget := hf.2.2.2.2.1 r hr
    have hsplit : ((List.range ctx.p.cols).map (fun c => numAt f (r, c))).sum
        = ((List.range ctx.p.cols).map (fun c => numAt (alookup st.assign) (r, c))).sum
          + ((List.range ctx.p.cols).map
              (fun c => if (alookup st.assign (r, c)).isSome = true then 0
                else numAt f (r, c))).sum := by
      rw [← sum_map_add]
      exact congrArg List.sum (List.map_congr_left (fun c _ => numAt_split2 st f hC.1 (r, c)))
    constructor
    · rw [hnow, ← htarget, hsplit]
      linarith
    · rw [hnow, ← htarget, hsplit]
      linarith
  · intro c hcm
    have hc : c < ctx.p.cols := List.mem_range.1 hcm
    simp only [decide_eq_true_eq, minmax_remaining_col]
    push_neg
    have hdom : ∀ x ∈ (List.range ctx.p.rows).map (fun r => (r, c)),
        ¬((alookup st.assign x).isSome = true) → ∃ v, f x = some v ∧ v ∈ st.dom x := by
      intro x hx hna
      obtain ⟨r, hr, hxe⟩ := List.mem_map.1 hx
      have hrr : r < ctx.p.rows := List.mem_range.1 hr
      subst hxe
      obtain ⟨v, hv⟩ := Option.isSome_iff_exists.1 ((hf.2.2.1 (r, c)).2 ⟨hrr, hc⟩)
      exact ⟨v, hv, hC.2 (r, c) v hrr hc (Option.not_isSome_iff_eq_none.1 hna) hv⟩
    obtain ⟨hlo, hhi⟩ :=
      minmaxGo_sound st f ((List.range ctx.p.rows).map (fun r => (r, c))) (0, 0) hdom
    dsimp only at hlo hhi
    have hT : (((List.range ctx.p.rows).map (fun r => (r, c))).map
          (fun x => if (alookup st.assign x).isSome = true then 0 else numAt f x)).sum
        = ((List.range ctx.p.rows).map
          (fun r => if (alookup st.assign (r, c)).isSome = true then 0
            else numAt f (r, c))).sum := by
      rw [List.map_map]
      exact congrArg List.sum (List.map_congr_left (fun r _ => rfl))
    rw [hT] at hlo hhi
    have hnow := colSumNow_eq ctx.p st hK hS c
    have htarget := hf.2.2.2.2.2.1 c hc
    have hsplit : ((List.range ctx.p.rows).map (fun r => numAt f (r, c))).sum
        = ((List.range ctx.p.rows).map (fun r => numAt (alookup st.assign) (r, c))).sum
          + ((List.range ctx.p.rows).map
              (fun r => if (alookup st.assign (r, c)).isSome = true then 0
                else numAt f (r, c))).sum := by
      rw [← sum_map_add]
      exact congrArg List.sum (List.map_congr_left (fun r _ => numAt_split2 st f hC.1 (r, c)))
    constructor
    · rw [hnow, ← htarget, hsplit]
      linarith
    · rw [hnow, ← htarget, hsplit]
      linarith

/-- When a compatible total solution assigns `v` at `rc`, `sums_ok_local`
accepts `v`. -/
theorem sums_ok_local_sound {σ : Type _} (ctx : SolverCtx σ) (st : SState σ)
    (f : Coord → Option Val) (hf : IsSolution ctx.p f)
    (hK : KeysOK ctx.p st) (hS : SumsInv ctx.p st) (hC : Compat ctx.p f st)
    (rc : Coord) (v : Val) (hr : rc.1 < ctx.p.rows) (hc : rc.2 < ctx.p.cols)
    (hun : alookup st.assign rc = none) (hv : f rc = some v) :
    sums_ok_local ctx st rc v = true := by
  have hdomR : ∀ x ∈ (List.range ctx.p.cols).map (fun cc => (rc.1, cc)),
      ¬(x = rc ∨ (alookup st.assign x).isSome = true) →
      ∃ w, f x = some w ∧ w ∈ st.dom x := by
    intro x hx hna
    rw [not_or] at hna
    obtain ⟨cc, hccm, hxe⟩ := List.mem_map.1 hx
    have hcc : cc < ctx.p.cols := List.mem_range.1 hccm
    subst hxe
    obtain ⟨w, hw⟩ := Option.isSome_iff_exists.1 ((hf.2.2.1 (rc.1, cc)).2 ⟨hr, hcc⟩)
    exact ⟨w, hw, hC.2 (rc.1, cc) w hr hcc (Option.not_isSome_iff_eq_none.1 hna.2) hw⟩
  have hdomC : ∀ x ∈ (List.range ctx.p.rows).map (fun rr => (rr, rc.2)),
      ¬(x = rc ∨ (alookup st.assign x).isSome = true) →
      ∃ w, f x = some w ∧ w ∈ st.dom x := by
    intro x hx hna
    rw [not_or] at hna
    obtain ⟨rr, hrrm, hxe⟩ := List.mem_map.1 hx
    have hrr : rr < ctx.p.rows := List.mem_range.1 hrrm
    subst hxe
    obtain ⟨w, hw⟩ := Option.isSome_iff_exists.1 ((hf.2.2.1 (rr, rc.2)).2 ⟨hrr, hc⟩)
    exact ⟨w, hw, hC.2 (rr, rc.2) w hrr hc (Option.not_isSome_iff_eq_none.1 hna.2) hw⟩
  obtain ⟨mmR, heqR, hloR, hhiR⟩ :=
    sumsBoundGo_sound st rc f ((List.range ctx.p.cols).map (fun cc => (rc.1, cc))) (0, 0) hdomR
  obtain ⟨mmC, heqC, hloC, hhiC⟩ :=
    sumsBoundGo_sound st rc f ((List.range ctx.p.rows).map (fun rr => (rr, rc.2))) (0, 0) hdomC
  dsimp only at hloR hhiR hloC hhiC
  have hTR : (((List.range ctx.p.cols).map (fun cc => (rc.1, cc))).map
        (fun x => if x = rc ∨ (alookup st.assign x).isSome = true then 0 else numAt f x)).sum
      = ((List.range ctx.p.cols).map
          (fun cc => if (rc.1, cc) = rc ∨ (alookup st.assign (rc.1, cc)).isSome = true
            then 0 else numAt f (rc.1, cc))).sum := by
    rw [List.map_map]
    exact congrArg List.sum (List.map_congr_left (fun cc _ => rfl))
  have hTC : (((List.range ctx.p.rows).map (fun rr => (rr, rc.2))).map
        (fun x => if x = rc ∨ (alookup st.assign x).isSome = true then 0 else numAt f x)).sum
      = ((List.range ctx.p.rows).map
          (fun rr => if (rr, rc.2) = rc ∨ (alookup st.assign (rr, rc.2)).isSome = true
            then 0 else numAt f (rr, rc.2))).sum := by
    rw [List.map_map]
    exact congrArg List.sum (List.map_congr_left (fun rr _ => rfl))
  rw [hTR] at hloR hhiR
  rw [hTC] at hloC hhiC
  have hnowR := rowSumNow_eq ctx.p st hK hS rc.1
  have hnowC := colSumNow_eq ctx.p st hK hS rc.2
  have htargetR := hf.2.2.2.2.1 rc.1 hr
  have htargetC := hf.2.2.2.2.2.1 rc.2 hc
  have hsplitR : ((List.range ctx.p.cols).map (fun cc => numAt f (rc.1, cc))).sum
      = ((List.range ctx.p.cols).map (fun cc => numAt (alookup st.assign) (rc.1, cc))).sum
        + ((List.range ctx.p.cols).map
            (fun cc => if (rc.1, cc) = rc then numAt f (rc.1, cc) else 0)).sum
        + ((List.range ctx.p.cols).map
            (fun cc => if (rc.1, cc) = rc ∨ (alookup st.assign (rc.1, cc)).isSome = true
              then 0 else numAt f (rc.1, cc))).sum := by
    rw [← sum_map_add, ← sum_map_add]
    exact congrArg List.sum
      (List.map_congr_left (fun cc _ => numAt_split3 st f rc hC.1 hun (rc.1, cc)))
  have hsplitC : ((List.range ctx.p.rows).map (fun rr => numAt f (rr, rc.2))).sum
      = ((List.range ctx.p.rows).map (fun rr => numAt (alookup st.assign) (rr, rc.2))).sum
        + ((List.range ctx.p.rows).map
            (fun rr => if (rr, rc.2) = rc then numAt f (rr, rc.2) else 0)).sum
        + ((List.range ctx.p.rows).map
            (fun rr => if (rr, rc.2) = rc ∨ (alookup st.assign (rr, rc.2)).isSome = true
              then 0 else numAt f (rr, rc.2))).sum := by
    rw [← sum_map_add, ← sum_map_add]
    exact congrArg List.sum
      (List.map_congr_left (fun rr _ => numAt_split3 st f rc hC.1 hun (rr, rc.2)))
  have hmidR : ((List.range ctx.p.cols).map
        (fun cc => if (rc.1, cc) = rc then numAt f (rc.1, cc) else 0)).sum = (v.1 : Int) := by
    have hpt : ∀ cc, (if (rc.1, cc) = rc then numAt f (rc.1, cc) else 0)
        = (if cc = rc.2 then (v.1 : Int) else 0) := by
      intro cc
      by_cases h : cc = rc.2
      · subst h
        rw [if_pos (Prod.mk.eta : (rc.1, rc.2) = rc), if_pos rfl]
        show numAt f rc = (v.1 : Int)
        rw [numAt, hv]
        rfl
      · rw [if_neg (fun hh => h (congrArg Prod.snd hh)), if_neg h]
    rw [List.map_congr_left (fun cc _ => hpt cc), sum_map_range_ite, if_pos hc]
  have hmidC : ((List.range ctx.p.rows).map
        (fun rr => if (rr, rc.2) = rc then numAt f (rr, rc.2) else 0)).sum = (v.1 : Int) := by
    have hpt : ∀ rr, (if (rr, rc.2) = rc then numAt f (rr, rc.2) else 0)
        = (if rr = rc.1 then (v.1 : Int) else 0) := by
      intro rr
      by_cases h : rr = rc.1
      · subst h
        rw [if_pos (Prod.mk.eta : (rc.1, rc.2) = rc), if_pos rfl]
        show numAt f rc = (v.1 : Int)
        rw [numAt, hv]
        rfl
      · rw [if_neg (fun hh => h (congrArg Prod.fst hh)), if_neg h]
    rw [List.map_congr_left (fun rr _ => hpt rr), sum_map_range_ite, if_pos hr]
  have hnnR : 0 ≤ ((List.range ctx.p.cols).map
      (fun cc => if (rc.1, cc) = rc ∨ (alookup st.assign (rc.1, cc)).isSome = true
        then 0 else numAt f (rc.1, cc))).sum := by
    apply List.sum_nonneg
    intro a ha
    obtain ⟨cc, _, hae⟩ := List.mem_map.1 ha
    subst hae
    split
    · exact le_refl 0
    · exact numAt_nonneg f _
  have hnnC : 0 ≤ ((List.range ctx.p.rows).map
      (fun rr => if (rr, rc.2) = rc ∨ (alookup st.assign (rr, rc.2)).isSome = true
        then 0 else numAt f (rr, rc.2))).sum := by
    apply List.sum_nonneg
    intro a ha
    obtain ⟨rr, _, hae⟩ := List.mem_map.1 ha
    subst hae
    split
    · exact le_refl 0
    · exact numAt_nonneg f _
  have h1R : listGetI st.rowSumNow rc.1 + (v.1 : Int) ≤ listGetI ctx.p.row_sums rc.1 := by
    rw [hnowR, ← htargetR, hsplitR, hmidR]
    linarith
  have h1C : listGetI st.colSumNow rc.2 + (v.1 : Int) ≤ listGetI ctx.p.col_sums rc.2 := by
    rw [hnowC, ← htargetC, hsplitC, hmidC]
    linarith
  have h2R : listGetI st.rowSumNow rc.1 + (v.1 : Int) + mmR.1
      ≤ listGetI ctx.p.row_sums rc.1 := by
    rw [hnowR, ← htargetR, hsplitR, hmidR]
    linarith
  have h3R : listGetI ctx.p.row_sums rc.1
      ≤ listGetI st.rowSumNow rc.1 + (v.1 : Int) + mmR.2 := by
    rw [hnowR, ← htargetR, hsplitR, hmidR]
    linarith
  have h2C : listGetI st.colSumNow rc.2 + (v.1 : Int) + mmC.1
      ≤ listGetI ctx.p.col_sums rc.2 := by
    rw [hnowC, ← htargetC, hsplitC, hmidC]
    linarith
  have h3C : listGetI ctx.p.col_sums rc.2
      ≤ listGetI st.colSumNow rc.2 + (v.1 : Int) + mmC.2 := by
    rw [hnowC, ← htargetC, hsplitC, hmidC]
    linarith
  rw [sums_ok_local]
  rw [if_neg (not_or.2 ⟨not_lt.2 h1R, not_lt.2 h1C⟩), heqR]
  dsimp only
  rw [if_neg (not_or.2 ⟨not_lt.2 h2R, not_lt.2 h3R⟩), heqC]
  dsimp only
  rw [if_neg (not_or.2 ⟨not_lt.2 h2C, not_lt.2 h3C⟩)]

theorem neighbors4_nodup (R C : Nat) (a : Coord) : (neighbors4 R C a).Nodup := by
  rw [neighbors4]
  by_cases h1 : 0 < a.1 <;> by_cases h2 : a.1 + 1 < R <;> by_cases h3 : 0 < a.2 <;>
    by_cases h4 : a.2 + 1 < C <;>
    simp [h1, h2, h3, h4, Prod.ext_iff] <;> omega

theorem neighbors4_length_le (R C : Nat) (a : Coord) : (neighbors4 R C a).length ≤ 4 := by
  rw [neighbors4]
  split_ifs <;> simp

/-- Along a function-level same-value path the value never changes. -/
theorem adjFRtg_value (R C : Nat) (f : Coord → Option Val) (rc x : Coord)
    (h : Relation.ReflTransGen (adjSameF R C f) rc x) : f x = f rc := by
  induction h with
  | refl => rfl
  | tail h1 h2 ih =>
    rw [← h2.2.1, ih]

/-- When a compatible total solution assigns `v` at `rc`,
`color_adjacency_ok` accepts `v`. -/
theorem color_adjacency_sound {σ : Type _} (ctx : SolverCtx σ) (st : SState σ)
    (f : Coord → Option Val) (hf : IsSolution ctx.p f) (hC : Compat ctx.p f st)
    (rc : Coord) (v : Val) (hv : f rc = some v) :
    color_adjacency_ok ctx st rc v = true := by
  rw [color_adjacency_ok, List.all_eq_true]
  intro nb hnb
  cases halk : alookup st.assign nb with
  | none => rfl
  | some w =>
    show decide (¬(w.1 ≠ v.1 ∧ w.2 = v.2)) = true
    rw [decide_eq_true_eq]
    rintro ⟨h1, h2⟩
    have hfnb : f nb = some w := hC.1 nb w halk
    have hcol := hf.2.2.2.2.2.2.1 rc nb hnb v w hv hfnb (Ne.symm h1)
    exact hcol h2.symm

/-- When a compatible total solution assigns `v` at `rc`, `block_feasible`
accepts `v`. -/
theorem block_feasible_sound {σ : Type _} (ctx : SolverCtx σ) (st : SState σ)
    (f : Coord → Option Val) (hf : IsSolution ctx.p f)
    (hK : KeysOK ctx.p st) (hC : Compat ctx.p f st)
    (rc : Coord) (v : Val) (hr : rc.1 < ctx.p.rows) (hc : rc.2 < ctx.p.cols)
    (hun : alookup st.assign rc = none) (hv : f rc = some v) :
    block_feasible ctx st rc v = true := by
  have hkeysg : ∀ k : Coord, (alookup st.assign k).isSome = true →
      k.1 < ctx.p.rows ∧ k.2 < ctx.p.cols := by
    intro k hk
    obtain ⟨w, hw⟩ := Option.isSome_iff_exists.1 hk
    have hmem : k ∈ st.assign.map Prod.fst := by
      rw [List.mem_map]
      exact ⟨(k, w), alookup_mem st.assign k w hw, rfl⟩
    exact (cellsList_mem ctx.p k).1 (hK.2 k hmem)
  have hKg : ∀ y, Relation.ReflTransGen (adjSameF ctx.p.rows ctx.p.cols f) rc y →
      y.1 < ctx.p.rows ∧ y.2 < ctx.p.cols := by
    intro y hy
    have hfy : f y = some v := (adjFRtg_value _ _ f rc y hy).trans hv
    exact (hf.2.2.1 y).1 (by rw [hfy]; rfl)
  have hKfin : {y | Relation.ReflTransGen (adjSameF ctx.p.rows ctx.p.cols f) rc y}.Finite := by
    apply Set.Finite.subset (Finset.range ctx.p.rows ×ˢ Finset.range ctx.p.cols).finite_toSet
    intro y hy
    rw [Finset.coe_product, Set.mem_prod]
    obtain ⟨hy1, hy2⟩ := hKg y hy
    exact ⟨by simpa using hy1, by simpa using hy2⟩
  have hKcard : {y | Relation.ReflTransGen (adjSameF ctx.p.rows ctx.p.cols f) rc y}.ncard
      = v.1 := hf.2.2.2.2.2.2.2 rc v hv
  have hrcK : rc ∈ {y | Relation.ReflTransGen (adjSameF ctx.p.rows ctx.p.cols f) rc y} :=
    Relation.ReflTransGen.refl
  -- Part A: the assigned same-value cells adjacent to rc stay within v.1 - 1.
  have hseedsub : ∀ b ∈ (neighbors4 ctx.p.rows ctx.p.cols rc).filter
      (fun nb => decide (alookup st.assign nb = some v)),
      Relation.ReflTransGen (adjSameF ctx.p.rows ctx.p.cols f) rc b
        ∧ alookup st.assign b = some v := by
    intro b hb
    obtain ⟨hnb, hpb⟩ := List.mem_filter.1 hb
    have hab : alookup st.assign b = some v := of_decide_eq_true hpb
    have hfb : f b = some v := hC.1 b v hab
    exact ⟨Relation.ReflTransGen.single ⟨hnb, hv.trans hfb.symm, by rw [hv]; rfl⟩, hab⟩
  obtain ⟨An, Ag, ⟨Atl, At⟩, Af, Ac⟩ := bfsAux_spec ctx.p.rows ctx.p.cols
    (fun nb => decide (alookup st.assign nb = some v)) (ctx.p.rows * ctx.p.cols + 8)
    ((neighbors4 ctx.p.rows ctx.p.cols rc).filter
      (fun nb => decide (alookup st.assign nb = some v)))
    ((neighbors4 ctx.p.rows ctx.p.cols rc).filter
      (fun nb => decide (alookup st.assign nb = some v)))
    (List.Nodup.filter _ (neighbors4_nodup ctx.p.rows ctx.p.cols rc))
    (fun b hb => neighbors4_grid ctx.p.rows ctx.p.cols rc hr hc b (List.mem_filter.1 hb).1)
    (List.Nodup.filter _ (neighbors4_nodup ctx.p.rows ctx.p.cols rc))
    (fun b hb => ⟨hb, (List.mem_filter.1 hb).2⟩)
    (fun b hb => Or.inl hb)
    (by
      have h1 := List.length_filter_le (fun nb => decide (alookup st.assign nb = some v))
        (neighbors4 ctx.p.rows ctx.p.cols rc)
      have h2 := neighbors4_length_le ctx.p.rows ctx.p.cols rc
      omega)
  have hmemK : ∀ x ∈ bfsAux ctx.p.rows ctx.p.cols
      (fun nb => decide (alookup st.assign nb = some v)) (ctx.p.rows * ctx.p.cols + 8)
      ((neighbors4 ctx.p.rows ctx.p.cols rc).filter
        (fun nb => decide (alookup st.assign nb = some v)))
      ((neighbors4 ctx.p.rows ctx.p.cols rc).filter
        (fun nb => decide (alookup st.assign nb = some v))),
      Relation.ReflTransGen (adjSameF ctx.p.rows ctx.p.cols f) rc x
        ∧ alookup st.assign x = some v := by
    intro x hx
    rcases Af x hx with h | ⟨a, ha, hrtg⟩
    · exact hseedsub x h
    · obtain ⟨hrca, haa⟩ := hseedsub a ha
      have key : Relation.ReflTransGen (adjSameF ctx.p.rows ctx.p.cols f) a x
          ∧ alookup st.assign x = some v := by
        clear hx
        induction hrtg with
        | refl => exact ⟨Relation.ReflTransGen.refl, haa⟩
        | tail h1 h2 ih =>
          obtain ⟨hih, hbv⟩ := ih
          have hcv : alookup st.assign _ = some v := of_decide_eq_true h2.2.2
          have hfb : f _ = some v := hC.1 _ v hbv
          have hfc : f _ = some v := hC.1 _ v hcv
          exact ⟨Relation.ReflTransGen.tail hih
            ⟨h2.1, hfb.trans hfc.symm, by rw [hfb]; rfl⟩, hcv⟩
      exact ⟨Relation.ReflTransGen.trans hrca key.1, key.2⟩
  have hA : ¬(1 + (bfsAux ctx.p.rows ctx.p.cols
      (fun nb => decide (alookup st.assign nb = some v)) (ctx.p.rows * ctx.p.cols + 8)
      ((neighbors4 ctx.p.rows ctx.p.cols rc).filter
        (fun nb => decide (alookup st.assign nb = some v)))
      ((neighbors4 ctx.p.rows ctx.p.cols rc).filter
        (fun nb => decide (alookup st.assign nb = some v)))).length > v.1) := by
    have hsub : ↑(bfsAux ctx.p.rows ctx.p.cols
        (fun nb => decide (alookup st.assign nb = some v)) (ctx.p.rows * ctx.p.cols + 8)
        ((neighbors4 ctx.p.rows ctx.p.cols rc).filter
          (fun nb => decide (alookup st.assign nb = some v)))
        ((neighbors4 ctx.p.rows ctx.p.cols rc).filter
          (fun nb => decide (alookup st.assign nb = some v)))).toFinset ⊆
        {y | Relation.ReflTransGen (adjSameF ctx.p.rows ctx.p.cols f) rc y} \ {rc} := by
      intro x hx
      rw [Finset.mem_coe, List.mem_toFinset] at hx
      obtain ⟨hxK, hxa⟩ := hmemK x hx
      refine Set.mem_diff_singleton.2 ⟨hxK, ?_⟩
      intro hh
      subst hh
      rw [hun] at hxa
      exact Option.noConfusion hxa
    have hle := Set.ncard_le_ncard hsub (hKfin.subset Set.diff_subset)
    rw [Set.ncard_coe_Finset] at hle
    rw [List.toFinset_card_of_nodup An] at hle
    rw [Set.ncard_diff_singleton_of_mem hrcK hKfin, hKcard] at hle
    have hpos : 0 < v.1 := by
      rw [← hKcard]
      exact (Set.ncard_pos hKfin).2 ⟨rc, hrcK⟩
    omega
  -- Part B: the capacity BFS from rc covers the whole component of f.
  have hallow : ∀ y, Relation.ReflTransGen (adjSameF ctx.p.rows ctx.p.cols f) rc y →
      (fun xy => match alookup st.assign xy with
        | some w => decide (w = v)
        | none => decide (v ∈ st.dom xy)) y = true := by
    intro y hy
    have hfy : f y = some v := (adjFRtg_value _ _ f rc y hy).trans hv
    show (match alookup st.assign y with
      | some w => decide (w = v)
      | none => decide (v ∈ st.dom y)) = true
    cases halo : alookup st.assign y with
    | some w =>
      have hwv : w = v := by
        have := (hC.1 y w halo).symm.trans hfy
        exact Option.some.inj this
      exact decide_eq_true hwv
    | none =>
      obtain ⟨hy1, hy2⟩ := hKg y hy
      exact decide_eq_true (hC.2 y v hy1 hy2 halo hfy)
  have hB : (bfsAux ctx.p.rows ctx.p.cols
      (fun xy => match alookup st.assign xy with
        | some w => decide (w = v)
        | none => decide (v ∈ st.dom xy)) (ctx.p.rows * ctx.p.cols + 8) [rc] [rc]).length
      ≥ v.1 := by
    have hchar := fun x => bfsAux_mem_iff ctx.p.rows ctx.p.cols
      (fun xy => match alookup st.assign xy with
        | some w => decide (w = v)
        | none => decide (v ∈ st.dom xy)) (ctx.p.rows * ctx.p.cols + 8) [rc] [rc]
      (List.nodup_singleton rc) (by
        intro b hb
        rw [List.mem_singleton] at hb
        rw [hb]
        exact ⟨hr, hc⟩)
      (List.nodup_singleton rc)
      (by
        intro b hb
        rw [List.mem_singleton] at hb
        rw [hb]
        exact ⟨List.mem_singleton.2 rfl, hallow rc Relation.ReflTransGen.refl⟩)
      (fun b hb => Or.inl (by rwa [List.mem_singleton] at hb ⊢))
      (by simp only [List.length_singleton]; omega) x
    obtain ⟨Bn, _, _, _, _⟩ := bfsAux_spec ctx.p.rows ctx.p.cols
      (fun xy => match alookup st.assign xy with
        | some w => decide (w = v)
        | none => decide (v ∈ st.dom xy)) (ctx.p.rows * ctx.p.cols + 8) [rc] [rc]
      (List.nodup_singleton rc) (by
        intro b hb
        rw [List.mem_singleton] at hb
        rw [hb]
        exact ⟨hr, hc⟩)
      (List.nodup_singleton rc)
      (by
        intro b hb
        rw [List.mem_singleton] at hb
        rw [hb]
        exact ⟨List.mem_singleton.2 rfl, hallow rc Relation.ReflTransGen.refl⟩)
      (fun b hb => Or.inl (by rwa [List.mem_singleton] at hb ⊢))
      (by simp only [List.length_singleton]; omega)
    have hsubK : {y | Relation.ReflTransGen (adjSameF ctx.p.rows ctx.p.cols f) rc y} ⊆
        ↑(bfsAux ctx.p.rows ctx.p.cols
          (fun xy => match alookup st.assign xy with
            | some w => decide (w = v)
            | none => decide (v ∈ st.dom xy)) (ctx.p.rows * ctx.p.cols + 8)
          [rc] [rc]).toFinset := by
      intro y hy
      rw [Finset.mem_coe, List.mem_toFinset]
      have key : Relation.ReflTransGen (okStep ctx.p.rows ctx.p.cols
          (fun xy => match alookup st.assign xy with
            | some w => decide (w = v)
            | none => decide (v ∈ st.dom xy))) rc y := by
        clear hchar
        induction hy with
        | refl => exact Relation.ReflTransGen.refl
        | tail h1 h2 ih =>
          exact Relation.ReflTransGen.tail ih
            ⟨h2.1, hallow _ h1, hallow _ (Relation.ReflTransGen.tail h1 h2)⟩
      exact (hchar y).2 (Or.inr ⟨rc, List.mem_singleton.2 rfl, key⟩)
    have hle := Set.ncard_le_ncard hsubK (Finset.finite_toSet _)
    rw [Set.ncard_coe_Finset, List.toFinset_card_of_nodup Bn, hKcard] at hle
    exact hle
  rw [block_feasible]
  rw [if_neg hA]
  exact decide_eq_true hB

/-- Assigning a compatible value and pruning keeps the solution
compatible with the deeper state. -/
theorem compat_assign_prune {σ : Type _} (ctx : SolverCtx σ) (st : SState σ)
    (f : Coord → Option Val) (hf : IsSolution ctx.p f) (hC : Compat ctx.p f st)
    (rc : Coord) (v : Val) (hun : alookup st.assign rc = none) (hv : f rc = some v) :
    Compat ctx.p f ({ assign_val st rc v with
      dom := (forward_check_prune ctx (assign_val st rc v) rc v).2 }) := by
  constructor
  · intro x w hx
    have hx' : alookup (st.assign ++ [(rc, v)]) x = some w := hx
    rw [alookup_append_or] at hx'
    by_cases hxs : (alookup st.assign x).isSome = true
    · rw [if_pos hxs] at hx'
      exact hC.1 x w hx'
    · rw [if_neg hxs] at hx'
      rw [alookup] at hx'
      by_cases hrx : rc = x
      · rw [if_pos hrx] at hx'
        obtain rfl : v = w := Option.some.inj hx'
        rw [← hrx]
        exact hv
      · rw [if_neg hrx] at hx'
        simp [alookup] at hx'
  · intro x w hx1 hx2 hnone hfx
    have hnone' : alookup (st.assign ++ [(rc, v)]) x = none := hnone
    rw [alookup_append_none] at hnone'
    obtain ⟨hn1, hn2⟩ := hnone'
    have hxrc : ¬ rc = x := by
      intro hh
      rw [alookup, if_pos hh] at hn2
      exact Option.noConfusion hn2
    show w ∈ (forward_check_prune ctx (assign_val st rc v) rc v).2 x
    apply forward_check_prune_dom_mem ctx (assign_val st rc v) rc v x w
      (fun hh => hxrc hh.symm) (hC.2 x w hx1 hx2 hn1 hfx)
    intro hnb
    rintro ⟨hne, hcol⟩
    exact hf.2.2.2.2.2.2.1 rc x hnb v w hv hfx (Ne.symm hne) hcol.symm

/-- A complete assignment with distinct in-grid keys covers every grid
cell. -/
theorem complete_total {σ : Type _} (p : Puzzle) (st : SState σ) (hK : KeysOK p st)
    (hlen : st.assign.length = p.rows * p.cols) (rc : Coord) (hrc : rc ∈ cellsList p) :
    ∃ v, alookup st.assign rc = some v := by
  have hsub : (st.assign.map Prod.fst).toFinset ⊆ (cellsList p).toFinset := by
    intro x hx
    rw [List.mem_toFinset] at hx ⊢
    exact hK.2 x hx
  have hcards : (cellsList p).toFinset.card ≤ (st.assign.map Prod.fst).toFinset.card := by
    rw [List.toFinset_card_of_nodup hK.1, List.length_map, hlen,
      List.toFinset_card_of_nodup (cellsList_nodup p), cellsList_length]
  have heq : (st.assign.map Prod.fst).toFinset = (cellsList p).toFinset :=
    Finset.eq_of_subset_of_card_le hsub hcards
  have hkey : rc ∈ st.assign.map Prod.fst := by
    rw [← List.mem_toFinset, heq, List.mem_toFinset]
    exact hrc
  obtain ⟨⟨k, w⟩, hmem, hke⟩ := List.mem_map.1 hkey
  refine ⟨w, ?_⟩
  rw [← hke]
  exact alookup_of_mem st.assign hK.1 k w hmem

/-- At a complete compatible state the assignment map IS the solution. -/
theorem complete_compat_eq {σ : Type _} (ctx : SolverCtx σ) (st : SState σ)
    (f : Coord → Option Val) (hf : IsSolution ctx.p f)
    (hK : KeysOK ctx.p st) (hC : Compat ctx.p f st)
    (hcomp : is_complete ctx st = true) :
    ∀ x, alookup st.assign x = f x := by
  have hlen : st.assign.length = ctx.p.rows * ctx.p.cols := of_decide_eq_true hcomp
  intro x
  by_cases hxg : x.1 < ctx.p.rows ∧ x.2 < ctx.p.cols
  · obtain ⟨w, hw⟩ := complete_total ctx.p st hK hlen x ((cellsList_mem ctx.p x).2 hxg)
    rw [hw, hC.1 x w hw]
  · have hf0 : f x = none := by
      cases hfx : f x with
      | none => rfl
      | some w => exact absurd ((hf.2.2.1 x).1 (by rw [hfx]; rfl)) hxg
    rw [hf0]
    cases halk : alookup st.assign x with
    | none => rfl
    | some w =>
      exfalso
      have hmem : x ∈ st.assign.map Prod.fst :=
        List.mem_map.2 ⟨(x, w), alookup_mem _ _ _ halk, rfl⟩
      exact hxg ((cellsList_mem ctx.p x).1 (hK.2 x hmem))

theorem list_eq_of_getI : ∀ (l1 l2 : List Int), l1.length = l2.length →
    (∀ i, listGetI l1 i = listGetI l2 i) → l1 = l2 := by
  intro l1
  induction l1 with
  | nil =>
    intro l2 h _
    cases l2 with
    | nil => rfl
    | cons y ys => simp at h
  | cons x xs ih =>
    intro l2 h hg
    cases l2 with
    | nil => simp at h
    | cons y ys =>
      have h0 : x = y := by
        have := hg 0
        simpa [listGetI] using this
      have htl : xs = ys := by
        apply ih ys (by simpa using h)
        intro i
        have := hg (i + 1)
        simpa [listGetI] using this
      rw [h0, htl]

/-- At a complete state matching a solution the exact-sum check passes. -/
theorem terminal_sums_exact {σ : Type _} (ctx : SolverCtx σ) (st : SState σ)
    (f : Coord → Option Val) (hf : IsSolution ctx.p f)
    (hK : KeysOK ctx.p st) (hS : SumsInv ctx.p st)
    (heq : ∀ x, alookup st.assign x = f x) :
    sums_exact_ok ctx st = true := by
  rw [sums_exact_ok, decide_eq_true_eq]
  constructor
  · apply list_eq_of_getI st.rowSumNow ctx.p.row_sums (by rw [hS.1, hf.1])
    intro i
    by_cases hi : i < ctx.p.rows
    · have hrow := rowSumNow_eq ctx.p st hK hS i
      have htar := hf.2.2.2.2.1 i hi
      rw [hrow, ← htar]
      refine congrArg List.sum (List.map_congr_left (fun c _ => ?_))
      rw [numAt, numAt, heq]
    · have e1 : listGetI st.rowSumNow i = 0 := by
        rw [listGetI]
        apply List.getD_eq_default
        rw [hS.1]
        omega
      have e2 : listGetI ctx.p.row_sums i = 0 := by
        rw [listGetI]
        apply List.getD_eq_default
        rw [hf.1]
        omega
      rw [e1, e2]
  · apply list_eq_of_getI st.colSumNow ctx.p.col_sums (by rw [hS.2.1, hf.2.1])
    intro i
    by_cases hi : i < ctx.p.cols
    · have hcol := colSumNow_eq ctx.p st hK hS i
      have htar := hf.2.2.2.2.2.1 i hi
      rw [hcol, ← htar]
      refine congrArg List.sum (List.map_congr_left (fun r _ => ?_))
      rw [numAt, numAt, heq]
    · have e1 : listGetI st.colSumNow i = 0 := by
        rw [listGetI]
        apply List.getD_eq_default
        rw [hS.2.1]
        omega
      have e2 : listGetI ctx.p.col_sums i = 0 := by
        rw [listGetI]
        apply List.getD_eq_default
        rw [hf.2.1]
        omega
      rw [e1, e2]

/-- Converse of the block-size scan: if every grid cell is assigned and
sized correctly, the scan succeeds. -/
theorem completeBlocksGo_complete (R C : Nat) (assign : List (Coord × Val))
    (hkeys : ∀ k : Coord, (alookup assign k).isSome = true → k.1 < R ∧ k.2 < C)
    (hprop : ∀ rc : Coord, rc.1 < R → rc.2 < C → ∃ w, alookup assign rc = some w ∧
      {x | Relation.ReflTransGen (adjSame R C assign) rc x}.ncard = w.1) :
    ∀ (l : List Coord) (seen : List Coord),
      (∀ b ∈ l, b.1 < R ∧ b.2 < C) →
      seen.Nodup → (∀ b ∈ seen, b.1 < R ∧ b.2 < C) →
      (∀ b ∈ seen, ∀ c, adjSame R C assign b c → c ∈ seen) →
      completeBlocksGo R C assign l seen = true := by
  intro l
  induction l with
  | nil =>
    intro seen _ _ _ _
    rfl
  | cons rc rest ih =>
    intro seen hl hsn hsg hclosed
    have hrcg := hl rc (List.mem_cons_self _ _)
    rw [completeBlocksGo]
    by_cases hseen : rc ∈ seen
    · rw [if_pos hseen]
      exact ih seen (fun b hb => hl b (List.mem_cons_of_mem _ hb)) hsn hsg hclosed
    · rw [if_neg hseen]
      obtain ⟨w, hw, hcard⟩ := hprop rc hrcg.1 hrcg.2
      rw [hw]
      obtain ⟨Bn, Bg, Bchar, Bcount⟩ := bfs_component R C assign w rc hkeys seen hsn hsg
        hclosed hw hseen
      dsimp only
      rw [if_pos (Bcount.trans hcard)]
      apply ih
      · exact fun b hb => hl b (List.mem_cons_of_mem _ hb)
      · exact Bn
      · exact Bg
      · intro b hb c hbc
        rcases (Bchar b).1 hb with h | h
        · exact (Bchar c).2 (Or.inl (hclosed b h c hbc))
        · exact (Bchar c).2 (Or.inr (Relation.ReflTransGen.tail h hbc))

theorem completeBlocksOkA_complete (p : Puzzle) (assign : List (Coord × Val))
    (hkeys : ∀ k : Coord, (alookup assign k).isSome = true → k.1 < p.rows ∧ k.2 < p.cols)
    (hprop : ∀ rc : Coord, rc.1 < p.rows → rc.2 < p.cols →
      ∃ w, alookup assign rc = some w ∧
        {x | Relation.ReflTransGen (adjSame p.rows p.cols assign) rc x}.ncard = w.1) :
    completeBlocksOkA p assign = true := by
  rw [completeBlocksOkA]
  apply completeBlocksGo_complete p.rows p.cols assign hkeys hprop (cellsList p) []
  · intro b hb
    exact (cellsList_mem p b).1 hb
  · exact List.nodup_nil
  · intro b hb
    exact absurd hb (List.not_mem_nil b)
  · intro b hb
    exact absurd hb (List.not_mem_nil b)

/-- At a complete state matching a solution the block-size check passes. -/
theorem terminal_blocks_ok {σ : Type _} (ctx : SolverCtx σ) (st : SState σ)
    (f : Coord → Option Val) (hf : IsSolution ctx.p f)
    (heq : ∀ x, alookup st.assign x = f x) :
    complete_blocks_ok ctx st = true := by
  have hrel : adjSame ctx.p.rows ctx.p.cols st.assign
      = adjSameF ctx.p.rows ctx.p.cols f := by
    have hfeq : alookup st.assign = f := funext heq
    show adjSameF ctx.p.rows ctx.p.cols (alookup st.assign)
      = adjSameF ctx.p.rows ctx.p.cols f
    rw [hfeq]
  rw [complete_blocks_ok]
  apply completeBlocksOkA_complete
  · intro k hk
    rw [heq k] at hk
    exact (hf.2.2.1 k).1 hk
  · intro rc h1 h2
    obtain ⟨w, hw⟩ := Option.isSome_iff_exists.1 ((hf.2.2.1 rc).2 ⟨h1, h2⟩)
    refine ⟨w, by rw [heq rc, hw], ?_⟩
    rw [hrel]
    exact hf.2.2.2.2.2.2.2 rc w hw

/-- Assign-and-prune preserves the counting invariant (the entry step of
one value iteration). -/
theorem inv4_assign_prune {σ : Type _} (ctx : SolverCtx σ) (st : SState σ)
    (rc : Coord) (v : Val) (hI : Inv4 ctx.p st) (hrcC : rc ∈ cellsList ctx.p)
    (hrc : alookup st.assign rc = none) (hv : v ∈ st.dom rc)
    (hguard : color_adjacency_ok ctx st rc v = true) :
    Inv4 ctx.p ({ assign_val st rc v with
      dom := (forward_check_prune ctx (assign_val st rc v) rc v).2 }) := by
  have hrckeys : rc ∉ st.assign.map Prod.fst := (alookup_eq_none st.assign rc).1 hrc
  have hrcg := (cellsList_mem ctx.p rc).1 hrcC
  have hKD := keysOK_append ctx.p st rc v hI.1 hrcC hrckeys
  refine ⟨⟨hKD.1, hKD.2⟩, ?_, ?_, ?_, ?_⟩
  · intro x
    exact Finset.Subset.trans
      (forward_check_prune_dom_subset ctx (assign_val st rc v) rc v x) (hI.2.1 x)
  · intro rcv hmem
    rcases List.mem_append.1 hmem with h | h
    · exact hI.2.2.1 rcv h
    · rw [List.mem_singleton] at h
      subst h
      exact hI.2.1 rc hv
  · exact sumsInv_assign ctx.p st rc v hI.2.2.2.1 hrcg.1 hrcg.2
  · exact colorAdjA_assign ctx st rc v hI.2.2.2.2 hI.1.1 hI.1.2 hrcg hguard

/-- Completeness of the value loop: if the current cell's solution value
appears among the candidate values and the final solution count stays
below the cutoff, some recorded solution matches the full solution. -/
theorem loopVals_complete {σ : Type _} (ctx : SolverCtx σ) (hft : ctx.findTwo = true)
    (f : Coord → Option Val) (hf : IsSolution ctx.p f)
    (next : SState σ → Bool × SState σ)
    (hnextI : ∀ st, Inv4 ctx.p st → (∀ sol ∈ st.solutions, RecordedGood ctx.p sol) →
      (Inv4 ctx.p (next st).2 ∧ (∀ sol ∈ (next st).2.solutions, RecordedGood ctx.p sol)) ∧
        SameCore (next st).2 st)
    (hnextM : ∀ st, ∃ tl, (next st).2.solutions = st.solutions ++ tl)
    (rc : Coord) (hrcC : rc ∈ cellsList ctx.p) (vstar : Val) (hvstar : f rc = some vstar)
    (st0 : SState σ)
    (hnextC : ∀ st1, Inv4 ctx.p st1 → (∀ sol ∈ st1.solutions, RecordedGood ctx.p sol) →
      Compat ctx.p f st1 → st1.assign.length = st0.assign.length + 1 →
      (next st1).2.solutions.length < ctx.maxSolutions →
      ∃ sol ∈ (next st1).2.solutions, ∀ x, alookup sol x = f x) :
    ∀ (vs : List Val) (st : SState σ),
      Inv4 ctx.p st → (∀ sol ∈ st.solutions, RecordedGood ctx.p sol) →
      Compat ctx.p f st → SameCore st st0 →
      alookup st.assign rc = none → (∀ v ∈ vs, v ∈ st.dom rc) → vstar ∈ vs →
      (loopVals ctx next rc vs st).2.solutions.length < ctx.maxSolutions →
      ∃ sol ∈ (loopVals ctx next rc vs st).2.solutions, ∀ x, alookup sol x = f x := by
  intro vs
  induction vs with
  | nil =>
    intro st _ _ _ _ _ _ hvm _
    exact absurd hvm (List.not_mem_nil vstar)
  | cons v vs ih =>
    intro st hI hrec hC hcore hrcn hvs hvm hlen
    rw [loopVals] at hlen ⊢
    by_cases hg : (sums_ok_local ctx st rc v && color_adjacency_ok ctx st rc v &&
        block_feasible ctx st rc v) = true
    · rw [if_pos hg] at hlen ⊢
      rw [Bool.and_eq_true, Bool.and_eq_true] at hg
      have hstep := loopStep_inv4 ctx next hnextI rc v st hI hrec hrcC hrcn
        (hvs v (List.mem_cons_self v vs)) hg.1.2
      dsimp only at hlen ⊢
      rw [if_neg (fun h => h.2 hft)] at hlen ⊢
      by_cases hstop : ctx.findTwo = true ∧
          (loopStep ctx next rc v st).2.solutions.length ≥ ctx.maxSolutions
      · rw [if_pos hstop] at hlen ⊢
        dsimp only at hlen
        exact absurd hlen (not_lt.2 hstop.2)
      · rw [if_neg hstop] at hlen ⊢
        by_cases hvv : v = vstar
        · have hfv : f rc = some v := by
            rw [hvv]
            exact hvstar
          have hI2 : Inv4 ctx.p ({ assign_val st rc v with
              dom := (forward_check_prune ctx (assign_val st rc v) rc v).2 }) :=
            inv4_assign_prune ctx st rc v hI hrcC hrcn
              (hvs v (List.mem_cons_self v vs)) hg.1.2
          have hC2 := compat_assign_prune ctx st f hf hC rc v hrcn hfv
          have hlen2 : ({ assign_val st rc v with
              dom := (forward_check_prune ctx (assign_val st rc v) rc v).2 } :
                SState σ).assign.length = st0.assign.length + 1 := by
            show (st.assign ++ [(rc, v)]).length = st0.assign.length + 1
            rw [List.length_append, hcore.2.1]
            rfl
          have hsols : (loopStep ctx next rc v st).2.solutions
              = (next ({ assign_val st rc v with
                dom := (forward_check_prune ctx (assign_val st rc v) rc v).2 })).2.solutions :=
            rfl
          obtain ⟨tl, htl⟩ := loopVals_mono ctx next hnextM rc vs (loopStep ctx next rc v st).2
          rw [htl] at hlen ⊢
          rw [List.length_append] at hlen
          have hnl : (next ({ assign_val st rc v with
              dom := (forward_check_prune ctx (assign_val st rc v) rc v).2
              })).2.solutions.length < ctx.maxSolutions := by
            rw [← hsols]
            omega
          obtain ⟨sol, hsolm, hsole⟩ := hnextC _ hI2 hrec hC2 hlen2 hnl
          refine ⟨sol, ?_, hsole⟩
          apply List.mem_append_left
          rw [hsols]
          exact hsolm
        · apply ih (loopStep ctx next rc v st).2 hstep.1.1 hstep.1.2
            (compat_congr ctx.p f _ st hstep.2.1 hstep.2.2.1 hC)
            (sameCore_trans _ _ _ hstep.2 hcore)
            (by rw [hstep.2.2.1]; exact hrcn)
            (fun w hw => by
              rw [congrFun hstep.2.1 rc]
              exact hvs w (List.mem_cons_of_mem v hw))
            ?_ hlen
          rcases List.mem_cons.1 hvm with h | h
          · exact absurd h.symm hvv
          · exact h
    · rw [if_neg hg] at hlen ⊢
      apply ih st hI hrec hC hcore hrcn
        (fun w hw => hvs w (List.mem_cons_of_mem v hw)) ?_ hlen
      rcases List.mem_cons.1 hvm with h | h
      · exfalso
        apply hg
        rw [Bool.and_eq_true, Bool.and_eq_true]
        rw [← h]
        have hrcg := (cellsList_mem ctx.p rc).1 hrcC
        exact ⟨⟨sums_ok_local_sound ctx st f hf hI.1 hI.2.2.2.1 hC rc vstar
            hrcg.1 hrcg.2 hrcn hvstar,
          color_adjacency_sound ctx st f hf hC rc vstar hvstar⟩,
          block_feasible_sound ctx st f hf hI.1 hC rc vstar hrcg.1 hrcg.2 hrcn hvstar⟩
      · exact h

/-- Completeness of `dfs`: with enough fuel, if the run never reaches the
solution cutoff then every solution of the puzzle is recorded. -/
theorem dfsGo_complete {σ : Type _} (ctx : SolverCtx σ) (hft : ctx.findTwo = true)
    (hcard : (baseDomVals ctx.p).card < 10 ^ 18)
    (f : Coord → Option Val) (hf : IsSolution ctx.p f) :
    ∀ (fuel : Nat) (st : SState σ), Inv4 ctx.p st →
      (∀ sol ∈ st.solutions, RecordedGood ctx.p sol) →
      Compat ctx.p f st →
      ctx.p.rows * ctx.p.cols + 1 ≤ fuel + st.assign.length →
      (dfsGo ctx fuel st).2.solutions.length < ctx.maxSolutions →
      ∃ sol ∈ (dfsGo ctx fuel st).2.solutions, ∀ x, alookup sol x = f x := by
  intro fuel
  induction fuel with
  | zero =>
    intro st hI _ _ hfuel _
    exfalso
    have hkg := length_le_grid ctx.p.rows ctx.p.cols (st.assign.map Prod.fst) hI.1.1
      (fun b hb => (cellsList_mem ctx.p b).1 (hI.1.2 b hb))
    rw [List.length_map] at hkg
    omega
  | succ n ih =>
    intro st hI hrec hC hfuel hlen
    rw [dfsGo] at hlen ⊢
    rw [dfsBody] at hlen ⊢
    have hgb := global_bounds_sound ctx st f hf hI.1 hI.2.2.2.1 hC
    rw [if_neg (not_not_intro hgb)] at hlen ⊢
    by_cases hcomp : is_complete ctx st = true
    · rw [if_pos hcomp] at hlen ⊢
      have heq := complete_compat_eq ctx st f hf hI.1 hC hcomp
      have hterm : (sums_exact_ok ctx st && complete_blocks_ok ctx st) = true := by
        rw [Bool.and_eq_true]
        exact ⟨terminal_sums_exact ctx st f hf hI.1 hI.2.2.2.1 heq,
          terminal_blocks_ok ctx st f hf heq⟩
      rw [if_pos hterm] at hlen ⊢
      refine ⟨st.assign, ?_, heq⟩
      show st.assign ∈ st.solutions ++ [st.assign]
      exact List.mem_append_right _ (List.mem_singleton.2 rfl)
    · rw [if_neg hcomp] at hlen ⊢
      dsimp only at hlen ⊢
      have hsel := select_mrv_spec ctx st hcard hI.1
        (fun x => Finset.Subset.trans (hI.2.1 x) (initDom_subset ctx.p x)) hcomp
      have hrcg := (cellsList_mem ctx.p _).1 hsel.1
      obtain ⟨vstar, hvstar⟩ :=
        Option.isSome_iff_exists.1 ((hf.2.2.1 (select_mrv ctx st)).2 hrcg)
      have hvdom : vstar ∈ st.dom (select_mrv ctx st) :=
        hC.2 _ vstar hrcg.1 hrcg.2 hsel.2 hvstar
      apply loopVals_complete ctx hft f hf (dfsGo ctx n) (dfsGo_inv4 ctx hcard n)
        (dfsGo_mono ctx n) (select_mrv ctx st) hsel.1 vstar hvstar
        (order_values ctx st (select_mrv ctx st)).2 ?_
        (order_values ctx st (select_mrv ctx st)).1
        (order_values ctx st (select_mrv ctx st)).2
        hI hrec hC ⟨rfl, rfl, rfl, rfl⟩ hsel.2
        (fun w hw => order_values_mem ctx st (select_mrv ctx st) w hw)
        ((order_values_mem_iff ctx st (select_mrv ctx st) vstar).2 hvdom)
        hlen
      intro st1 hI1 hrec1 hC1 hlen1 hnl
      apply ih st1 hI1 hrec1 hC1 ?_ hnl
      have hlen1' : st1.assign.length = st.assign.length + 1 := hlen1
      omega

theorem inv4_init {σ : Type _} (p : Puzzle) (rng : σ) : Inv4 p (initState p rng) := by
  refine ⟨⟨List.nodup_nil, fun k hk => absurd hk (List.not_mem_nil k)⟩,
    fun x => Finset.Subset.refl _,
    fun rcv h => absurd h (List.not_mem_nil rcv),
    ⟨by simp [initState], by simp [initState], ?_, ?_⟩,
    fun a ha => absurd ha (List.not_mem_nil a)⟩
  · intro r
    simp [initState, listGetI, alookup]
  · intro c
    simp [initState, listGetI, alookup]

theorem compat_init {σ : Type _} (p : Puzzle) (rng : σ) (f : Coord → Option Val)
    (hf : IsSolution p f) : Compat p f (initState p rng) := by
  constructor
  · intro x v hx
    simp [initState, alookup] at hx
  · intro x v _ _ _ hfx
    exact hf.2.2.2.1 x v hfx

/-- C4: `count_solutions(p, limit, seed)` (for `limit ≥ 1` and a puzzle with
fewer than `10^18` candidate values, the sentinel of `select_mrv`) returns a
value in `[0, limit]`; its value always counts that many pairwise-distinct
genuine solutions (so a return of `limit` certifies at least `limit`
solutions exist); and a return below `limit` equals the exact number of
solutions of the puzzle, as the `ncard` of the set of assignments
satisfying all the solver's rules. -/
theorem C4_count_solutions {σ : Type _} (p : Puzzle) (rb : Nat → σ → Nat × σ) (rng : σ)
    (limit : Nat) (hlimit : 1 ≤ limit) (hcard : (baseDomVals p).card < 10 ^ 18) :
    count_solutions p limit rb rng ≤ limit ∧
    (∃ T : Finset (Coord → Option Val), T.card = count_solutions p limit rb rng ∧
      ∀ g ∈ T, IsSolution p g) ∧
    (count_solutions p limit rb rng < limit →
      {g : Coord → Option Val | IsSolution p g}.ncard = count_solutions p limit rb rng) := by
  have hsound : ∀ sol ∈ (solveAll p rb rng true limit).1, IsSolution p (alookup sol) :=
    fun sol hs => recordedGood_isSolution p sol
      (solveAll_recordedGood p rb rng true limit hcard sol hs)
  have hpw := solveAll_distinct p rb rng true limit hcard
  have hLnodup : ((solveAll p rb rng true limit).1.map alookup).Nodup := by
    show ((solveAll p rb rng true limit).1.map alookup).Pairwise (fun a b => a ≠ b)
    rw [List.pairwise_map]
    refine List.Pairwise.imp ?_ hpw
    intro a b h heq
    obtain ⟨x, hx⟩ := h
    exact hx (congrFun heq x)
  have hMn : Multiset.Nodup
      (↑((solveAll p rb rng true limit).1.map alookup) : Multiset (Coord → Option Val)) := by
    rw [Multiset.coe_nodup]
    exact hLnodup
  refine ⟨?_, ⟨⟨↑((solveAll p rb rng true limit).1.map alookup), hMn⟩, ?_, ?_⟩, ?_⟩
  · show (solveAll p rb rng true limit).1.length ≤ limit
    exact dfsGo_bound { p := p, rb := rb, findTwo := true, maxSolutions := limit } rfl
      (p.rows * p.cols + 1) (initState p rng) hlimit
  · rw [Finset.card_mk, Multiset.coe_card, List.length_map]
    rfl
  · intro g hg
    rw [Finset.mem_mk, Multiset.mem_coe, List.mem_map] at hg
    obtain ⟨sol, hs, he⟩ := hg
    rw [← he]
    exact hsound sol hs
  · intro hlt
    have hset : {g : Coord → Option Val | IsSolution p g}
        = ↑(⟨↑((solveAll p rb rng true limit).1.map alookup), hMn⟩ :
            Finset (Coord → Option Val)) := by
      ext g
      rw [Set.mem_setOf_eq, Finset.mem_coe, Finset.mem_mk, Multiset.mem_coe]
      constructor
      · intro hg
        have hcc := dfsGo_complete
          { p := p, rb := rb, findTwo := true, maxSolutions := limit }
          rfl hcard g hg (p.rows * p.cols + 1) (initState p rng)
          (inv4_init p rng) (fun sol h => absurd h (List.not_mem_nil sol))
          (compat_init p rng g hg) (by simp [initState]) hlt
        obtain ⟨sol, hs, he⟩ := hcc
        rw [List.mem_map]
        exact ⟨sol, hs, funext he⟩
      · intro hg
        obtain ⟨sol, hs, he⟩ := List.mem_map.1 hg
        rw [← he]
        exact hsound sol hs
    rw [hset, Set.ncard_coe_Finset, Finset.card_mk, Multiset.coe_card, List.length_map]
    rfl

theorem C4_count_solutions_witness :
    (1 ≤ 2 ∧ (baseDomVals puzzle11).card < 10 ^ 18) ∧
    (count_solutions puzzle11 2 rbZero () ≤ 2 ∧
      (∃ T : Finset (Coord → Option Val), T.card = count_solutions puzzle11 2 rbZero () ∧
        ∀ g ∈ T, IsSolution puzzle11 g) ∧
      (count_solutions puzzle11 2 rbZero () < 2 →
        {g : Coord → Option Val | IsSolution puzzle11 g}.ncard
          = count_solutions puzzle11 2 rbZero ())) :=
  ⟨⟨by decide, by decide⟩, C4_count_solutions puzzle11 rbZero () 2 (by decide) (by decide)⟩

end Numino
